import Mathlib

/-!
# Scene graph and ray picking: a verification development

The C++ sources under `Source/` (`Ray.cpp`, `SceneNode.cpp`, `MainCode.cpp`,
`SceneManager.cpp`) are embedded as Lean functions and the properties of the
scene-graph / picking core are proved about them.

## Numbers

The program computes with `float`.  The embedding idealises `float` as follows.

* `K` is any linearly ordered field (`ℚ` for concrete evaluation, `ℝ` as well).
  Scene data (positions, rotations, scales, model matrices) are finite numbers
  of `K`, computed exactly: no rounding, no overflow.
* `Fl K` extends `K` by the IEEE special values `-0`, `+∞`, `-∞` and `NaN`.
  Everything downstream of a division (`glm::inverse`, `glm::normalize`,
  `Ray::intersectsAABB`) is computed in `Fl K`, with the IEEE rules for the
  special values; comparisons with `NaN` are false.  A zero *result* is
  returned as `+0`; the sign of a zero matters to this program only when the
  zero is a divisor, and the theorems on `intersectsAABB` cover both signs.
* `cos`, `sin`, `inversesqrt` and the degree-to-radian factor are parameters
  (`GlmKernel`), with the exact values they have at `0` and `1`.
* Where the size or the sign of a `float` result is the property itself (the
  length of the direction that `Ray::Ray` and `Ray::fromMouse` store), the same
  sources are embedded a second time over `Binary32`: IEEE binary32 with
  rounding to nearest (ties to even), overflow to an infinity, gradual
  underflow and signed zeros.  `Ray32.ctor` and `Ray32.fromMouse` are that
  embedding; `Ray.ctor` and `Ray.fromMouse` are the exact one, in which a
  vector such as (0, 0, 2^100) is normalized to (0, 0, 1) where binary32 gives
  (0, 0, 0).

`glm` is an external library; the functions used by the sources are modelled
after its reference implementation (column-major `mat4`).
-/

/-! ## Extended floats -/

/-- Idealised `float`: a finite number, or one of the IEEE special values. -/
inductive Fl (K : Type) where
  | fin (v : K)
  | nzero
  | pinf
  | ninf
  | nan
deriving DecidableEq

namespace Fl

variable {K : Type} [LinearOrderedField K]

/-- Numeric value of a finite float (`-0` is `0`); `0` for the special values. -/
def num : Fl K → K
  | fin v => v
  | _ => 0

/-- The float is a finite number (`-0` included). -/
def isFinite : Fl K → Bool
  | fin _ => true
  | nzero => true
  | _ => false

/-- The float is `NaN`. -/
def isNaN : Fl K → Bool
  | nan => true
  | _ => false

/-- IEEE sign bit. -/
def signBit : Fl K → Bool
  | fin v => decide (v < 0)
  | nzero => true
  | pinf => false
  | ninf => true
  | nan => false

/-- Infinity of the given sign bit. -/
def inf (negative : Bool) : Fl K :=
  if negative then ninf else pinf

/-- IEEE `x < y`: false as soon as an operand is `NaN`. -/
def lt : Fl K → Fl K → Bool
  | nan, _ => false
  | _, nan => false
  | pinf, _ => false
  | _, ninf => false
  | ninf, _ => true
  | _, pinf => true
  | x, y => decide (x.num < y.num)

/-- IEEE `x > y`. -/
def gt (x y : Fl K) : Bool := lt y x

/-- IEEE `x <= y`: false as soon as an operand is `NaN`. -/
def le : Fl K → Fl K → Bool
  | nan, _ => false
  | _, nan => false
  | ninf, _ => true
  | _, pinf => true
  | pinf, _ => false
  | _, ninf => false
  | x, y => decide (x.num ≤ y.num)

/-- IEEE `x >= y`. -/
def ge (x y : Fl K) : Bool := le y x

/-- IEEE addition on the special values, exact on finite numbers. -/
def add : Fl K → Fl K → Fl K
  | nan, _ => nan
  | _, nan => nan
  | pinf, ninf => nan
  | ninf, pinf => nan
  | pinf, _ => pinf
  | ninf, _ => ninf
  | _, pinf => pinf
  | _, ninf => ninf
  | x, y => fin (x.num + y.num)

/-- IEEE subtraction on the special values, exact on finite numbers. -/
def sub : Fl K → Fl K → Fl K
  | nan, _ => nan
  | _, nan => nan
  | pinf, pinf => nan
  | ninf, ninf => nan
  | pinf, _ => pinf
  | ninf, _ => ninf
  | _, pinf => ninf
  | _, ninf => pinf
  | x, y => fin (x.num - y.num)

/-- IEEE multiplication: `0 * ∞ = NaN`, the sign of an infinite product is the
    exclusive or of the operands' sign bits. -/
def mul (x y : Fl K) : Fl K :=
  if x.isNaN || y.isNaN then nan
  else if x.isFinite && y.isFinite then fin (x.num * y.num)
  else if (x.isFinite && decide (x.num = 0)) || (y.isFinite && decide (y.num = 0)) then nan
  else inf (xor x.signBit y.signBit)

/-- IEEE division: `x / 0 = ±∞` for `x ≠ 0` (sign from both sign bits),
    `0 / 0 = ∞ / ∞ = NaN`, `x / ∞ = 0`. -/
def div (x y : Fl K) : Fl K :=
  if x.isNaN || y.isNaN then nan
  else if x.isFinite then
    if y.isFinite then
      if y.num = 0 then
        if x.num = 0 then nan else inf (xor x.signBit y.signBit)
      else fin (x.num / y.num)
    else fin 0
  else
    if y.isFinite then inf (xor x.signBit y.signBit) else nan

instance : Add (Fl K) := ⟨add⟩
instance : Sub (Fl K) := ⟨sub⟩
instance : Mul (Fl K) := ⟨mul⟩
instance : Div (Fl K) := ⟨div⟩
instance : Zero (Fl K) := ⟨fin 0⟩
instance : One (Fl K) := ⟨fin 1⟩

end Fl

/-! ## Vectors and matrices (`glm::vec3`, `glm::vec4`, `glm::mat4`) -/

/-- The type `glm::vec3`. -/
structure Vec3 (α : Type) where
  x : α
  y : α
  z : α
deriving DecidableEq

/-- The type `glm::vec4`. -/
structure Vec4 (α : Type) where
  x : α
  y : α
  z : α
  w : α
deriving DecidableEq

/-- The type `glm::mat4`, column-major: `c0 .. c3` are `m[0] .. m[3]`. -/
structure Mat4 (α : Type) where
  c0 : Vec4 α
  c1 : Vec4 α
  c2 : Vec4 α
  c3 : Vec4 α
deriving DecidableEq

namespace Vec3

variable {α β : Type}

/-- Componentwise image. -/
def map (f : α → β) (v : Vec3 α) : Vec3 β := ⟨f v.x, f v.y, f v.z⟩

/-- Product `v * s` of a vector by a scalar. -/
def scale [Mul α] (v : Vec3 α) (s : α) : Vec3 α := ⟨v.x * s, v.y * s, v.z * s⟩

/-- Product `s * v` of a scalar by a vector. -/
def smul [Mul α] (s : α) (v : Vec3 α) : Vec3 α := ⟨s * v.x, s * v.y, s * v.z⟩

end Vec3

namespace Vec4

variable {α β : Type}

/-- Componentwise image. -/
def map (f : α → β) (v : Vec4 α) : Vec4 β := ⟨f v.x, f v.y, f v.z, f v.w⟩

/-- Componentwise sum. -/
def add [Add α] (a b : Vec4 α) : Vec4 α := ⟨a.x + b.x, a.y + b.y, a.z + b.z, a.w + b.w⟩

/-- Componentwise difference. -/
def sub [Sub α] (a b : Vec4 α) : Vec4 α := ⟨a.x - b.x, a.y - b.y, a.z - b.z, a.w - b.w⟩

/-- Componentwise product `a * b` of two vectors. -/
def mul [Mul α] (a b : Vec4 α) : Vec4 α := ⟨a.x * b.x, a.y * b.y, a.z * b.z, a.w * b.w⟩

/-- Product `v * s` of a vector by a scalar. -/
def scale [Mul α] (v : Vec4 α) (s : α) : Vec4 α := ⟨v.x * s, v.y * s, v.z * s, v.w * s⟩

/-- Conversion `glm::vec3(v)`: drops `w`. -/
def xyz (v : Vec4 α) : Vec3 α := ⟨v.x, v.y, v.z⟩

/-- Constructor `glm::vec4(v, w)`. -/
def ofVec3 (v : Vec3 α) (w : α) : Vec4 α := ⟨v.x, v.y, v.z, w⟩

end Vec4

namespace Mat4

variable {α β : Type}

/-- Entrywise image. -/
def map (f : α → β) (m : Mat4 α) : Mat4 β := ⟨m.c0.map f, m.c1.map f, m.c2.map f, m.c3.map f⟩

/-- Constructor `glm::mat4(1.0f)`: the identity. -/
def identity [Zero α] [One α] : Mat4 α :=
  ⟨⟨1, 0, 0, 0⟩, ⟨0, 1, 0, 0⟩, ⟨0, 0, 1, 0⟩, ⟨0, 0, 0, 1⟩⟩

/-- Product `m * v` of `glm`: `(m[0]*v[0] + m[1]*v[1]) + (m[2]*v[2] + m[3]*v[3])`. -/
def mulVec [Add α] [Mul α] (m : Mat4 α) (v : Vec4 α) : Vec4 α :=
  ((m.c0.scale v.x).add (m.c1.scale v.y)).add ((m.c2.scale v.z).add (m.c3.scale v.w))

/-- One column of `m1 * m2` as `glm` computes it:
    `m1[0]*b[0] + m1[1]*b[1] + m1[2]*b[2] + m1[3]*b[3]`. -/
def mulCol [Add α] [Mul α] (m : Mat4 α) (b : Vec4 α) : Vec4 α :=
  (((m.c0.scale b.x).add (m.c1.scale b.y)).add (m.c2.scale b.z)).add (m.c3.scale b.w)

/-- Product `m1 * m2` of `glm`. -/
def mul [Add α] [Mul α] (m1 m2 : Mat4 α) : Mat4 α :=
  ⟨m1.mulCol m2.c0, m1.mulCol m2.c1, m1.mulCol m2.c2, m1.mulCol m2.c3⟩

instance [Add α] [Mul α] : Mul (Mat4 α) := ⟨mul⟩

end Mat4

/-! ## The `glm` functions used by the sources -/

/-- The transcendental functions of `glm` / `libm`, taken as parameters:
    `cos`, `sin`, `inversesqrt` on finite numbers and the constant
    `0.01745329251994329576923690768489` of `glm::radians`, together with the
    exact values these functions have at `0` and `1`. -/
structure GlmKernel (K : Type) [LinearOrderedField K] where
  cos : K → K
  sin : K → K
  inversesqrt : K → K
  degToRad : K
  cos_zero : cos 0 = 1
  sin_zero : sin 0 = 0
  inversesqrt_one : inversesqrt 1 = 1

namespace Fl

variable {K : Type} [LinearOrderedField K]

/-- Negation; the zero result is `+0` as for the other operations. -/
def neg : Fl K → Fl K
  | fin v => fin (-v)
  | nzero => fin 0
  | pinf => ninf
  | ninf => pinf
  | nan => nan

instance : Neg (Fl K) := ⟨neg⟩

/-- The function `glm::inversesqrt` on floats: `1 / sqrt(x)`, with
    `1/sqrt(+0) = +∞`, `1/sqrt(-0) = -∞`, `1/sqrt(+∞) = 0` and `NaN` for a
    negative argument. -/
def inversesqrt (g : GlmKernel K) : Fl K → Fl K
  | fin v => if v < 0 then nan else if v = 0 then pinf else fin (g.inversesqrt v)
  | nzero => ninf
  | pinf => fin 0
  | ninf => nan
  | nan => nan

end Fl

namespace glm

variable {K : Type} [LinearOrderedField K] {α : Type}

/-- The function `glm::radians`. -/
def radians (g : GlmKernel K) (degrees : K) : K := degrees * g.degToRad

/-- The function `glm::dot` on `vec3`: `tmp = a * b; tmp.x + tmp.y + tmp.z`. -/
def dot [Add α] [Mul α] (a b : Vec3 α) : α := a.x * b.x + a.y * b.y + a.z * b.z

/-- The function `glm::normalize`: `v * inversesqrt(dot(v, v))`. -/
def normalize [Add α] [Mul α] (isq : α → α) (v : Vec3 α) : Vec3 α :=
  v.scale (isq (dot v v))

/-- The function `glm::translate(m, v)`:
    `Result = m; Result[3] = m[0]*v[0] + m[1]*v[1] + m[2]*v[2] + m[3]`. -/
def translate (m : Mat4 K) (v : Vec3 K) : Mat4 K :=
  ⟨m.c0, m.c1, m.c2, (((m.c0.scale v.x).add (m.c1.scale v.y)).add (m.c2.scale v.z)).add m.c3⟩

/-- The function `glm::rotate(m, angle, v)` (axis-angle form of `glm`). -/
def rotate (g : GlmKernel K) (m : Mat4 K) (angle : K) (v : Vec3 K) : Mat4 K :=
  let c := g.cos angle
  let s := g.sin angle
  let axis := normalize g.inversesqrt v
  let temp := Vec3.smul (1 - c) axis
  let r00 := c + temp.x * axis.x
  let r01 := temp.x * axis.y + s * axis.z
  let r02 := temp.x * axis.z - s * axis.y
  let r10 := temp.y * axis.x - s * axis.z
  let r11 := c + temp.y * axis.y
  let r12 := temp.y * axis.z + s * axis.x
  let r20 := temp.z * axis.x + s * axis.y
  let r21 := temp.z * axis.y - s * axis.x
  let r22 := c + temp.z * axis.z
  ⟨((m.c0.scale r00).add (m.c1.scale r01)).add (m.c2.scale r02),
   ((m.c0.scale r10).add (m.c1.scale r11)).add (m.c2.scale r12),
   ((m.c0.scale r20).add (m.c1.scale r21)).add (m.c2.scale r22),
   m.c3⟩

/-- The function `glm::scale(m, v)`. -/
def scale (m : Mat4 K) (v : Vec3 K) : Mat4 K :=
  ⟨m.c0.scale v.x, m.c1.scale v.y, m.c2.scale v.z, m.c3⟩

/-- The local matrix `Inverse` of `glm::inverse`, before its product by
    `OneOverDeterminant`: the signed cofactors. -/
def adjugate [Add α] [Sub α] [Mul α] [Neg α] [One α] (m : Mat4 α) : Mat4 α :=
  let coef00 := m.c2.z * m.c3.w - m.c3.z * m.c2.w
  let coef02 := m.c1.z * m.c3.w - m.c3.z * m.c1.w
  let coef03 := m.c1.z * m.c2.w - m.c2.z * m.c1.w
  let coef04 := m.c2.y * m.c3.w - m.c3.y * m.c2.w
  let coef06 := m.c1.y * m.c3.w - m.c3.y * m.c1.w
  let coef07 := m.c1.y * m.c2.w - m.c2.y * m.c1.w
  let coef08 := m.c2.y * m.c3.z - m.c3.y * m.c2.z
  let coef10 := m.c1.y * m.c3.z - m.c3.y * m.c1.z
  let coef11 := m.c1.y * m.c2.z - m.c2.y * m.c1.z
  let coef12 := m.c2.x * m.c3.w - m.c3.x * m.c2.w
  let coef14 := m.c1.x * m.c3.w - m.c3.x * m.c1.w
  let coef15 := m.c1.x * m.c2.w - m.c2.x * m.c1.w
  let coef16 := m.c2.x * m.c3.z - m.c3.x * m.c2.z
  let coef18 := m.c1.x * m.c3.z - m.c3.x * m.c1.z
  let coef19 := m.c1.x * m.c2.z - m.c2.x * m.c1.z
  let coef20 := m.c2.x * m.c3.y - m.c3.x * m.c2.y
  let coef22 := m.c1.x * m.c3.y - m.c3.x * m.c1.y
  let coef23 := m.c1.x * m.c2.y - m.c2.x * m.c1.y
  let fac0 : Vec4 α := ⟨coef00, coef00, coef02, coef03⟩
  let fac1 : Vec4 α := ⟨coef04, coef04, coef06, coef07⟩
  let fac2 : Vec4 α := ⟨coef08, coef08, coef10, coef11⟩
  let fac3 : Vec4 α := ⟨coef12, coef12, coef14, coef15⟩
  let fac4 : Vec4 α := ⟨coef16, coef16, coef18, coef19⟩
  let fac5 : Vec4 α := ⟨coef20, coef20, coef22, coef23⟩
  let vec0 : Vec4 α := ⟨m.c1.x, m.c0.x, m.c0.x, m.c0.x⟩
  let vec1 : Vec4 α := ⟨m.c1.y, m.c0.y, m.c0.y, m.c0.y⟩
  let vec2 : Vec4 α := ⟨m.c1.z, m.c0.z, m.c0.z, m.c0.z⟩
  let vec3 : Vec4 α := ⟨m.c1.w, m.c0.w, m.c0.w, m.c0.w⟩
  let inv0 := ((vec1.mul fac0).sub (vec2.mul fac1)).add (vec3.mul fac2)
  let inv1 := ((vec0.mul fac0).sub (vec2.mul fac3)).add (vec3.mul fac4)
  let inv2 := ((vec0.mul fac1).sub (vec1.mul fac3)).add (vec3.mul fac5)
  let inv3 := ((vec0.mul fac2).sub (vec1.mul fac4)).add (vec2.mul fac5)
  let signA : Vec4 α := ⟨1, -1, 1, -1⟩
  let signB : Vec4 α := ⟨-1, 1, -1, 1⟩
  ⟨inv0.mul signA, inv1.mul signB, inv2.mul signA, inv3.mul signB⟩

/-- The determinant `Dot1` of `glm::inverse`: the first column of `m` against
    the first row of `Inverse`, summed as `(x + y) + (z + w)`. -/
def inverseDet [Add α] [Sub α] [Mul α] [Neg α] [One α] (m : Mat4 α) : α :=
  let inverse := adjugate m
  let row0 : Vec4 α := ⟨inverse.c0.x, inverse.c1.x, inverse.c2.x, inverse.c3.x⟩
  let dot0 := m.c0.mul row0
  (dot0.x + dot0.y) + (dot0.z + dot0.w)

/-- The function `glm::inverse` on `mat4`: the cofactors, multiplied by
    `OneOverDeterminant = 1 / Dot1`. -/
def inverse [Add α] [Sub α] [Mul α] [Div α] [Neg α] [One α] (m : Mat4 α) : Mat4 α :=
  let inverse := adjugate m
  let oneOverDeterminant := 1 / inverseDet m
  ⟨inverse.c0.scale oneOverDeterminant, inverse.c1.scale oneOverDeterminant,
   inverse.c2.scale oneOverDeterminant, inverse.c3.scale oneOverDeterminant⟩

end glm

/-! ## `Ray` (Ray.h, Ray.cpp) -/

/-- The class `Ray`: the two public fields. -/
structure Ray (K : Type) where
  origin : Vec3 (Fl K)
  direction : Vec3 (Fl K)

namespace Ray

variable {K : Type} [LinearOrderedField K]

/-- The constructor `Ray::Ray(origin, direction)` in the exact idealisation:
    the direction is stored as `glm::normalize(direction)`, computed without
    rounding, overflow or underflow, and with `+0` for every zero product.
    `Ray32.ctor` is the same constructor over IEEE binary32. -/
def ctor (g : GlmKernel K) (origin direction : Vec3 (Fl K)) : Ray K :=
  ⟨origin, glm.normalize (Fl.inversesqrt g) direction⟩

/-- The method `Ray::intersectsAABB(min, max, tNear)`.  The reference
    parameter `tNear` is passed in and returned: it is written only when the
    two early returns are not taken. -/
def intersectsAABB (r : Ray K) (min max : Vec3 (Fl K)) (tNear : Fl K) : Bool × Fl K :=
  let tmin := (min.x - r.origin.x) / r.direction.x
  let tmax := (max.x - r.origin.x) / r.direction.x
  let (tmin, tmax) := if Fl.gt tmin tmax then (tmax, tmin) else (tmin, tmax)
  let tymin := (min.y - r.origin.y) / r.direction.y
  let tymax := (max.y - r.origin.y) / r.direction.y
  let (tymin, tymax) := if Fl.gt tymin tymax then (tymax, tymin) else (tymin, tymax)
  if Fl.gt tmin tymax || Fl.gt tymin tmax then (false, tNear)
  else
    let tmin := if Fl.gt tymin tmin then tymin else tmin
    let tmax := if Fl.lt tymax tmax then tymax else tmax
    let tzmin := (min.z - r.origin.z) / r.direction.z
    let tzmax := (max.z - r.origin.z) / r.direction.z
    let (tzmin, tzmax) := if Fl.gt tzmin tzmax then (tzmax, tzmin) else (tzmin, tzmax)
    if Fl.gt tmin tzmax || Fl.gt tzmin tmax then (false, tNear)
    else
      let tmin := if Fl.gt tzmin tmin then tzmin else tmin
      let tmax := if Fl.lt tzmax tmax then tzmax else tmax
      (Fl.ge tmax 0, tmin)

end Ray

/-! ## `SceneNode` (SceneNode.h, SceneNode.cpp) -/

/-- The enumeration `SceneNode::MeshType`. -/
inductive MeshType where
  | Box
  | Sphere
  | Cylinder
  | Plane
  | Pyramid
  | Custom
deriving DecidableEq

/-- A value of type `void (*)(ShapeMeshes*)`: the identity of the function
    pointed to. -/
abbrev DrawFunction := Nat

/-- The class `SceneNode`: the private fields in declaration order, preceded
    by `addr`, the identity of the object (what `this` and a `SceneNode*`
    denote).  A node owns its children. -/
inductive SceneNode (K : Type) where
  | mk (addr : Nat)
      (m_position m_rotation m_scale : Vec3 K)
      (m_materialTag m_textureTag : String)
      (m_textureSlot : Int)
      (m_drawFunction : Option DrawFunction)
      (m_children : List (SceneNode K))
      (m_localMin m_localMax : Vec3 K)
      (m_meshType : MeshType)
      (m_isHighlighted : Bool) : SceneNode K

/-- The pair of reference parameters `closestNode`, `closestDistance` of
    `CheckRayHit`; `none` is the null pointer. -/
structure PickState (K : Type) where
  closestNode : Option Nat
  closestDistance : Fl K
deriving DecidableEq

namespace SceneNode

variable {K : Type} [LinearOrderedField K]

/-- Field `addr`. -/
def addr : SceneNode K → Nat
  | mk a _ _ _ _ _ _ _ _ _ _ _ _ => a

/-- Field `m_position`. -/
def m_position : SceneNode K → Vec3 K
  | mk _ p _ _ _ _ _ _ _ _ _ _ _ => p

/-- Field `m_rotation`. -/
def m_rotation : SceneNode K → Vec3 K
  | mk _ _ r _ _ _ _ _ _ _ _ _ _ => r

/-- Field `m_scale`. -/
def m_scale : SceneNode K → Vec3 K
  | mk _ _ _ s _ _ _ _ _ _ _ _ _ => s

/-- Field `m_materialTag`. -/
def m_materialTag : SceneNode K → String
  | mk _ _ _ _ t _ _ _ _ _ _ _ _ => t

/-- Field `m_textureTag`. -/
def m_textureTag : SceneNode K → String
  | mk _ _ _ _ _ t _ _ _ _ _ _ _ => t

/-- Field `m_textureSlot`. -/
def m_textureSlot : SceneNode K → Int
  | mk _ _ _ _ _ _ s _ _ _ _ _ _ => s

/-- Field `m_drawFunction`. -/
def m_drawFunction : SceneNode K → Option DrawFunction
  | mk _ _ _ _ _ _ _ d _ _ _ _ _ => d

/-- Field `m_children` (`GetChildren`). -/
def m_children : SceneNode K → List (SceneNode K)
  | mk _ _ _ _ _ _ _ _ c _ _ _ _ => c

/-- Field `m_localMin`. -/
def m_localMin : SceneNode K → Vec3 K
  | mk _ _ _ _ _ _ _ _ _ l _ _ _ => l

/-- Field `m_localMax`. -/
def m_localMax : SceneNode K → Vec3 K
  | mk _ _ _ _ _ _ _ _ _ _ l _ _ => l

/-- Field `m_meshType` (`GetMeshType`). -/
def m_meshType : SceneNode K → MeshType
  | mk _ _ _ _ _ _ _ _ _ _ _ t _ => t

/-- Field `m_isHighlighted` (`IsHighlighted`). -/
def m_isHighlighted : SceneNode K → Bool
  | mk _ _ _ _ _ _ _ _ _ _ _ _ h => h

/-- The constructor `SceneNode::SceneNode()` for the object at `addr`, with
    the default member initializers of SceneNode.h. -/
def new (addr : Nat) : SceneNode K :=
  mk addr ⟨0, 0, 0⟩ ⟨0, 0, 0⟩ ⟨1, 1, 1⟩ "" "" 0 none []
    ⟨-(1/2), -(1/2), -(1/2)⟩ ⟨1/2, 1/2, 1/2⟩ MeshType.Custom false

/-- The method `SetTransform`. -/
def SetTransform : SceneNode K → Vec3 K → Vec3 K → Vec3 K → SceneNode K
  | mk a _ _ _ mt tt ts d c lo hi ty h, position, rotation, scale =>
    mk a position rotation scale mt tt ts d c lo hi ty h

/-- The method `SetMaterial`. -/
def SetMaterial : SceneNode K → String → SceneNode K
  | mk a p r s _ tt ts d c lo hi ty h, materialTag => mk a p r s materialTag tt ts d c lo hi ty h

/-- The method `SetTexture`. -/
def SetTexture : SceneNode K → String → Int → SceneNode K
  | mk a p r s mt _ _ d c lo hi ty h, textureTag, slot => mk a p r s mt textureTag slot d c lo hi ty h

/-- The method `SetMeshDrawFunction`. -/
def SetMeshDrawFunction : SceneNode K → Option DrawFunction → SceneNode K
  | mk a p r s mt tt ts _ c lo hi ty h, drawFunc => mk a p r s mt tt ts drawFunc c lo hi ty h

/-- The method `AddChild`: `m_children.push_back(child)`. -/
def AddChild : SceneNode K → SceneNode K → SceneNode K
  | mk a p r s mt tt ts d c lo hi ty h, child => mk a p r s mt tt ts d (c ++ [child]) lo hi ty h

/-- The method `SetHighlighted`. -/
def SetHighlighted : SceneNode K → Bool → SceneNode K
  | mk a p r s mt tt ts d c lo hi ty _, value => mk a p r s mt tt ts d c lo hi ty value

/-- The method `SetMeshType`. -/
def SetMeshType : SceneNode K → MeshType → SceneNode K
  | mk a p r s mt tt ts d c lo hi _ h, type => mk a p r s mt tt ts d c lo hi type h

/-- The model matrix, as `Render`, `Intersects` and `CheckRayHit` each build it:
    `parentTransform`, then `glm::translate`, three `glm::rotate`, `glm::scale`. -/
def model (g : GlmKernel K) (n : SceneNode K) (parentTransform : Mat4 K) : Mat4 K :=
  let model := parentTransform
  let model := glm.translate model n.m_position
  let model := glm.rotate g model (glm.radians g n.m_rotation.x) ⟨1, 0, 0⟩
  let model := glm.rotate g model (glm.radians g n.m_rotation.y) ⟨0, 1, 0⟩
  let model := glm.rotate g model (glm.radians g n.m_rotation.z) ⟨0, 0, 1⟩
  glm.scale model n.m_scale

/-- The local ray, as `Intersects` and `CheckRayHit` each build it from the
    model matrix: the origin goes through `glm::inverse(model)` as a point, the
    direction as a vector, normalized, and `Ray localRay(localOrigin, localDir)`
    normalizes once more. -/
def localRay (g : GlmKernel K) (ray : Ray K) (model : Mat4 K) : Ray K :=
  let invModel := glm.inverse (model.map Fl.fin)
  let localOrigin := (invModel.mulVec (Vec4.ofVec3 ray.origin 1)).xyz
  let localDir := glm.normalize (Fl.inversesqrt g) (invModel.mulVec (Vec4.ofVec3 ray.direction 0)).xyz
  Ray.ctor g localOrigin localDir

/-- The method `SceneNode::Intersects(ray, parentTransform, outDistance)`. -/
def Intersects (g : GlmKernel K) (n : SceneNode K) (ray : Ray K) (parentTransform : Mat4 K)
    (outDistance : Fl K) : Bool × Fl K :=
  let model := n.model g parentTransform
  let localRay := localRay g ray model
  localRay.intersectsAABB (n.m_localMin.map Fl.fin) (n.m_localMax.map Fl.fin) outDistance

/-- The statement `if (localRay.intersectsAABB(..., tHit)) { if (tHit > 0.0f &&
    tHit < closestDistance) { closestDistance = tHit; closestNode = this; } }`
    of `CheckRayHit`, given the result of the call. -/
def recordHit (addr : Nat) (test : Bool × Fl K) (st : PickState K) : PickState K :=
  if test.1 then
    if Fl.gt test.2 0 && Fl.lt test.2 st.closestDistance then ⟨some addr, test.2⟩ else st
  else st

mutual
/-- The method `SceneNode::CheckRayHit(ray, parentTransform, closestNode,
    closestDistance)`.  The local `float tHit` is not initialised in the
    source; `tHit0` is the value it holds before the call of `intersectsAABB`. -/
def CheckRayHit (g : GlmKernel K) (ray : Ray K) (tHit0 : Fl K) :
    SceneNode K → Mat4 K → PickState K → PickState K
  | mk a p r s mt tt ts d children lo hi ty h, parentTransform, st =>
    let model := (mk a p r s mt tt ts d children lo hi ty h).model g parentTransform
    let localRay := localRay g ray model
    let st := recordHit a (localRay.intersectsAABB (lo.map Fl.fin) (hi.map Fl.fin) tHit0) st
    CheckRayHitChildren g ray tHit0 children model st
/-- The loop `for (SceneNode* child : m_children) child->CheckRayHit(ray, model,
    closestNode, closestDistance)`. -/
def CheckRayHitChildren (g : GlmKernel K) (ray : Ray K) (tHit0 : Fl K) :
    List (SceneNode K) → Mat4 K → PickState K → PickState K
  | [], _, st => st
  | child :: rest, model, st =>
    CheckRayHitChildren g ray tHit0 rest model (CheckRayHit g ray tHit0 child model st)
end

end SceneNode

/-! ## `SceneNode::Render` and `SceneManager::SetTransformations` -/

/-- One call made by `Render` on its collaborators: the `ShaderManager`
    setters, the two `SceneManager` methods, and the mesh draw function. -/
inductive RenderCall (K : Type) where
  | setMat4Value (name : String) (value : Mat4 K)
  | setIntValue (name : String) (value : Int)
  | setSampler2DValue (name : String) (slot : Int)
  | setBoolValue (name : String) (value : Bool)
  | SetShaderMaterial (materialTag : String)
  | SetShaderTexture (textureTag : String) (slot : Int)
  | draw (f : DrawFunction)
deriving DecidableEq

namespace SceneNode

variable {K : Type} [LinearOrderedField K]

/-- The calls `Render` makes for the node itself, before the loop over the
    children; the three pointer parameters are given by whether they are
    non-null. -/
def renderCalls (sceneManager shaderManager meshes : Bool) (n : SceneNode K)
    (transform : Mat4 K) : List (RenderCall K) :=
  (if shaderManager then
    [RenderCall.setMat4Value "model" transform,
     RenderCall.setIntValue "bUseTexture" 1,
     RenderCall.setSampler2DValue n.m_textureTag n.m_textureSlot,
     RenderCall.setBoolValue "uHighlight" n.m_isHighlighted]
   else []) ++
  (if sceneManager then
    [RenderCall.SetShaderMaterial n.m_materialTag,
     RenderCall.SetShaderTexture n.m_textureTag n.m_textureSlot]
   else []) ++
  (match n.m_drawFunction with
   | some f => if meshes then [RenderCall.draw f] else []
   | none => [])

mutual
/-- The method `SceneNode::Render(sceneManager, shaderManager, meshes,
    parentTransform)`, as the sequence of calls it makes.  The final block
    `if (m_isHighlighted && meshes)` only computes a local matrix and makes no
    call. -/
def Render (g : GlmKernel K) (sceneManager shaderManager meshes : Bool) :
    SceneNode K → Mat4 K → List (RenderCall K)
  | mk a p r s mt tt ts d children lo hi ty h, parentTransform =>
    let transform := (mk a p r s mt tt ts d children lo hi ty h).model g parentTransform
    renderCalls sceneManager shaderManager meshes (mk a p r s mt tt ts d children lo hi ty h)
        transform ++
      RenderChildren g sceneManager shaderManager meshes children transform
/-- The loop `for (SceneNode* child : m_children) child->Render(sceneManager,
    shaderManager, meshes, transform)`. -/
def RenderChildren (g : GlmKernel K) (sceneManager shaderManager meshes : Bool) :
    List (SceneNode K) → Mat4 K → List (RenderCall K)
  | [], _ => []
  | child :: rest, transform =>
    Render g sceneManager shaderManager meshes child transform ++
      RenderChildren g sceneManager shaderManager meshes rest transform
end

end SceneNode

namespace SceneManager

variable {K : Type} [LinearOrderedField K]

end SceneManager

/-! ## `Ray::fromMouse` and the pick step of the main loop -/

namespace Ray

variable {K : Type} [LinearOrderedField K]

/-- The vector `clipCoords` of `Ray::fromMouse`: `x = (2.0f * mouseX) /
    screenWidth - 1.0f`, `y = 1.0f - (2.0f * mouseY) / screenHeight`, then
    `vec4(x, y, -1.0f, 1.0f)`.  The two `int` sizes are converted to `float`
    by the divisions. -/
def clipCoords (mouseX mouseY : K) (screenWidth screenHeight : Int) : Vec4 (Fl K) :=
  let x := Fl.fin (2 * mouseX) / Fl.fin (screenWidth : K) - 1
  let y := 1 - Fl.fin (2 * mouseY) / Fl.fin (screenHeight : K)
  ⟨x, y, -1, 1⟩

/-- The function `Ray::fromMouse(mouseX, mouseY, screenWidth, screenHeight,
    viewMatrix, projectionMatrix)`. -/
def fromMouse (g : GlmKernel K) (mouseX mouseY : K) (screenWidth screenHeight : Int)
    (viewMatrix projectionMatrix : Mat4 K) : Ray K :=
  let clipCoords := clipCoords mouseX mouseY screenWidth screenHeight
  let eyeCoords := (glm.inverse (projectionMatrix.map Fl.fin)).mulVec clipCoords
  let eyeCoords : Vec4 (Fl K) := ⟨eyeCoords.x, eyeCoords.y, -1, 0⟩
  let worldDir := glm.normalize (Fl.inversesqrt g)
    ((glm.inverse (viewMatrix.map Fl.fin)).mulVec eyeCoords).xyz
  let camOrigin := (glm.inverse (viewMatrix.map Fl.fin)).c3.xyz
  Ray.ctor g camOrigin worldDir

end Ray

section PickStep

variable {K : Type} [LinearOrderedField K]

/-- The constant `FLT_MAX`. -/
def FLT_MAX : K := 340282346638528859811704183484516925440

mutual
/-- The lambda `clearHighlights` of the main loop: `node->SetHighlighted(false)`,
    then the same for every child. -/
def clearHighlights : SceneNode K → SceneNode K
  | SceneNode.mk a p r s mt tt ts d children lo hi ty _ =>
    SceneNode.mk a p r s mt tt ts d (clearHighlightsChildren children) lo hi ty false
/-- The loop `for (SceneNode* child : node->GetChildren()) clearHighlights(child)`. -/
def clearHighlightsChildren : List (SceneNode K) → List (SceneNode K)
  | [] => []
  | child :: rest => clearHighlights child :: clearHighlightsChildren rest
end

mutual
/-- The effect on a tree of the call `p->SetHighlighted(value)` for the
    pointer `p` to the object at address `target`: the flag of that object is
    written, nothing else. -/
def SceneNode.SetHighlightedAt (target : Nat) (value : Bool) : SceneNode K → SceneNode K
  | SceneNode.mk a p r s mt tt ts d children lo hi ty h =>
    SceneNode.mk a p r s mt tt ts d (SceneNode.SetHighlightedAtChildren target value children)
      lo hi ty (if a = target then value else h)
/-- The same call, on a list of siblings. -/
def SceneNode.SetHighlightedAtChildren (target : Nat) (value : Bool) :
    List (SceneNode K) → List (SceneNode K)
  | [] => []
  | child :: rest =>
    SceneNode.SetHighlightedAt target value child ::
      SceneNode.SetHighlightedAtChildren target value rest
end

/-- The pick step of the main loop (MainCode.cpp, lines 131 to 152) for a given
    ray: `CheckRayHit` from `(nullptr, FLT_MAX)` with the identity,
    `clearHighlights(root)`, then `closestNode->SetHighlighted(true)` when
    `closestNode` is not null.  The result is the tree after the step. -/
def pickStep (g : GlmKernel K) (ray : Ray K) (tHit0 : Fl K) (root : SceneNode K) : SceneNode K :=
  let st := SceneNode.CheckRayHit g ray tHit0 root Mat4.identity ⟨none, Fl.fin FLT_MAX⟩
  let root := clearHighlights root
  match st.closestNode with
  | some a => SceneNode.SetHighlightedAt a true root
  | none => root

/-- The pick step in the order of the specification: the tree is walked once to
    clear the flags, once to find the closest node, and the winner is
    highlighted. -/
def pickStepClearFirst (g : GlmKernel K) (ray : Ray K) (tHit0 : Fl K) (root : SceneNode K) :
    SceneNode K :=
  let root := clearHighlights root
  let st := SceneNode.CheckRayHit g ray tHit0 root Mat4.identity ⟨none, Fl.fin FLT_MAX⟩
  match st.closestNode with
  | some a => SceneNode.SetHighlightedAt a true root
  | none => root

end PickStep

/-! ## `glm::perspective`, and `SceneManager::FindMaterial` (SceneManager.cpp) -/

namespace glm

variable {K : Type} [LinearOrderedField K]

end glm

/-- The struct `OBJECT_MATERIAL` of SceneManager.h, with the fields that
    SceneManager.cpp reads and writes. -/
structure OBJECT_MATERIAL (K : Type) where
  ambientColor : Vec3 K
  ambientStrength : K
  diffuseColor : Vec3 K
  specularColor : Vec3 K
  shininess : K
  tag : String

/-- One call made by `SetShaderMaterial` on the `ShaderManager`. -/
inductive MaterialCall (K : Type) where
  | setVec3Value (name : String) (value : Vec3 K)
  | setFloatValue (name : String) (value : K)

namespace SceneManager

variable {K : Type} [LinearOrderedField K]

/-- The `while` loop of `FindMaterial`, from the state `(index, bFound,
    material)`: while `index < m_objectMaterials.size() && bFound == false`,
    either the tag at `index` compares equal, and `bFound` is set and five
    fields of `material` are assigned, or `index` is incremented. -/
def FindMaterial.loop (m_objectMaterials : List (OBJECT_MATERIAL K)) (tag : String)
    (index : Nat) (bFound : Bool) (material : OBJECT_MATERIAL K) :
    Nat × Bool × OBJECT_MATERIAL K :=
  if h : index < m_objectMaterials.length ∧ bFound = false then
    if (m_objectMaterials.get ⟨index, h.1⟩).tag = tag then
      FindMaterial.loop m_objectMaterials tag index true
        ⟨(m_objectMaterials.get ⟨index, h.1⟩).ambientColor,
         (m_objectMaterials.get ⟨index, h.1⟩).ambientStrength,
         (m_objectMaterials.get ⟨index, h.1⟩).diffuseColor,
         (m_objectMaterials.get ⟨index, h.1⟩).specularColor,
         (m_objectMaterials.get ⟨index, h.1⟩).shininess,
         material.tag⟩
    else
      FindMaterial.loop m_objectMaterials tag (index + 1) bFound material
  else (index, bFound, material)
termination_by (m_objectMaterials.length - index) + (if bFound = true then 0 else 1)
decreasing_by
  · simp only [h.2]
    simp
  · simp only [h.2]
    have := h.1
    simp
    omega

/-- The method `SceneManager::FindMaterial(tag, material)` on the list
    `m_objectMaterials`: the value returned and the reference parameter
    `material` after the call. -/
def FindMaterial (m_objectMaterials : List (OBJECT_MATERIAL K)) (tag : String)
    (material : OBJECT_MATERIAL K) : Bool × OBJECT_MATERIAL K :=
  if m_objectMaterials.length = 0 then (false, material)
  else (true, (FindMaterial.loop m_objectMaterials tag 0 false material).2.2)

/-- The method `SceneManager::SetShaderMaterial(materialTag)`, as the calls it
    makes on the shader manager; `material` is the local `OBJECT_MATERIAL
    material;` as declared, before the call of `FindMaterial`. -/
def SetShaderMaterial (m_objectMaterials : List (OBJECT_MATERIAL K)) (materialTag : String)
    (material : OBJECT_MATERIAL K) : List (MaterialCall K) :=
  if m_objectMaterials.length > 0 then
    let r := FindMaterial m_objectMaterials materialTag material
    if r.1 = true then
      [MaterialCall.setVec3Value "material.ambientColor" r.2.ambientColor,
       MaterialCall.setFloatValue "material.ambientStrength" r.2.ambientStrength,
       MaterialCall.setVec3Value "material.diffuseColor" r.2.diffuseColor,
       MaterialCall.setVec3Value "material.specularColor" r.2.specularColor,
       MaterialCall.setFloatValue "material.shininess" r.2.shininess]
    else []
  else []

end SceneManager

/-! ## `float` as IEEE binary32, and `Ray` over it (Ray.cpp) -/

/-- A `float` with the rounding, the range and the signed zeros of IEEE
    binary32: `Fl.fin v` is the number `v` (`+0` for `v = 0`), `Fl.nzero` is
    `-0`.  The operations below are defined for every rational operand and
    round every exact result to the nearest binary32 number, ties to even. -/
structure Binary32 where
  val : Fl ℚ
deriving DecidableEq

namespace Binary32

/-- Number of halvings that bring `n` below 2, at most `fuel` of them. -/
def halvings : Nat → Nat → Nat
  | 0, _ => 0
  | fuel + 1, n => if 2 ≤ n then halvings fuel (n / 2) + 1 else 0

/-- The largest `k` with `2^k ≤ n`, for a non-zero `n`. -/
def log2 (n : Nat) : Nat := halvings n n

/-- The largest `e` with `2^e ≤ |x|`, for a non-zero `x`: the difference of the
    logarithms of the numerator and of the denominator, or one less. -/
def ilog2 (x : ℚ) : ℤ :=
  if (2 : ℚ) ^ ((log2 x.num.natAbs : ℤ) - (log2 x.den : ℤ)) ≤ |x| then
    (log2 x.num.natAbs : ℤ) - (log2 x.den : ℤ)
  else (log2 x.num.natAbs : ℤ) - (log2 x.den : ℤ) - 1

/-- Exponent of the binade of a non-zero number, not below the exponent of the
    subnormal numbers: the largest `e` with `2^e ≤ |x|`, or `-126`. -/
def binade (x : ℚ) : ℤ := max (ilog2 x) (-126)

/-- Distance between two consecutive binary32 numbers around `x`
    (24 significant bits). -/
def ulp (x : ℚ) : ℚ := 2 ^ (binade x - 23)

/-- Nearest integer, ties to the even one. -/
def roundEven (t : ℚ) : ℤ :=
  if t - ⌊t⌋ < 1 / 2 then ⌊t⌋
  else if 1 / 2 < t - ⌊t⌋ then ⌊t⌋ + 1
  else if ⌊t⌋ % 2 = 0 then ⌊t⌋ else ⌊t⌋ + 1

/-- The multiple of the spacing around `x` nearest to `x`, ties to the even
    multiple: the binary32 number nearest to `x` when the exponent range is
    not exceeded. -/
def nearest (x : ℚ) : ℚ := (roundEven (x / ulp x) : ℚ) * ulp x

/-- Zero of the given sign bit. -/
def zero (negative : Bool) : Binary32 :=
  if negative then ⟨Fl.nzero⟩ else ⟨Fl.fin 0⟩

/-- Rounding of the exact result `x` of an operation to binary32, to nearest
    with ties to even: overflow gives an infinity, underflow a subnormal number
    or a zero with the sign of `x`.  `negative` is the sign bit of the result
    when `x` is zero. -/
def round (x : ℚ) (negative : Bool) : Binary32 :=
  if x = 0 then zero negative
  else if 2 ^ 128 ≤ |nearest x| then ⟨Fl.inf (decide (x < 0))⟩
  else if nearest x = 0 then zero (decide (x < 0))
  else ⟨Fl.fin (nearest x)⟩

/-- IEEE multiplication, rounded. -/
def mul (a b : Binary32) : Binary32 :=
  if a.val.isNaN || b.val.isNaN then ⟨Fl.nan⟩
  else if a.val.isFinite && b.val.isFinite then
    round (a.val.num * b.val.num) (xor a.val.signBit b.val.signBit)
  else if (a.val.isFinite && decide (a.val.num = 0)) ||
      (b.val.isFinite && decide (b.val.num = 0)) then ⟨Fl.nan⟩
  else ⟨Fl.inf (xor a.val.signBit b.val.signBit)⟩

/-- IEEE division, rounded: `x / 0 = ±∞` for `x ≠ 0`, `0 / 0 = ∞ / ∞ = NaN`,
    `x / ∞ = ±0`. -/
def div (a b : Binary32) : Binary32 :=
  if a.val.isNaN || b.val.isNaN then ⟨Fl.nan⟩
  else if a.val.isFinite then
    if b.val.isFinite then
      if b.val.num = 0 then
        if a.val.num = 0 then ⟨Fl.nan⟩ else ⟨Fl.inf (xor a.val.signBit b.val.signBit)⟩
      else round (a.val.num / b.val.num) (xor a.val.signBit b.val.signBit)
    else zero (xor a.val.signBit b.val.signBit)
  else
    if b.val.isFinite then ⟨Fl.inf (xor a.val.signBit b.val.signBit)⟩ else ⟨Fl.nan⟩

/-- IEEE addition, rounded: an exact sum zero is `-0` only for `(-0) + (-0)`. -/
def add (a b : Binary32) : Binary32 :=
  if a.val.isFinite && b.val.isFinite then
    round (a.val.num + b.val.num) (a.val.signBit && b.val.signBit)
  else ⟨a.val + b.val⟩

/-- IEEE negation: the sign bit is flipped. -/
def neg (a : Binary32) : Binary32 :=
  match a.val with
  | Fl.fin v => if v = 0 then ⟨Fl.nzero⟩ else ⟨Fl.fin (-v)⟩
  | Fl.nzero => ⟨Fl.fin 0⟩
  | Fl.pinf => ⟨Fl.ninf⟩
  | Fl.ninf => ⟨Fl.pinf⟩
  | Fl.nan => ⟨Fl.nan⟩

/-- IEEE subtraction: `a + (-b)`. -/
def sub (a b : Binary32) : Binary32 := add a (neg b)

instance : Add Binary32 := ⟨add⟩
instance : Sub Binary32 := ⟨sub⟩
instance : Mul Binary32 := ⟨mul⟩
instance : Div Binary32 := ⟨div⟩
instance : Neg Binary32 := ⟨neg⟩
instance : Zero Binary32 := ⟨⟨Fl.fin 0⟩⟩
instance : One Binary32 := ⟨⟨Fl.fin 1⟩⟩

/-- Integer square root by halving the number of bits: from the root `s` of
    `n / 4`, the root of `n` is `2 * s` or `2 * s + 1`. -/
def isqrtFuel : Nat → Nat → Nat
  | 0, _ => 0
  | fuel + 1, n =>
    if n < 2 then n
    else if (2 * isqrtFuel fuel (n / 4) + 1) * (2 * isqrtFuel fuel (n / 4) + 1) ≤ n then
      2 * isqrtFuel fuel (n / 4) + 1
    else 2 * isqrtFuel fuel (n / 4)

/-- The largest `r` with `r * r ≤ n`. -/
def isqrt (n : Nat) : Nat := isqrtFuel n n

/-- The function `sqrt` on `float`, correctly rounded: `sqrt(-0) = -0`,
    `sqrt(+∞) = +∞`, `NaN` for a negative argument.  For `v > 0` the integer
    square root `r` of `⌊v * 2^200⌋` locates the root between `r / 2^100` and
    `(r + 1) / 2^100`; a root that is not `r / 2^100` rounds as the middle of
    that interval does, no binary32 number or midpoint of two lying inside it. -/
def sqrt (a : Binary32) : Binary32 :=
  match a.val with
  | Fl.fin v =>
    if v < 0 then ⟨Fl.nan⟩
    else if v = 0 then ⟨Fl.fin 0⟩
    else
      let r := isqrt ⌊v * 2 ^ 200⌋₊
      let t : ℚ := if (r : ℚ) * r = v * 2 ^ 200 then r else r + 1 / 2
      round (t / 2 ^ 100) false
  | Fl.nzero => ⟨Fl.nzero⟩
  | Fl.pinf => ⟨Fl.pinf⟩
  | Fl.ninf => ⟨Fl.nan⟩
  | Fl.nan => ⟨Fl.nan⟩

/-- The function `glm::inversesqrt` on `float`: `1.0f / sqrt(x)`. -/
def inversesqrt (a : Binary32) : Binary32 := 1 / sqrt a

/-- Conversion of an `int` to `float`. -/
def ofInt (n : Int) : Binary32 := round (n : ℚ) false

/-- Number held by a finite value (`0` for the two zeros). -/
def toRat (a : Binary32) : ℚ := a.val.num

end Binary32

/-- The class `Ray` with binary32 fields. -/
structure Ray32 where
  origin : Vec3 Binary32
  direction : Vec3 Binary32

/-- The constructor `Ray::Ray(origin, direction)` over binary32: the direction
    is stored as `glm::normalize(direction)`, that is
    `direction * inversesqrt(dot(direction, direction))`. -/
def Ray32.ctor (origin direction : Vec3 Binary32) : Ray32 :=
  ⟨origin, glm.normalize Binary32.inversesqrt direction⟩

/-- The vector that `Ray::fromMouse` passes to its call of `glm::normalize`,
    over binary32: `vec3(inverse(viewMatrix) * eyeCoords)`, computed as
    `fromMouse` computes it. -/
def Ray32.unprojected (mouseX mouseY : Binary32) (screenWidth screenHeight : Int)
    (viewMatrix projectionMatrix : Mat4 Binary32) : Vec3 Binary32 :=
  let two : Binary32 := ⟨Fl.fin 2⟩
  let x := (two * mouseX) / Binary32.ofInt screenWidth - 1
  let y := 1 - (two * mouseY) / Binary32.ofInt screenHeight
  let clipCoords : Vec4 Binary32 := ⟨x, y, -1, 1⟩
  let eyeCoords := (glm.inverse projectionMatrix).mulVec clipCoords
  let eyeCoords : Vec4 Binary32 := ⟨eyeCoords.x, eyeCoords.y, -1, 0⟩
  ((glm.inverse viewMatrix).mulVec eyeCoords).xyz

/-- The function `Ray::fromMouse` over binary32. -/
def Ray32.fromMouse (mouseX mouseY : Binary32) (screenWidth screenHeight : Int)
    (viewMatrix projectionMatrix : Mat4 Binary32) : Ray32 :=
  let two : Binary32 := ⟨Fl.fin 2⟩
  let x := (two * mouseX) / Binary32.ofInt screenWidth - 1
  let y := 1 - (two * mouseY) / Binary32.ofInt screenHeight
  let clipCoords : Vec4 Binary32 := ⟨x, y, -1, 1⟩
  let eyeCoords := (glm.inverse projectionMatrix).mulVec clipCoords
  let eyeCoords : Vec4 Binary32 := ⟨eyeCoords.x, eyeCoords.y, -1, 0⟩
  let worldDir := glm.normalize Binary32.inversesqrt
    ((glm.inverse viewMatrix).mulVec eyeCoords).xyz
  let camOrigin := (glm.inverse viewMatrix).c3.xyz
  Ray32.ctor camOrigin worldDir

/-- The exact scalar square of the numbers held by a vector of finite
    components. -/
def Binary32.normSq (d : Vec3 Binary32) : ℚ :=
  d.x.toRat * d.x.toRat + d.y.toRat * d.y.toRat + d.z.toRat * d.z.toRat

/-- The value is a positive normal number: finite and at least
    `FLT_MIN = 2^-126`. -/
def Binary32.isNormal (a : Binary32) : Bool :=
  match a.val with
  | Fl.fin v => decide ((1 : ℚ) / 2 ^ 126 ≤ v)
  | _ => false

/-- The binary32 value holding the number `q`, for a `q` that is a binary32
    number (no rounding is applied). -/
def Binary32.exact (q : ℚ) : Binary32 := ⟨Fl.fin q⟩

/-! ## Notions used to state the properties -/

section Notions

variable {K : Type} [LinearOrderedField K]

/-- The point `origin + t * direction`. -/
def pointAt (origin direction : Vec3 K) (t : K) : Vec3 K :=
  ⟨origin.x + t * direction.x, origin.y + t * direction.y, origin.z + t * direction.z⟩

/-- The point `p` lies in the closed box `[boxMin, boxMax]`. -/
def inBox (boxMin boxMax p : Vec3 K) : Prop :=
  (boxMin.x ≤ p.x ∧ p.x ≤ boxMax.x) ∧ (boxMin.y ≤ p.y ∧ p.y ≤ boxMax.y) ∧
    (boxMin.z ≤ p.z ∧ p.z ≤ boxMax.z)

/-- The value of a float in the extended line `[-∞, +∞]` (`NaN` has none; it
    is sent to `-∞` and excluded by hypothesis where this is used). -/
def Fl.toE : Fl K → WithBot (WithTop K)
  | Fl.fin v => ((v : WithTop K) : WithBot (WithTop K))
  | Fl.nzero => (((0 : K) : WithTop K) : WithBot (WithTop K))
  | Fl.pinf => ((⊤ : WithTop K) : WithBot (WithTop K))
  | Fl.ninf => ⊥
  | Fl.nan => ⊥

/-- The matrix `Translate(P)`. -/
def Translate (p : Vec3 K) : Mat4 K :=
  ⟨⟨1, 0, 0, 0⟩, ⟨0, 1, 0, 0⟩, ⟨0, 0, 1, 0⟩, ⟨p.x, p.y, p.z, 1⟩⟩

/-- The matrix `RotateX(θ)`: rotation by `θ` about the x axis. -/
def RotateX (g : GlmKernel K) (θ : K) : Mat4 K :=
  ⟨⟨1, 0, 0, 0⟩, ⟨0, g.cos θ, g.sin θ, 0⟩, ⟨0, -g.sin θ, g.cos θ, 0⟩, ⟨0, 0, 0, 1⟩⟩

/-- The matrix `RotateY(θ)`: rotation by `θ` about the y axis. -/
def RotateY (g : GlmKernel K) (θ : K) : Mat4 K :=
  ⟨⟨g.cos θ, 0, -g.sin θ, 0⟩, ⟨0, 1, 0, 0⟩, ⟨g.sin θ, 0, g.cos θ, 0⟩, ⟨0, 0, 0, 1⟩⟩

/-- The matrix `RotateZ(θ)`: rotation by `θ` about the z axis. -/
def RotateZ (g : GlmKernel K) (θ : K) : Mat4 K :=
  ⟨⟨g.cos θ, g.sin θ, 0, 0⟩, ⟨-g.sin θ, g.cos θ, 0, 0⟩, ⟨0, 0, 1, 0⟩, ⟨0, 0, 0, 1⟩⟩

/-- The matrix `Scale(S)`. -/
def Scale (s : Vec3 K) : Mat4 K :=
  ⟨⟨s.x, 0, 0, 0⟩, ⟨0, s.y, 0, 0⟩, ⟨0, 0, s.z, 0⟩, ⟨0, 0, 0, 1⟩⟩

/-- The local matrix `L(n) = Translate * RotateX * RotateY * RotateZ * Scale`
    of a node, angles converted from degrees to radians. -/
def SceneNode.localMatrix (g : GlmKernel K) (n : SceneNode K) : Mat4 K :=
  Translate n.m_position * RotateX g (glm.radians g n.m_rotation.x) *
    RotateY g (glm.radians g n.m_rotation.y) * RotateZ g (glm.radians g n.m_rotation.z) *
    Scale n.m_scale

/-- The operation `computeWorldTransform(parentWorldTransform)` of the
    specification: `parent * Translate(position) * RotateX(rotation.x) *
    RotateY(rotation.y) * RotateZ(rotation.z) * Scale(scale)`, in that order,
    angles converted from degrees to radians. -/
def SceneNode.computeWorldTransform (g : GlmKernel K) (n : SceneNode K) (parent : Mat4 K) :
    Mat4 K :=
  parent * Translate n.m_position * RotateX g (glm.radians g n.m_rotation.x) *
    RotateY g (glm.radians g n.m_rotation.y) * RotateZ g (glm.radians g n.m_rotation.z) *
    Scale n.m_scale

/-- The node reached from `n` by the child indices of `path`. -/
def SceneNode.descend : SceneNode K → List Nat → Option (SceneNode K)
  | n, [] => some n
  | n, i :: path =>
    match n.m_children.get? i with
    | some c => SceneNode.descend c path
    | none => none

/-- The nodes `n0 = n, n1, ..., nk` met along `path`, the last one included. -/
def SceneNode.chain : SceneNode K → List Nat → List (SceneNode K)
  | n, [] => [n]
  | n, i :: path =>
    match n.m_children.get? i with
    | some c => n :: SceneNode.chain c path
    | none => [n]

/-- The product `M * L(n0) * L(n1) * ... * L(nk)` over a list of nodes. -/
def chainMatrix (g : GlmKernel K) (M : Mat4 K) (nodes : List (SceneNode K)) : Mat4 K :=
  nodes.foldl (fun acc n => acc * n.localMatrix g) M

mutual
/-- The nodes in the order in which `CheckRayHit` and `Render` reach them
    (a node, then its children in list order), each with the
    `parentTransform` it is called with. -/
def SceneNode.visits (g : GlmKernel K) : SceneNode K → Mat4 K → List (SceneNode K × Mat4 K)
  | SceneNode.mk a p r s mt tt ts d children lo hi ty h, parentTransform =>
    (SceneNode.mk a p r s mt tt ts d children lo hi ty h, parentTransform) ::
      SceneNode.visitsChildren g children
        ((SceneNode.mk a p r s mt tt ts d children lo hi ty h).model g parentTransform)
/-- The visits of a list of siblings, all called with the same matrix. -/
def SceneNode.visitsChildren (g : GlmKernel K) :
    List (SceneNode K) → Mat4 K → List (SceneNode K × Mat4 K)
  | [], _ => []
  | child :: rest, transform =>
    SceneNode.visits g child transform ++ SceneNode.visitsChildren g rest transform
end

/-- The box test of every node of the tree, in visiting order: the address of
    the node with the result `(hit, tHit)` of `Intersects` for the matrix the
    node is called with. -/
def SceneNode.tests (g : GlmKernel K) (ray : Ray K) (tHit0 : Fl K) (root : SceneNode K)
    (parentTransform : Mat4 K) : List (Nat × (Bool × Fl K)) :=
  (SceneNode.visits g root parentTransform).map
    (fun v => (v.1.addr, v.1.Intersects g ray v.2 tHit0))

/-- A test that can be recorded: the box test succeeded and `0 < tHit`. -/
def qualifies (x : Nat × (Bool × Fl K)) : Prop :=
  x.2.1 = true ∧ Fl.gt x.2.2 0 = true

mutual
/-- The tree `n2` is `n1` with the children of any of its nodes put in another
    order. -/
inductive SceneNode.Reorder : SceneNode K → SceneNode K → Prop
  | node (a : Nat) (p r s : Vec3 K) (mt tt : String) (ts : Int) (d : Option DrawFunction)
      (cs1 cs2 : List (SceneNode K)) (lo hi : Vec3 K) (ty : MeshType) (h : Bool) :
      SceneNode.ReorderList cs1 cs2 →
      SceneNode.Reorder (SceneNode.mk a p r s mt tt ts d cs1 lo hi ty h)
        (SceneNode.mk a p r s mt tt ts d cs2 lo hi ty h)
/-- Reordering of a list of siblings, and of the trees below them. -/
inductive SceneNode.ReorderList : List (SceneNode K) → List (SceneNode K) → Prop
  | nil : SceneNode.ReorderList [] []
  | cons (c1 c2 : SceneNode K) (l1 l2 : List (SceneNode K)) :
      SceneNode.Reorder c1 c2 → SceneNode.ReorderList l1 l2 →
      SceneNode.ReorderList (c1 :: l1) (c2 :: l2)
  | swap (c1 c2 : SceneNode K) (l : List (SceneNode K)) :
      SceneNode.ReorderList (c1 :: c2 :: l) (c2 :: c1 :: l)
  | trans (l1 l2 l3 : List (SceneNode K)) :
      SceneNode.ReorderList l1 l2 → SceneNode.ReorderList l2 l3 → SceneNode.ReorderList l1 l3
end

/-- The world point `p` is the image under the model matrix of a point of the
    local box `[boxMin, boxMax]`. -/
def inWorldBox (model : Mat4 K) (boxMin boxMax p : Vec3 K) : Prop :=
  ∃ q : Vec3 K, inBox boxMin boxMax q ∧ (model.mulVec (Vec4.ofVec3 q 1)).xyz = p

/-- The ray `origin + t * direction` enters the transformed box at the
    parameter `t`: the point at `t` is in the box and no point at a smaller
    parameter is. -/
def worldEntry (model : Mat4 K) (boxMin boxMax origin direction : Vec3 K) (t : K) : Prop :=
  inWorldBox model boxMin boxMax (pointAt origin direction t) ∧
    ∀ s : K, inWorldBox model boxMin boxMax (pointAt origin direction s) → t ≤ s

end Notions

/-! ## Further notions used to state the properties -/

/-- The fields of a `SceneNode` other than `m_children`. -/
structure NodeFields (K : Type) where
  addr : Nat
  m_position : Vec3 K
  m_rotation : Vec3 K
  m_scale : Vec3 K
  m_materialTag : String
  m_textureTag : String
  m_textureSlot : Int
  m_drawFunction : Option DrawFunction
  m_localMin : Vec3 K
  m_localMax : Vec3 K
  m_meshType : MeshType
  m_isHighlighted : Bool

section MoreNotions

variable {K : Type} [LinearOrderedField K]

/-- The fields of a node, its children left out. -/
def SceneNode.fields (n : SceneNode K) : NodeFields K :=
  ⟨n.addr, n.m_position, n.m_rotation, n.m_scale, n.m_materialTag, n.m_textureTag,
    n.m_textureSlot, n.m_drawFunction, n.m_localMin, n.m_localMax, n.m_meshType,
    n.m_isHighlighted⟩

mutual
/-- The nodes of a tree in pre-order: a node, then the nodes of its children
    in child-list order. -/
def SceneNode.nodes : SceneNode K → List (SceneNode K)
  | SceneNode.mk a p r s mt tt ts d children lo hi ty h =>
    SceneNode.mk a p r s mt tt ts d children lo hi ty h :: SceneNode.nodesChildren children
/-- The nodes of a list of siblings. -/
def SceneNode.nodesChildren : List (SceneNode K) → List (SceneNode K)
  | [] => []
  | child :: rest => SceneNode.nodes child ++ SceneNode.nodesChildren rest
end

mutual
/-- The tree with, at every node, the draw function, the material tag, the
    texture tag and slot, the mesh type and the highlight flag replaced by
    those of a new node: what is left is the shape of the tree with the
    address, position, rotation, scale and local box of every node. -/
def SceneNode.stripRendering : SceneNode K → SceneNode K
  | SceneNode.mk a p r s _ _ _ _ children lo hi _ _ =>
    SceneNode.mk a p r s "" "" 0 none (SceneNode.stripRenderingChildren children) lo hi
      MeshType.Custom false
/-- The same for a list of siblings. -/
def SceneNode.stripRenderingChildren : List (SceneNode K) → List (SceneNode K)
  | [] => []
  | child :: rest =>
    SceneNode.stripRendering child :: SceneNode.stripRenderingChildren rest
end

/-- The matrix is affine: its last row is `(0, 0, 0, 1)`. -/
def Mat4.isAffine (m : Mat4 K) : Prop :=
  m.c0.w = 0 ∧ m.c1.w = 0 ∧ m.c2.w = 0 ∧ m.c3.w = 1

end MoreNotions

section TreeNotions

variable {K : Type} [LinearOrderedField K]

/-- The fields of a node with the highlight flag replaced. -/
def NodeFields.withHighlight (f : NodeFields K) (value : Bool) : NodeFields K :=
  ⟨f.addr, f.m_position, f.m_rotation, f.m_scale, f.m_materialTag, f.m_textureTag,
    f.m_textureSlot, f.m_drawFunction, f.m_localMin, f.m_localMax, f.m_meshType, value⟩

/-- The call is `setMat4Value("model", ...)`. -/
def RenderCall.isSetModel : RenderCall K → Bool
  | RenderCall.setMat4Value name _ => name == "model"
  | _ => false

end TreeNotions

section MatNotions

variable {K : Type} [LinearOrderedField K]

/-- The vector `glm::vec3(glm::inverse(view) * eyeCoords)` of `Ray::fromMouse`
    in exact arithmetic, before its normalization. -/
def Ray.unprojected (mouseX mouseY : K) (screenWidth screenHeight : Int)
    (viewMatrix projectionMatrix : Mat4 K) : Vec3 K :=
  let clipCoords : Vec4 K :=
    ⟨2 * mouseX / (screenWidth : K) - 1, 1 - 2 * mouseY / (screenHeight : K), -1, 1⟩
  let eyeCoords := (glm.inverse projectionMatrix).mulVec clipCoords
  ((glm.inverse viewMatrix).mulVec ⟨eyeCoords.x, eyeCoords.y, -1, 0⟩).xyz

end MatNotions

/-! ## Notions for the local-space distance -/

section DistanceNotions

variable {K : Type} [LinearOrderedField K]

/-- The matrix is a rigid motion followed by the uniform scale `s`: it is
    affine and the three columns of its linear part are pairwise orthogonal
    of squared length `s * s`. -/
def Mat4.isSimilarity (m : Mat4 K) (s : K) : Prop :=
  m.isAffine ∧
    glm.dot m.c0.xyz m.c0.xyz = s * s ∧ glm.dot m.c1.xyz m.c1.xyz = s * s ∧
    glm.dot m.c2.xyz m.c2.xyz = s * s ∧
    glm.dot m.c0.xyz m.c1.xyz = 0 ∧ glm.dot m.c0.xyz m.c2.xyz = 0 ∧
    glm.dot m.c1.xyz m.c2.xyz = 0

end DistanceNotions

/-! ## Concrete data for the evaluations -/

/-- A rational instance of the numeric kernel: truncated Taylor polynomials for
    `cos` and `sin`, and for `inversesqrt` the quotient of the integer square
    roots of denominator and numerator, exact on squares of rationals. -/
def kernelQ : GlmKernel ℚ where
  cos x := 1 - x * x / 2 + x * x * x * x / 24
  sin x := x - x * x * x / 6
  inversesqrt x := (Nat.sqrt x.den : ℚ) / (Nat.sqrt x.num.toNat : ℚ)
  degToRad := 1745329251994329576923690768489 / 100000000000000000000000000000000
  cos_zero := by norm_num
  sin_zero := by norm_num
  inversesqrt_one := by norm_num

/-- A node as `new SceneNode()` followed by `SetTransform(position, vec3(0),
    scale)` builds it, with the given children. -/
def boxNode (addr : Nat) (position scale : Vec3 ℚ) (children : List (SceneNode ℚ)) :
    SceneNode ℚ :=
  SceneNode.mk addr position ⟨0, 0, 0⟩ scale "" "" 0 none children
    ⟨-(1/2), -(1/2), -(1/2)⟩ ⟨1/2, 1/2, 1/2⟩ MeshType.Custom false

/-- The ray from the origin along `-z`. -/
def pickRay : Ray ℚ := ⟨⟨Fl.fin 0, Fl.fin 0, Fl.fin 0⟩, ⟨Fl.fin 0, Fl.fin 0, Fl.fin (-1)⟩⟩

/-- Three boxes along `pickRay`: the root at distance 3, a unit child at
    distance 6, and a child at distance 20 stretched 16 times along the ray. -/
def farStretched : SceneNode ℚ :=
  boxNode 1 ⟨0, 0, -3⟩ ⟨1, 1, 1⟩
    [boxNode 2 ⟨0, 0, -3⟩ ⟨1, 1, 1⟩ [], boxNode 3 ⟨0, 0, -17⟩ ⟨1, 1, 16⟩ []]

/-- A root behind two children that occupy the same box. -/
def twins : SceneNode ℚ :=
  boxNode 1 ⟨0, 0, -9⟩ ⟨1, 1, 1⟩
    [boxNode 2 ⟨0, 0, 6⟩ ⟨1, 1, 1⟩ [], boxNode 3 ⟨0, 0, 6⟩ ⟨1, 1, 1⟩ []]

/-- The tree `twins` with the two children in the other order. -/
def twinsSwapped : SceneNode ℚ :=
  boxNode 1 ⟨0, 0, -9⟩ ⟨1, 1, 1⟩
    [boxNode 3 ⟨0, 0, 6⟩ ⟨1, 1, 1⟩ [], boxNode 2 ⟨0, 0, 6⟩ ⟨1, 1, 1⟩ []]

/-- A parent off the ray with a child on it. -/
def offAxisParent : SceneNode ℚ :=
  boxNode 1 ⟨10, 0, -3⟩ ⟨1, 1, 1⟩ [boxNode 2 ⟨-10, 0, -3⟩ ⟨1, 1, 1⟩ []]

/-- An invertible matrix that is not affine: it exchanges the `z` and `w`
    coordinates. -/
def swapZW : Mat4 ℚ := ⟨⟨1, 0, 0, 0⟩, ⟨0, 1, 0, 0⟩, ⟨0, 0, 0, 1⟩, ⟨0, 0, 1, 0⟩⟩

set_option linter.unusedSectionVars false

variable {K : Type} [LinearOrderedField K]

namespace Fl

@[simp]
theorem fin_add_fin (a b : K) : (fin a + fin b : Fl K) = fin (a + b) := rfl
@[simp]
theorem fin_sub_fin (a b : K) : (fin a - fin b : Fl K) = fin (a - b) := rfl
@[simp]
theorem fin_mul_fin (a b : K) : (fin a * fin b : Fl K) = fin (a * b) := by
  show mul _ _ = _
  simp [mul, isNaN, isFinite, num]
@[simp]
theorem neg_fin (a : K) : (-(fin a) : Fl K) = fin (-a) := rfl
@[simp]
theorem zero_def : (0 : Fl K) = fin 0 := rfl
@[simp]
theorem one_def : (1 : Fl K) = fin 1 := rfl
theorem fin_div_fin (a b : K) (hb : b ≠ 0) : (fin a / fin b : Fl K) = fin (a / b) := by
  show div _ _ = _
  simp [div, isNaN, isFinite, num, hb]
theorem fin_div_zero (a : K) : (fin a / fin 0 : Fl K) = if a = 0 then nan else if a < 0 then ninf else pinf := by
  show div _ _ = _
  by_cases h : a = 0
  · simp [div, isNaN, isFinite, num, h]
  · by_cases h2 : a < 0 <;> simp [div, isNaN, isFinite, num, h, h2, signBit, inf]
@[simp]
theorem lt_fin_fin (a b : K) : lt (fin a) (fin b) = decide (a < b) := rfl
@[simp]
theorem le_fin_fin (a b : K) : le (fin a) (fin b) = decide (a ≤ b) := rfl
@[simp]
theorem ge_fin_fin (a b : K) : ge (fin a) (fin b) = decide (b ≤ a) := rfl
end Fl

namespace Fl

theorem toE_fin_lt_top (v : K) : (fin v).toE < (pinf : Fl K).toE :=
  WithBot.coe_lt_coe.2 (WithTop.coe_lt_top v)

theorem bot_lt_toE_fin (v : K) : (ninf : Fl K).toE < (fin v).toE :=
  WithBot.bot_lt_coe _

theorem bot_lt_toE_pinf : (ninf : Fl K).toE < (pinf : Fl K).toE :=
  WithBot.bot_lt_coe _

theorem toE_fin_le (a b : K) : (fin a).toE ≤ (fin b).toE ↔ a ≤ b := by
  simp [toE]

theorem toE_fin_lt (a b : K) : (fin a).toE < (fin b).toE ↔ a < b := by
  simp [toE]

theorem toE_nzero : (nzero : Fl K).toE = (fin 0).toE := rfl

theorem lt_eq_toE (x y : Fl K) (hx : x.isNaN = false) (hy : y.isNaN = false) :
    lt x y = decide (x.toE < y.toE) := by
  cases x <;> cases y <;>
    first
    | simp [isNaN] at hx hy; done
    | simp [lt, toE_nzero, toE_fin_lt, num, toE_fin_lt_top, bot_lt_toE_fin, bot_lt_toE_pinf,
        not_lt_of_gt, le_of_lt]

theorem le_eq_toE (x y : Fl K) (hx : x.isNaN = false) (hy : y.isNaN = false) :
    le x y = decide (x.toE ≤ y.toE) := by
  cases x <;> cases y <;>
    first
    | simp [isNaN] at hx hy; done
    | simp [le, toE_nzero, toE_fin_le, num, toE_fin_lt_top, bot_lt_toE_fin, bot_lt_toE_pinf,
        not_le_of_gt, le_of_lt]

end Fl

theorem Mat4.mul_def (a b : Mat4 K) :
    a * b = ⟨a.mulCol b.c0, a.mulCol b.c1, a.mulCol b.c2, a.mulCol b.c3⟩ := rfl

theorem Mat4.mul_assoc (a b c : Mat4 K) : a * b * c = a * (b * c) := by
  obtain ⟨⟨a00, a01, a02, a03⟩, ⟨a10, a11, a12, a13⟩, ⟨a20, a21, a22, a23⟩, ⟨a30, a31, a32, a33⟩⟩ := a
  obtain ⟨⟨b00, b01, b02, b03⟩, ⟨b10, b11, b12, b13⟩, ⟨b20, b21, b22, b23⟩, ⟨b30, b31, b32, b33⟩⟩ := b
  obtain ⟨⟨c00, c01, c02, c03⟩, ⟨c10, c11, c12, c13⟩, ⟨c20, c21, c22, c23⟩, ⟨c30, c31, c32, c33⟩⟩ := c
  simp only [Mat4.mul_def, Mat4.mulCol, Vec4.add, Vec4.scale, Mat4.mk.injEq, Vec4.mk.injEq]
  refine ⟨⟨?_, ?_, ?_, ?_⟩, ⟨?_, ?_, ?_, ?_⟩, ⟨?_, ?_, ?_, ?_⟩, ⟨?_, ?_, ?_, ?_⟩⟩ <;> ring

theorem Mat4.mul_identity (a : Mat4 K) : a * Mat4.identity = a := by
  obtain ⟨⟨a00, a01, a02, a03⟩, ⟨a10, a11, a12, a13⟩, ⟨a20, a21, a22, a23⟩, ⟨a30, a31, a32, a33⟩⟩ := a
  simp [Mat4.mul_def, Mat4.mulCol, Vec4.add, Vec4.scale, Mat4.identity]

theorem glm.translate_eq_mul (m : Mat4 K) (v : Vec3 K) : glm.translate m v = m * Translate v := by
  obtain ⟨⟨a00, a01, a02, a03⟩, ⟨a10, a11, a12, a13⟩, ⟨a20, a21, a22, a23⟩, ⟨a30, a31, a32, a33⟩⟩ := m
  simp [glm.translate, Translate, Mat4.mul_def, Mat4.mulCol, Vec4.add, Vec4.scale]

theorem glm.scale_eq_mul (m : Mat4 K) (v : Vec3 K) : glm.scale m v = m * Scale v := by
  obtain ⟨⟨a00, a01, a02, a03⟩, ⟨a10, a11, a12, a13⟩, ⟨a20, a21, a22, a23⟩, ⟨a30, a31, a32, a33⟩⟩ := m
  simp [glm.scale, Scale, Mat4.mul_def, Mat4.mulCol, Vec4.add, Vec4.scale]

theorem glm.rotate_x_eq_mul (g : GlmKernel K) (m : Mat4 K) (θ : K) :
    glm.rotate g m θ ⟨1, 0, 0⟩ = m * RotateX g θ := by
  obtain ⟨⟨a00, a01, a02, a03⟩, ⟨a10, a11, a12, a13⟩, ⟨a20, a21, a22, a23⟩, ⟨a30, a31, a32, a33⟩⟩ := m
  simp [glm.rotate, RotateX, Mat4.mul_def, Mat4.mulCol, Vec4.add, Vec4.scale, glm.normalize,
    glm.dot, Vec3.scale, Vec3.smul, g.inversesqrt_one]

theorem glm.rotate_y_eq_mul (g : GlmKernel K) (m : Mat4 K) (θ : K) :
    glm.rotate g m θ ⟨0, 1, 0⟩ = m * RotateY g θ := by
  obtain ⟨⟨a00, a01, a02, a03⟩, ⟨a10, a11, a12, a13⟩, ⟨a20, a21, a22, a23⟩, ⟨a30, a31, a32, a33⟩⟩ := m
  simp [glm.rotate, RotateY, Mat4.mul_def, Mat4.mulCol, Vec4.add, Vec4.scale, glm.normalize,
    glm.dot, Vec3.scale, Vec3.smul, g.inversesqrt_one]

theorem glm.rotate_z_eq_mul (g : GlmKernel K) (m : Mat4 K) (θ : K) :
    glm.rotate g m θ ⟨0, 0, 1⟩ = m * RotateZ g θ := by
  obtain ⟨⟨a00, a01, a02, a03⟩, ⟨a10, a11, a12, a13⟩, ⟨a20, a21, a22, a23⟩, ⟨a30, a31, a32, a33⟩⟩ := m
  simp [glm.rotate, RotateZ, Mat4.mul_def, Mat4.mulCol, Vec4.add, Vec4.scale, glm.normalize,
    glm.dot, Vec3.scale, Vec3.smul, g.inversesqrt_one]

theorem SceneNode.model_eq_mul (g : GlmKernel K) (n : SceneNode K) (M : Mat4 K) :
    n.model g M = M * Translate n.m_position * RotateX g (glm.radians g n.m_rotation.x) *
      RotateY g (glm.radians g n.m_rotation.y) * RotateZ g (glm.radians g n.m_rotation.z) *
      Scale n.m_scale := by
  unfold SceneNode.model
  simp only [glm.translate_eq_mul, glm.rotate_x_eq_mul, glm.rotate_y_eq_mul, glm.rotate_z_eq_mul,
    glm.scale_eq_mul]

theorem SceneNode.model_eq_mul_local (g : GlmKernel K) (n : SceneNode K) (M : Mat4 K) :
    n.model g M = M * n.localMatrix g := by
  rw [SceneNode.model_eq_mul, SceneNode.localMatrix]
  simp only [Mat4.mul_assoc]

namespace SceneNode

/-- The update of the closest-hit state made for one visited node. -/
theorem CheckRayHit_eq (g : GlmKernel K) (ray : Ray K) (t0 : Fl K) (n : SceneNode K)
    (M : Mat4 K) (st : PickState K) :
    CheckRayHit g ray t0 n M st =
      CheckRayHitChildren g ray t0 n.m_children (n.model g M)
        (recordHit n.addr (n.Intersects g ray M t0) st) := by
  cases n
  rw [CheckRayHit]
  rfl

theorem visits_eq (g : GlmKernel K) (n : SceneNode K) (M : Mat4 K) :
    visits g n M = (n, M) :: visitsChildren g n.m_children (n.model g M) := by
  cases n
  rw [visits]
  rfl

mutual
theorem CheckRayHit_eq_foldl (g : GlmKernel K) (ray : Ray K) (t0 : Fl K) :
    ∀ (n : SceneNode K) (M : Mat4 K) (st : PickState K),
    CheckRayHit g ray t0 n M st =
      (visits g n M).foldl (fun st v => recordHit v.1.addr (v.1.Intersects g ray v.2 t0) st) st
  | mk a p r s mt tt ts d children lo hi ty h, M, st => by
    rw [CheckRayHit_eq, visits_eq, List.foldl_cons]
    exact CheckRayHitChildren_eq_foldl g ray t0 children _ _
theorem CheckRayHitChildren_eq_foldl (g : GlmKernel K) (ray : Ray K) (t0 : Fl K) :
    ∀ (l : List (SceneNode K)) (M : Mat4 K) (st : PickState K),
    CheckRayHitChildren g ray t0 l M st =
      (visitsChildren g l M).foldl
        (fun st v => recordHit v.1.addr (v.1.Intersects g ray v.2 t0) st) st
  | [], M, st => by
    rw [CheckRayHitChildren, visitsChildren]
    rfl
  | c :: rest, M, st => by
    rw [CheckRayHitChildren, visitsChildren, List.foldl_append,
      ← CheckRayHit_eq_foldl g ray t0 c M st]
    exact CheckRayHitChildren_eq_foldl g ray t0 rest M _
end

end SceneNode

theorem Fl.lt_true_iff (x y : Fl K) :
    Fl.lt x y = true ↔ x.isNaN = false ∧ y.isNaN = false ∧ x.toE < y.toE := by
  constructor
  · intro h
    have hx : x.isNaN = false := by cases x <;> cases y <;> simp_all [Fl.lt, Fl.isNaN]
    have hy : y.isNaN = false := by cases x <;> cases y <;> simp_all [Fl.lt, Fl.isNaN]
    rw [Fl.lt_eq_toE x y hx hy] at h
    exact ⟨hx, hy, of_decide_eq_true h⟩
  · rintro ⟨hx, hy, h⟩
    rw [Fl.lt_eq_toE x y hx hy]
    exact decide_eq_true h

theorem Fl.lt_self_false (x : Fl K) : Fl.lt x x = false := by
  cases h : Fl.lt x x
  · rfl
  · exact absurd ((Fl.lt_true_iff x x).1 h).2.2 (lt_irrefl _)

theorem Fl.lt_chain (x y z : Fl K) (h1 : Fl.lt x y = true) (h2 : Fl.lt y z = true) :
    Fl.lt x z = true := by
  rw [Fl.lt_true_iff] at h1 h2 ⊢
  exact ⟨h1.1, h2.2.1, lt_trans h1.2.2 h2.2.2⟩

theorem Fl.lt_flip_false (x y : Fl K) (h : Fl.lt x y = true) : Fl.lt y x = false := by
  cases h' : Fl.lt y x
  · rfl
  · have := Fl.lt_chain x y x h h'
    rw [Fl.lt_self_false] at this
    exact absurd this (by simp)

/-- Two positive floats neither of which is smaller than the other are equal. -/
theorem Fl.eq_of_pos_of_not_lt (x y : Fl K) (hx : Fl.gt x 0 = true) (hy : Fl.gt y 0 = true)
    (h1 : Fl.lt x y = false) (h2 : Fl.lt y x = false) : x = y := by
  cases x <;> cases y <;> simp_all [Fl.lt, Fl.gt, Fl.num]
  exact le_antisymm h2 h1

theorem SceneNode.recordHit_eq (a : Nat) (test : Bool × Fl K) (st : PickState K) :
    SceneNode.recordHit a test st =
      if test.1 = true ∧ Fl.gt test.2 0 = true ∧ Fl.lt test.2 st.closestDistance = true
      then ⟨some a, test.2⟩ else st := by
  unfold SceneNode.recordHit
  by_cases h1 : test.1 = true <;> by_cases h2 : Fl.gt test.2 0 = true <;>
    by_cases h3 : Fl.lt test.2 st.closestDistance = true <;> simp [h1, h2, h3]

/-- The fold of `recordHit` over a list of tests keeps a minimal recordable test. -/
theorem foldl_recordHit_spec (T : List (Nat × (Bool × Fl K))) :
    ∀ st : PickState K,
    (T.foldl (fun st x => SceneNode.recordHit x.1 x.2 st) st = st ∧
      ∀ x ∈ T, qualifies x → Fl.lt x.2.2 st.closestDistance = false) ∨
    (∃ x ∈ T, qualifies x ∧ Fl.lt x.2.2 st.closestDistance = true ∧
      T.foldl (fun st x => SceneNode.recordHit x.1 x.2 st) st = ⟨some x.1, x.2.2⟩ ∧
      ∀ y ∈ T, qualifies y → Fl.lt y.2.2 x.2.2 = false) := by
  induction T with
  | nil => intro st; left; exact ⟨rfl, fun x hx => absurd hx (List.not_mem_nil x)⟩
  | cons x T ih =>
    intro st
    rw [List.foldl_cons, SceneNode.recordHit_eq]
    by_cases hc : x.2.1 = true ∧ Fl.gt x.2.2 0 = true ∧ Fl.lt x.2.2 st.closestDistance = true
    · rw [if_pos hc]
      have hq : qualifies x := ⟨hc.1, hc.2.1⟩
      right
      rcases ih ⟨some x.1, x.2.2⟩ with ⟨e, hmin⟩ | ⟨y, hy, hqy, hlt, e, hmin⟩
      · refine ⟨x, List.mem_cons_self _ _, hq, hc.2.2, e, ?_⟩
        intro y hy hqy
        rcases List.mem_cons.1 hy with rfl | hy
        · exact Fl.lt_self_false _
        · exact hmin y hy hqy
      · refine ⟨y, List.mem_cons_of_mem _ hy, hqy, Fl.lt_chain _ _ _ hlt hc.2.2, e, ?_⟩
        intro z hz hqz
        rcases List.mem_cons.1 hz with rfl | hz
        · exact Fl.lt_flip_false _ _ hlt
        · exact hmin z hz hqz
    · rw [if_neg hc]
      have hx : qualifies x → Fl.lt x.2.2 st.closestDistance = false := by
        intro hq
        cases h : Fl.lt x.2.2 st.closestDistance
        · rfl
        · exact absurd ⟨hq.1, hq.2, h⟩ hc
      rcases ih st with ⟨e, hmin⟩ | ⟨y, hy, hqy, hlt, e, hmin⟩
      · left
        refine ⟨e, ?_⟩
        intro y hy hqy
        rcases List.mem_cons.1 hy with rfl | hy
        · exact hx hqy
        · exact hmin y hy hqy
      · right
        refine ⟨y, List.mem_cons_of_mem _ hy, hqy, hlt, e, ?_⟩
        intro z hz hqz
        rcases List.mem_cons.1 hz with rfl | hz
        · cases h : Fl.lt z.2.2 y.2.2
          · rfl
          · have := Fl.lt_chain _ _ _ h hlt
            rw [hx hqz] at this
            exact absurd this (by simp)
        · exact hmin z hz hqz

theorem SceneNode.CheckRayHit_eq_foldl_tests (g : GlmKernel K) (ray : Ray K) (t0 : Fl K)
    (n : SceneNode K) (M : Mat4 K) (st : PickState K) :
    SceneNode.CheckRayHit g ray t0 n M st =
      (SceneNode.tests g ray t0 n M).foldl (fun st x => SceneNode.recordHit x.1 x.2 st) st := by
  rw [SceneNode.CheckRayHit_eq_foldl, SceneNode.tests, List.foldl_map]

/-- C2. For every tree, ray and seed (null, D), after `CheckRayHit` on the
    root: `closestDistance` is D or the `tHit` of a node of the tree whose box
    test succeeds with `0 < tHit`, and neither D nor any such `tHit` is smaller
    than it (it is their minimum); a non-null `closestNode` is a node of the
    tree whose test succeeds with `0 < tHit`, and that `tHit` is
    `closestDistance`; `closestNode` is null exactly when no node of the tree
    has a successful test with `0 < tHit < D`, and `closestDistance` is then
    still D. -/
theorem C2_closest_hit_reduction (g : GlmKernel K) (ray : Ray K) (tHit0 : Fl K)
    (root : SceneNode K) (M : Mat4 K) (D : Fl K) :
    ((SceneNode.CheckRayHit g ray tHit0 root M ⟨none, D⟩).closestDistance = D ∨
      ∃ x ∈ SceneNode.tests g ray tHit0 root M, qualifies x ∧
        (SceneNode.CheckRayHit g ray tHit0 root M ⟨none, D⟩).closestDistance = x.2.2) ∧
    (Fl.lt D (SceneNode.CheckRayHit g ray tHit0 root M ⟨none, D⟩).closestDistance = false ∧
      ∀ x ∈ SceneNode.tests g ray tHit0 root M, qualifies x →
        Fl.lt x.2.2 (SceneNode.CheckRayHit g ray tHit0 root M ⟨none, D⟩).closestDistance = false) ∧
    (∀ a, (SceneNode.CheckRayHit g ray tHit0 root M ⟨none, D⟩).closestNode = some a →
      ∃ x ∈ SceneNode.tests g ray tHit0 root M, x.1 = a ∧ qualifies x ∧
        x.2.2 = (SceneNode.CheckRayHit g ray tHit0 root M ⟨none, D⟩).closestDistance) ∧
    ((SceneNode.CheckRayHit g ray tHit0 root M ⟨none, D⟩).closestNode = none ↔
      ¬ ∃ x ∈ SceneNode.tests g ray tHit0 root M, qualifies x ∧ Fl.lt x.2.2 D = true) ∧
    ((SceneNode.CheckRayHit g ray tHit0 root M ⟨none, D⟩).closestNode = none →
      (SceneNode.CheckRayHit g ray tHit0 root M ⟨none, D⟩).closestDistance = D) := by
  rw [SceneNode.CheckRayHit_eq_foldl_tests]
  rcases foldl_recordHit_spec (SceneNode.tests g ray tHit0 root M) ⟨none, D⟩ with
    ⟨e, hmin⟩ | ⟨x, hx, hq, hlt, e, hmin⟩
  · rw [e]
    refine ⟨Or.inl rfl, ⟨Fl.lt_self_false D, hmin⟩, ?_, ?_, fun _ => rfl⟩
    · intro a ha
      exact absurd ha (by simp)
    · refine ⟨fun _ => ?_, fun _ => rfl⟩
      rintro ⟨x, hx, hq, hlt⟩
      have := hmin x hx hq
      simp only at this
      rw [this] at hlt
      exact absurd hlt (by simp)
  · rw [e]
    refine ⟨Or.inr ⟨x, hx, hq, rfl⟩, ⟨Fl.lt_flip_false _ _ hlt, hmin⟩, ?_, ?_, ?_⟩
    · intro a ha
      simp only [Option.some.injEq] at ha
      exact ⟨x, hx, ha, hq, rfl⟩
    · refine ⟨fun h => absurd h (by simp), fun h => absurd ⟨x, hx, hq, hlt⟩ h⟩
    · intro h
      exact absurd h (by simp)

/-- C6. For one node, `CheckRayHit` replaces the closest-hit state by
    (this node, `tHit`) exactly when the test of `Intersects` for the same ray
    and parent matrix succeeds and `0 < tHit < closestDistance`, and leaves
    both fields unchanged in every other case; the children are traversed
    from that state, which is the result when the node has no children. -/
theorem C6_single_node_update (g : GlmKernel K) (ray : Ray K) (tHit0 : Fl K)
    (n : SceneNode K) (M : Mat4 K) (st : PickState K) :
    SceneNode.CheckRayHit g ray tHit0 n M st =
      SceneNode.CheckRayHitChildren g ray tHit0 n.m_children (n.model g M)
        (if (n.Intersects g ray M tHit0).1 = true ∧
            Fl.gt (n.Intersects g ray M tHit0).2 0 = true ∧
            Fl.lt (n.Intersects g ray M tHit0).2 st.closestDistance = true
         then ⟨some n.addr, (n.Intersects g ray M tHit0).2⟩ else st) ∧
    (n.m_children = [] →
      SceneNode.CheckRayHit g ray tHit0 n M st =
        if (n.Intersects g ray M tHit0).1 = true ∧
            Fl.gt (n.Intersects g ray M tHit0).2 0 = true ∧
            Fl.lt (n.Intersects g ray M tHit0).2 st.closestDistance = true
        then ⟨some n.addr, (n.Intersects g ray M tHit0).2⟩ else st) := by
  have h := SceneNode.CheckRayHit_eq g ray tHit0 n M st
  rw [SceneNode.recordHit_eq] at h
  refine ⟨h, fun hc => ?_⟩
  rw [h, hc, SceneNode.CheckRayHitChildren]

theorem SceneNode.CheckRayHitChildren_eq_foldl_tests (g : GlmKernel K) (ray : Ray K) (t0 : Fl K)
    (l : List (SceneNode K)) (M : Mat4 K) (st : PickState K) :
    SceneNode.CheckRayHitChildren g ray t0 l M st =
      ((SceneNode.visitsChildren g l M).map
        (fun v => (v.1.addr, v.1.Intersects g ray v.2 t0))).foldl
          (fun st x => SceneNode.recordHit x.1 x.2 st) st := by
  rw [SceneNode.CheckRayHitChildren_eq_foldl, List.foldl_map]

/-- C7. For a node whose own box test fails, the loop over the children starts
    from the unchanged state with the node's model matrix, and for every
    descendant whose test succeeds with `0 < tHit < closestDistance` the result
    records a descendant whose `tHit` is not greater; it records that very
    descendant when no other descendant has a successful test with
    `0 < tHit`. -/
theorem C7_no_pruning_by_parent (g : GlmKernel K) (ray : Ray K) (tHit0 : Fl K)
    (n : SceneNode K) (M : Mat4 K) (st : PickState K)
    (hmiss : (n.Intersects g ray M tHit0).1 = false) :
    SceneNode.CheckRayHit g ray tHit0 n M st =
      SceneNode.CheckRayHitChildren g ray tHit0 n.m_children (n.model g M) st ∧
    ∀ x ∈ (SceneNode.visitsChildren g n.m_children (n.model g M)).map
        (fun v => (v.1.addr, v.1.Intersects g ray v.2 tHit0)),
      qualifies x → Fl.lt x.2.2 st.closestDistance = true →
      (∃ y ∈ (SceneNode.visitsChildren g n.m_children (n.model g M)).map
          (fun v => (v.1.addr, v.1.Intersects g ray v.2 tHit0)),
        qualifies y ∧ SceneNode.CheckRayHit g ray tHit0 n M st = ⟨some y.1, y.2.2⟩ ∧
          Fl.lt x.2.2 y.2.2 = false) ∧
      ((∀ y ∈ (SceneNode.visitsChildren g n.m_children (n.model g M)).map
          (fun v => (v.1.addr, v.1.Intersects g ray v.2 tHit0)), qualifies y → y = x) →
        SceneNode.CheckRayHit g ray tHit0 n M st = ⟨some x.1, x.2.2⟩) := by
  have h : SceneNode.CheckRayHit g ray tHit0 n M st =
      SceneNode.CheckRayHitChildren g ray tHit0 n.m_children (n.model g M) st := by
    rw [SceneNode.CheckRayHit_eq, SceneNode.recordHit_eq]
    simp [hmiss]
  refine ⟨h, ?_⟩
  intro x hx hq hlt
  rw [h, SceneNode.CheckRayHitChildren_eq_foldl_tests]
  rcases foldl_recordHit_spec ((SceneNode.visitsChildren g n.m_children (n.model g M)).map
        (fun v => (v.1.addr, v.1.Intersects g ray v.2 tHit0))) st with
    ⟨_, hmin⟩ | ⟨y, hy, hqy, _, e, hmin⟩
  · have := hmin x hx hq
    rw [this] at hlt
    exact absurd hlt (by simp)
  · refine ⟨⟨y, hy, hqy, e, hmin x hx hq⟩, fun huniq => ?_⟩
    rw [e, huniq y hy hqy]

theorem SceneNode.Reorder.tests_perm (g : GlmKernel K) (ray : Ray K) (t0 : Fl K)
    {n1 n2 : SceneNode K} (hr : SceneNode.Reorder n1 n2) :
    ∀ M : Mat4 K, List.Perm (SceneNode.tests g ray t0 n1 M) (SceneNode.tests g ray t0 n2 M) := by
  refine @SceneNode.Reorder.rec K
    (fun n1 n2 _ => ∀ M : Mat4 K,
      List.Perm (SceneNode.tests g ray t0 n1 M) (SceneNode.tests g ray t0 n2 M))
    (fun l1 l2 _ => ∀ M : Mat4 K, List.Perm
        ((SceneNode.visitsChildren g l1 M).map (fun v => (v.1.addr, v.1.Intersects g ray v.2 t0)))
        ((SceneNode.visitsChildren g l2 M).map (fun v => (v.1.addr, v.1.Intersects g ray v.2 t0))))
    ?_ ?_ ?_ ?_ ?_ n1 n2 hr
  · intro a p r s mt tt ts d cs1 cs2 lo hi ty h _ ih M
    unfold SceneNode.tests
    rw [SceneNode.visits_eq, SceneNode.visits_eq, List.map_cons, List.map_cons]
    exact List.Perm.cons _ (ih _)
  · intro M
    exact List.Perm.refl _
  · intro c1 c2 l1 l2 _ _ ih1 ih2 M
    rw [SceneNode.visitsChildren, SceneNode.visitsChildren, List.map_append, List.map_append]
    exact List.Perm.append (ih1 M) (ih2 M)
  · intro c1 c2 l M
    simp only [SceneNode.visitsChildren, List.map_append, ← List.append_assoc]
    exact List.Perm.append_right _ List.perm_append_comm
  · intro l1 l2 l3 _ _ ih1 ih2 M
    exact List.Perm.trans (ih1 M) (ih2 M)

/-- Folding `recordHit` over two permutations of the same tests. -/
theorem foldl_recordHit_perm (T1 T2 : List (Nat × (Bool × Fl K))) (hp : List.Perm T1 T2)
    (st : PickState K) :
    (T1.foldl (fun st x => SceneNode.recordHit x.1 x.2 st) st).closestDistance =
      (T2.foldl (fun st x => SceneNode.recordHit x.1 x.2 st) st).closestDistance ∧
    ((T1.foldl (fun st x => SceneNode.recordHit x.1 x.2 st) st).closestNode = none ↔
      (T2.foldl (fun st x => SceneNode.recordHit x.1 x.2 st) st).closestNode = none) ∧
    ((∀ x ∈ T1, ∀ y ∈ T1, qualifies x → qualifies y → x.2.2 = y.2.2 → x.1 = y.1) →
      T1.foldl (fun st x => SceneNode.recordHit x.1 x.2 st) st =
        T2.foldl (fun st x => SceneNode.recordHit x.1 x.2 st) st) := by
  rcases foldl_recordHit_spec T1 st with ⟨e1, m1⟩ | ⟨x1, hx1, q1, l1, e1, m1⟩ <;>
  rcases foldl_recordHit_spec T2 st with ⟨e2, m2⟩ | ⟨x2, hx2, q2, l2, e2, m2⟩
  · rw [e1, e2]
    exact ⟨rfl, Iff.rfl, fun _ => rfl⟩
  · have := m1 x2 (hp.mem_iff.2 hx2) q2
    rw [this] at l2
    exact absurd l2 (by simp)
  · have := m2 x1 (hp.mem_iff.1 hx1) q1
    rw [this] at l1
    exact absurd l1 (by simp)
  · rw [e1, e2]
    have ht : x1.2.2 = x2.2.2 :=
      Fl.eq_of_pos_of_not_lt _ _ q1.2 q2.2 (m2 x1 (hp.mem_iff.1 hx1) q1)
        (m1 x2 (hp.mem_iff.2 hx2) q2)
    refine ⟨ht, by simp, fun hu => ?_⟩
    rw [hu x1 hx1 x2 (hp.mem_iff.2 hx2) q1 q2 ht, ht]

/-- C8 (amended). Putting the children of any nodes of the tree in another
    order does not change the final `closestDistance`, nor whether
    `closestNode` is null; the final `closestNode` is the same as well when no
    two nodes with a successful test and `0 < tHit` have the same `tHit`. -/
theorem C8_sibling_order_distance (g : GlmKernel K) (ray : Ray K) (tHit0 : Fl K)
    (n1 n2 : SceneNode K) (hr : SceneNode.Reorder n1 n2) (M : Mat4 K) (st : PickState K) :
    (SceneNode.CheckRayHit g ray tHit0 n1 M st).closestDistance =
      (SceneNode.CheckRayHit g ray tHit0 n2 M st).closestDistance ∧
    ((SceneNode.CheckRayHit g ray tHit0 n1 M st).closestNode = none ↔
      (SceneNode.CheckRayHit g ray tHit0 n2 M st).closestNode = none) ∧
    ((∀ x ∈ SceneNode.tests g ray tHit0 n1 M, ∀ y ∈ SceneNode.tests g ray tHit0 n1 M,
        qualifies x → qualifies y → x.2.2 = y.2.2 → x.1 = y.1) →
      SceneNode.CheckRayHit g ray tHit0 n1 M st = SceneNode.CheckRayHit g ray tHit0 n2 M st) := by
  rw [SceneNode.CheckRayHit_eq_foldl_tests, SceneNode.CheckRayHit_eq_foldl_tests]
  exact foldl_recordHit_perm _ _ (SceneNode.Reorder.tests_perm g ray tHit0 hr M) st

theorem SceneNode.visits_subset_visitsChildren (g : GlmKernel K) (c : SceneNode K)
    (l : List (SceneNode K)) (hc : c ∈ l) (M : Mat4 K) (v : SceneNode K × Mat4 K)
    (hv : v ∈ SceneNode.visits g c M) : v ∈ SceneNode.visitsChildren g l M := by
  induction l with
  | nil => exact absurd hc (List.not_mem_nil c)
  | cons x l ih =>
    rw [SceneNode.visitsChildren]
    rcases List.mem_cons.1 hc with rfl | h
    · exact List.mem_append_left _ hv
    · exact List.mem_append_right _ (ih h)

theorem SceneNode.chain_ne_nil (n : SceneNode K) (path : List Nat) : n.chain path ≠ [] := by
  cases path with
  | nil => simp [SceneNode.chain]
  | cons i p =>
    rw [SceneNode.chain]
    cases n.m_children.get? i <;> simp

theorem chainMatrix_cons (g : GlmKernel K) (M : Mat4 K) (n : SceneNode K)
    (l : List (SceneNode K)) :
    chainMatrix g M (n :: l) = chainMatrix g (M * n.localMatrix g) l := rfl

theorem SceneNode.descend_spec (g : GlmKernel K) (path : List Nat) :
    ∀ (root n : SceneNode K) (M : Mat4 K), root.descend path = some n →
      (n, chainMatrix g M (root.chain path).dropLast) ∈ SceneNode.visits g root M ∧
      (root.chain path).getLast? = some n ∧
      n.model g (chainMatrix g M (root.chain path).dropLast) = chainMatrix g M (root.chain path) := by
  induction path with
  | nil =>
    intro root n M h
    simp only [SceneNode.descend, Option.some.injEq] at h
    subst h
    simp only [SceneNode.chain, List.dropLast_single, List.getLast?_singleton, true_and]
    refine ⟨?_, ?_⟩
    · rw [SceneNode.visits_eq]
      exact List.mem_cons_self _ _
    · rw [SceneNode.model_eq_mul_local]
      rfl
  | cons i p ih =>
    intro root n M h
    rw [SceneNode.descend] at h
    rw [SceneNode.chain]
    cases hc : root.m_children.get? i with
    | none => rw [hc] at h; exact absurd h (by simp)
    | some c =>
      rw [hc] at h
      simp only at h ⊢
      obtain ⟨h1, h2, h3⟩ := ih c n (M * root.localMatrix g) h
      have hne := SceneNode.chain_ne_nil c p
      rw [List.dropLast_cons_of_ne_nil hne, chainMatrix_cons, chainMatrix_cons]
      refine ⟨?_, ?_, h3⟩
      · rw [SceneNode.visits_eq, SceneNode.model_eq_mul_local]
        exact List.mem_cons_of_mem _
          (SceneNode.visits_subset_visitsChildren g c _ (List.get?_mem hc) _ _ h1)
      · rw [List.getLast?_cons, h2]
        rfl

theorem SceneNode.Render_eq (g : GlmKernel K) (sm sh ms : Bool) (n : SceneNode K) (M : Mat4 K) :
    SceneNode.Render g sm sh ms n M =
      SceneNode.renderCalls sm sh ms n (n.model g M) ++
        SceneNode.RenderChildren g sm sh ms n.m_children (n.model g M) := by
  cases n
  rw [SceneNode.Render]
  rfl

mutual
theorem SceneNode.Render_eq_flatMap (g : GlmKernel K) (sm sh ms : Bool) :
    ∀ (n : SceneNode K) (M : Mat4 K),
    SceneNode.Render g sm sh ms n M =
      (SceneNode.visits g n M).flatMap (fun v => SceneNode.renderCalls sm sh ms v.1 (v.1.model g v.2))
  | SceneNode.mk a p r s mt tt ts d children lo hi ty h, M => by
    rw [SceneNode.Render_eq, SceneNode.visits_eq, List.flatMap_cons]
    exact congrArg _ (SceneNode.RenderChildren_eq_flatMap g sm sh ms children _)
theorem SceneNode.RenderChildren_eq_flatMap (g : GlmKernel K) (sm sh ms : Bool) :
    ∀ (l : List (SceneNode K)) (M : Mat4 K),
    SceneNode.RenderChildren g sm sh ms l M =
      (SceneNode.visitsChildren g l M).flatMap
        (fun v => SceneNode.renderCalls sm sh ms v.1 (v.1.model g v.2))
  | [], M => by
    rw [SceneNode.RenderChildren, SceneNode.visitsChildren]
    rfl
  | c :: rest, M => by
    rw [SceneNode.RenderChildren, SceneNode.visitsChildren, List.flatMap_append,
      SceneNode.Render_eq_flatMap g sm sh ms c M, SceneNode.RenderChildren_eq_flatMap g sm sh ms rest M]
end

/-- C5. For every tree and every node n reached from the root by a path
    root = n0, ..., nk = n: `CheckRayHit` and `Render` both go through the
    list `visits` (every node with the parent matrix it is called with); n is
    visited with the parent matrix `M * L(n0) * ... * L(n(k-1))`, the world
    matrix of its parent, and the model matrix it builds from it is
    `M * L(n0) * ... * L(nk)`. -/
theorem C5_world_matrix_along_path (g : GlmKernel K) (ray : Ray K) (tHit0 : Fl K)
    (sceneManager shaderManager meshes : Bool)
    (root n : SceneNode K) (M : Mat4 K) (st : PickState K) (path : List Nat)
    (h : root.descend path = some n) :
    (SceneNode.CheckRayHit g ray tHit0 root M st =
        (SceneNode.visits g root M).foldl
          (fun st v => SceneNode.recordHit v.1.addr (v.1.Intersects g ray v.2 tHit0) st) st ∧
      SceneNode.Render g sceneManager shaderManager meshes root M =
        (SceneNode.visits g root M).flatMap
          (fun v => SceneNode.renderCalls sceneManager shaderManager meshes v.1 (v.1.model g v.2))) ∧
    (n, chainMatrix g M (root.chain path).dropLast) ∈ SceneNode.visits g root M ∧
    (root.chain path).getLast? = some n ∧
    n.model g (chainMatrix g M (root.chain path).dropLast) = chainMatrix g M (root.chain path) :=
  ⟨⟨SceneNode.CheckRayHit_eq_foldl g ray tHit0 root M st,
      SceneNode.Render_eq_flatMap g sceneManager shaderManager meshes root M⟩,
    SceneNode.descend_spec g path root n M h⟩

/-- On a finite matrix with non-zero determinant `glm::inverse` computes in
    floats what it computes in exact arithmetic. -/
theorem glm.inverse_map_fin (m : Mat4 K) (h : glm.inverseDet m ≠ 0) :
    glm.inverse (m.map Fl.fin) = (glm.inverse m).map Fl.fin := by
  obtain ⟨⟨a00, a01, a02, a03⟩, ⟨a10, a11, a12, a13⟩, ⟨a20, a21, a22, a23⟩, ⟨a30, a31, a32, a33⟩⟩ := m
  simp only [glm.inverseDet, glm.adjugate, Vec4.mul, Vec4.sub, Vec4.add] at h
  simp only [glm.inverse, glm.inverseDet, glm.adjugate, Mat4.map, Vec4.map, Vec4.mul, Vec4.sub,
    Vec4.add, Vec4.scale, Fl.fin_mul_fin, Fl.fin_sub_fin, Fl.fin_add_fin, Fl.neg_fin, Fl.one_def,
    Fl.fin_div_fin _ _ h]

theorem boxNode_model (a : Nat) (p s : Vec3 ℚ) (cs : List (SceneNode ℚ)) (M : Mat4 ℚ) :
    (boxNode a p s cs).model kernelQ M = M * Translate p * Scale s := by
  rw [SceneNode.model_eq_mul]
  have e : glm.radians kernelQ 0 = 0 := by simp [glm.radians]
  have rx : RotateX kernelQ 0 = Mat4.identity := by
    simp [RotateX, Mat4.identity, kernelQ.cos_zero, kernelQ.sin_zero]
  have ry : RotateY kernelQ 0 = Mat4.identity := by
    simp [RotateY, Mat4.identity, kernelQ.cos_zero, kernelQ.sin_zero]
  have rz : RotateZ kernelQ 0 = Mat4.identity := by
    simp [RotateZ, Mat4.identity, kernelQ.cos_zero, kernelQ.sin_zero]
  simp only [boxNode, SceneNode.m_position, SceneNode.m_rotation, SceneNode.m_scale, e, rx, ry,
    rz, Mat4.mul_identity]

/-- A translation after an axis scaling, as a matrix. -/
theorem translate_mul_scale (M : Mat4 ℚ) (p s : Vec3 ℚ) :
    M * Translate p * Scale s =
      ⟨M.c0.scale s.x, M.c1.scale s.y, M.c2.scale s.z,
        (((M.c0.scale p.x).add (M.c1.scale p.y)).add (M.c2.scale p.z)).add M.c3⟩ := by
  rw [← glm.translate_eq_mul, ← glm.scale_eq_mul]
  rfl

theorem kernelQ_inversesqrt_one : Fl.inversesqrt kernelQ (Fl.fin 1) = Fl.fin 1 := by
  simp [Fl.inversesqrt, kernelQ.inversesqrt_one]

theorem kernelQ_inversesqrt_256 : Fl.inversesqrt kernelQ (Fl.fin (1 / 256)) = Fl.fin 16 := by
  have h1 : ((1 / 256 : ℚ)).den = 256 := by norm_num
  have h2 : ((1 / 256 : ℚ)).num = 1 := by norm_num
  have h3 : Nat.sqrt 256 = 16 := by norm_num
  simp [Fl.inversesqrt, kernelQ, h1, h2, h3]

/-- The local ray of `pickRay` for a translation. -/
theorem localRay_pickRay_unit (tx ty tz : ℚ) :
    SceneNode.localRay kernelQ pickRay
        ⟨⟨1, 0, 0, 0⟩, ⟨0, 1, 0, 0⟩, ⟨0, 0, 1, 0⟩, ⟨tx, ty, tz, 1⟩⟩ =
      ⟨⟨Fl.fin (-tx), Fl.fin (-ty), Fl.fin (-tz)⟩, ⟨Fl.fin 0, Fl.fin 0, Fl.fin (-1)⟩⟩ := by
  have hdet : glm.inverseDet (⟨⟨1, 0, 0, 0⟩, ⟨0, 1, 0, 0⟩, ⟨0, 0, 1, 0⟩, ⟨tx, ty, tz, 1⟩⟩ : Mat4 ℚ) ≠ 0 := by
    simp [glm.inverseDet, glm.adjugate, Vec4.mul, Vec4.sub, Vec4.add]
  have hinv : glm.inverse (⟨⟨1, 0, 0, 0⟩, ⟨0, 1, 0, 0⟩, ⟨0, 0, 1, 0⟩, ⟨tx, ty, tz, 1⟩⟩ : Mat4 ℚ) =
      ⟨⟨1, 0, 0, 0⟩, ⟨0, 1, 0, 0⟩, ⟨0, 0, 1, 0⟩, ⟨-tx, -ty, -tz, 1⟩⟩ := by
    simp [glm.inverse, glm.inverseDet, glm.adjugate, Vec4.mul, Vec4.sub, Vec4.add, Vec4.scale]
  unfold SceneNode.localRay
  rw [glm.inverse_map_fin _ hdet, hinv]
  simp only [Mat4.map, Vec4.map, Mat4.mulVec, Vec4.ofVec3, Vec4.xyz, pickRay, Vec4.scale, Vec4.add,
    Fl.fin_mul_fin, Fl.fin_add_fin, Fl.one_def, Fl.zero_def, Ray.ctor, glm.normalize, glm.dot,
    Vec3.scale]
  norm_num [kernelQ_inversesqrt_one]

/-- The local ray of `pickRay` for a translation and a scaling by 16 along `z`. -/
theorem localRay_pickRay_z16 (tx ty tz : ℚ) :
    SceneNode.localRay kernelQ pickRay
        ⟨⟨1, 0, 0, 0⟩, ⟨0, 1, 0, 0⟩, ⟨0, 0, 16, 0⟩, ⟨tx, ty, tz, 1⟩⟩ =
      ⟨⟨Fl.fin (-tx), Fl.fin (-ty), Fl.fin (-tz / 16)⟩, ⟨Fl.fin 0, Fl.fin 0, Fl.fin (-1)⟩⟩ := by
  have hdet : glm.inverseDet (⟨⟨1, 0, 0, 0⟩, ⟨0, 1, 0, 0⟩, ⟨0, 0, 16, 0⟩, ⟨tx, ty, tz, 1⟩⟩ : Mat4 ℚ) ≠ 0 := by
    simp [glm.inverseDet, glm.adjugate, Vec4.mul, Vec4.sub, Vec4.add]
  have hinv : glm.inverse (⟨⟨1, 0, 0, 0⟩, ⟨0, 1, 0, 0⟩, ⟨0, 0, 16, 0⟩, ⟨tx, ty, tz, 1⟩⟩ : Mat4 ℚ) =
      ⟨⟨1, 0, 0, 0⟩, ⟨0, 1, 0, 0⟩, ⟨0, 0, 1 / 16, 0⟩, ⟨-tx, -ty, -tz / 16, 1⟩⟩ := by
    simp [glm.inverse, glm.inverseDet, glm.adjugate, Vec4.mul, Vec4.sub, Vec4.add, Vec4.scale]
    ring
  unfold SceneNode.localRay
  rw [glm.inverse_map_fin _ hdet, hinv]
  simp only [Mat4.map, Vec4.map, Mat4.mulVec, Vec4.ofVec3, Vec4.xyz, pickRay, Vec4.scale, Vec4.add,
    Fl.fin_mul_fin, Fl.fin_add_fin, Fl.one_def, Fl.zero_def, Ray.ctor, glm.normalize, glm.dot,
    Vec3.scale]
  norm_num [kernelQ_inversesqrt_one, kernelQ_inversesqrt_256]

/-- The model matrix of a node `boxNode`. -/
theorem boxNode_model_eq (a : Nat) (p s : Vec3 ℚ) (cs : List (SceneNode ℚ)) (M : Mat4 ℚ) :
    (boxNode a p s cs).model kernelQ M =
        ⟨M.c0.scale s.x, M.c1.scale s.y, M.c2.scale s.z,
          (((M.c0.scale p.x).add (M.c1.scale p.y)).add (M.c2.scale p.z)).add M.c3⟩ := by
  rw [boxNode_model, translate_mul_scale]

/-- The model matrix of a unit-scale `boxNode` under a translation. -/
theorem boxNode_model_unit (a : Nat) (p : Vec3 ℚ) (cs : List (SceneNode ℚ)) (tx ty tz : ℚ) :
    (boxNode a p ⟨1, 1, 1⟩ cs).model kernelQ
        ⟨⟨1, 0, 0, 0⟩, ⟨0, 1, 0, 0⟩, ⟨0, 0, 1, 0⟩, ⟨tx, ty, tz, 1⟩⟩ =
      ⟨⟨1, 0, 0, 0⟩, ⟨0, 1, 0, 0⟩, ⟨0, 0, 1, 0⟩, ⟨p.x + tx, p.y + ty, p.z + tz, 1⟩⟩ := by
  rw [boxNode_model_eq]
  simp [Vec4.scale, Vec4.add]

/-- The model matrix of a `boxNode` scaled by 16 along `z` under a translation. -/
theorem boxNode_model_z16 (a : Nat) (p : Vec3 ℚ) (cs : List (SceneNode ℚ)) (tx ty tz : ℚ) :
    (boxNode a p ⟨1, 1, 16⟩ cs).model kernelQ
        ⟨⟨1, 0, 0, 0⟩, ⟨0, 1, 0, 0⟩, ⟨0, 0, 1, 0⟩, ⟨tx, ty, tz, 1⟩⟩ =
      ⟨⟨1, 0, 0, 0⟩, ⟨0, 1, 0, 0⟩, ⟨0, 0, 16, 0⟩, ⟨p.x + tx, p.y + ty, p.z + tz, 1⟩⟩ := by
  rw [boxNode_model_eq]
  simp [Vec4.scale, Vec4.add]

/-- The box test of a unit-scale `boxNode` under a translation, on `pickRay`. -/
theorem boxNode_Intersects_unit (a : Nat) (p : Vec3 ℚ) (cs : List (SceneNode ℚ))
    (tx ty tz : ℚ) (t0 : Fl ℚ) :
    (boxNode a p ⟨1, 1, 1⟩ cs).Intersects kernelQ pickRay
        ⟨⟨1, 0, 0, 0⟩, ⟨0, 1, 0, 0⟩, ⟨0, 0, 1, 0⟩, ⟨tx, ty, tz, 1⟩⟩ t0 =
      (Ray.mk ⟨Fl.fin (-(p.x + tx)), Fl.fin (-(p.y + ty)), Fl.fin (-(p.z + tz))⟩
          ⟨Fl.fin 0, Fl.fin 0, Fl.fin (-1)⟩).intersectsAABB
        ⟨Fl.fin (-(1/2)), Fl.fin (-(1/2)), Fl.fin (-(1/2))⟩
        ⟨Fl.fin (1/2), Fl.fin (1/2), Fl.fin (1/2)⟩ t0 := by
  simp only [SceneNode.Intersects, boxNode_model_unit, localRay_pickRay_unit]
  rfl

/-- The box test of a `boxNode` scaled by 16 along `z` under a translation. -/
theorem boxNode_Intersects_z16 (a : Nat) (p : Vec3 ℚ) (cs : List (SceneNode ℚ))
    (tx ty tz : ℚ) (t0 : Fl ℚ) :
    (boxNode a p ⟨1, 1, 16⟩ cs).Intersects kernelQ pickRay
        ⟨⟨1, 0, 0, 0⟩, ⟨0, 1, 0, 0⟩, ⟨0, 0, 1, 0⟩, ⟨tx, ty, tz, 1⟩⟩ t0 =
      (Ray.mk ⟨Fl.fin (-(p.x + tx)), Fl.fin (-(p.y + ty)), Fl.fin (-(p.z + tz) / 16)⟩
          ⟨Fl.fin 0, Fl.fin 0, Fl.fin (-1)⟩).intersectsAABB
        ⟨Fl.fin (-(1/2)), Fl.fin (-(1/2)), Fl.fin (-(1/2))⟩
        ⟨Fl.fin (1/2), Fl.fin (1/2), Fl.fin (1/2)⟩ t0 := by
  simp only [SceneNode.Intersects, boxNode_model_z16, localRay_pickRay_z16]
  rfl

/-- The test of a ray along `-z` through the middle of the unit box. -/
theorem unitBox_test_on_axis (oz : ℚ) (t0 : Fl ℚ) :
    (Ray.mk ⟨Fl.fin 0, Fl.fin 0, Fl.fin oz⟩ ⟨Fl.fin 0, Fl.fin 0, Fl.fin (-1)⟩).intersectsAABB
        ⟨Fl.fin (-(1/2)), Fl.fin (-(1/2)), Fl.fin (-(1/2))⟩
        ⟨Fl.fin (1/2), Fl.fin (1/2), Fl.fin (1/2)⟩ t0 =
      (decide (0 ≤ oz + 1/2), Fl.fin (oz - 1/2)) := by
  have h1 : (-(1/2) - oz) / -1 = oz + 1/2 := by ring
  have h2 : (1/2 - oz) / -1 = oz - 1/2 := by ring
  have h3 : oz - 1/2 < oz + 1/2 := by linarith
  norm_num [Ray.intersectsAABB, Fl.fin_div_fin, Fl.fin_div_zero, Fl.gt, Fl.lt, Fl.ge, Fl.le,
    Fl.num, h1, h2, h3]

theorem boxNode_m_children (a : Nat) (p s : Vec3 ℚ) (cs : List (SceneNode ℚ)) :
    (boxNode a p s cs).m_children = cs := rfl

theorem boxNode_addr (a : Nat) (p s : Vec3 ℚ) (cs : List (SceneNode ℚ)) :
    (boxNode a p s cs).addr = a := rfl

theorem farStretched_eval :
    SceneNode.CheckRayHit kernelQ pickRay (Fl.fin 0) farStretched Mat4.identity ⟨none, Fl.pinf⟩ =
      ⟨some 3, Fl.fin (3/4)⟩ := by
  unfold farStretched
  norm_num [SceneNode.CheckRayHit_eq, Mat4.identity, boxNode_Intersects_unit,
    boxNode_Intersects_z16, boxNode_model_unit, boxNode_m_children, boxNode_addr,
    SceneNode.CheckRayHitChildren, unitBox_test_on_axis, SceneNode.recordHit, Fl.gt, Fl.lt, Fl.num]

/-- Entry of the ray from the origin along `-z` into a box scaled by `sz`
    along `z` and centred at depth `c` on the ray. -/
theorem worldEntry_on_axis (sz c : ℚ) (hs : 0 < sz) :
    worldEntry ⟨⟨1, 0, 0, 0⟩, ⟨0, 1, 0, 0⟩, ⟨0, 0, sz, 0⟩, ⟨0, 0, -c, 1⟩⟩
      (⟨-(1/2), -(1/2), -(1/2)⟩ : Vec3 ℚ) ⟨1/2, 1/2, 1/2⟩ ⟨0, 0, 0⟩ ⟨0, 0, -1⟩ (c - sz / 2) := by
  constructor
  · refine ⟨⟨0, 0, 1/2⟩, ?_, ?_⟩
    · norm_num [inBox]
    · simp only [Mat4.mulVec, Vec4.ofVec3, Vec4.xyz, Vec4.scale, Vec4.add, pointAt, Vec3.mk.injEq]
      refine ⟨by ring, by ring, by ring⟩
  · rintro s ⟨q, ⟨_, _, _, hz⟩, he⟩
    simp only [Mat4.mulVec, Vec4.ofVec3, Vec4.xyz, Vec4.scale, Vec4.add, pointAt,
      Vec3.mk.injEq] at he
    obtain ⟨_, _, e3⟩ := he
    have : sz * q.z ≤ sz * (1/2) := mul_le_mul_of_nonneg_left hz (le_of_lt hs)
    linarith

/-- C1, at a failing input. The tree `farStretched` has three boxes pierced by
    the ray from the origin along `-z`, entered at the world distances 5/2
    (the root), 11/2 and 12. `CheckRayHit` from the seed (null, +∞) selects
    node 3, the farthest one, with `closestDistance` 3/4, its local-space
    parameter: not the root with 5/2. -/
theorem C1_farther_stretched_box_is_picked :
    (farStretched.model kernelQ Mat4.identity =
        ⟨⟨1, 0, 0, 0⟩, ⟨0, 1, 0, 0⟩, ⟨0, 0, 1, 0⟩, ⟨0, 0, -3, 1⟩⟩ ∧
      worldEntry (farStretched.model kernelQ Mat4.identity)
        ⟨-(1/2), -(1/2), -(1/2)⟩ ⟨1/2, 1/2, 1/2⟩ ⟨0, 0, 0⟩ ⟨0, 0, -1⟩ (5/2)) ∧
    worldEntry ((boxNode 2 ⟨0, 0, -3⟩ ⟨1, 1, 1⟩ []).model kernelQ
        (farStretched.model kernelQ Mat4.identity))
      ⟨-(1/2), -(1/2), -(1/2)⟩ ⟨1/2, 1/2, 1/2⟩ ⟨0, 0, 0⟩ ⟨0, 0, -1⟩ (11/2) ∧
    worldEntry ((boxNode 3 ⟨0, 0, -17⟩ ⟨1, 1, 16⟩ []).model kernelQ
        (farStretched.model kernelQ Mat4.identity))
      ⟨-(1/2), -(1/2), -(1/2)⟩ ⟨1/2, 1/2, 1/2⟩ ⟨0, 0, 0⟩ ⟨0, 0, -1⟩ 12 ∧
    SceneNode.CheckRayHit kernelQ pickRay (Fl.fin 0) farStretched Mat4.identity ⟨none, Fl.pinf⟩ =
      ⟨some 3, Fl.fin (3/4)⟩ := by
  have m1 : farStretched.model kernelQ Mat4.identity =
      ⟨⟨1, 0, 0, 0⟩, ⟨0, 1, 0, 0⟩, ⟨0, 0, 1, 0⟩, ⟨0, 0, -3, 1⟩⟩ := by
    unfold farStretched
    norm_num [Mat4.identity, boxNode_model_unit]
  refine ⟨⟨m1, ?_⟩, ?_, ?_, farStretched_eval⟩
  · rw [m1]
    have := worldEntry_on_axis 1 3 (by norm_num)
    norm_num at this
    exact this
  · rw [m1, boxNode_model_unit]
    have := worldEntry_on_axis 1 6 (by norm_num)
    norm_num at this ⊢
    exact this
  · rw [m1, boxNode_model_z16]
    have := worldEntry_on_axis 16 20 (by norm_num)
    norm_num at this ⊢
    exact this

theorem twins_reorder : SceneNode.Reorder twins twinsSwapped :=
  SceneNode.Reorder.node 1 ⟨0, 0, -9⟩ ⟨0, 0, 0⟩ ⟨1, 1, 1⟩ "" "" 0 none _ _
    ⟨-(1/2), -(1/2), -(1/2)⟩ ⟨1/2, 1/2, 1/2⟩ MeshType.Custom false
    (SceneNode.ReorderList.swap _ _ [])

theorem twins_eval :
    SceneNode.CheckRayHit kernelQ pickRay (Fl.fin 0) twins Mat4.identity ⟨none, Fl.pinf⟩ =
      ⟨some 2, Fl.fin (5/2)⟩ := by
  unfold twins
  norm_num [SceneNode.CheckRayHit_eq, Mat4.identity, boxNode_Intersects_unit,
    boxNode_model_unit, boxNode_m_children, boxNode_addr,
    SceneNode.CheckRayHitChildren, unitBox_test_on_axis, SceneNode.recordHit, Fl.gt, Fl.lt, Fl.num]

theorem twinsSwapped_eval :
    SceneNode.CheckRayHit kernelQ pickRay (Fl.fin 0) twinsSwapped Mat4.identity ⟨none, Fl.pinf⟩ =
      ⟨some 3, Fl.fin (5/2)⟩ := by
  unfold twinsSwapped
  norm_num [SceneNode.CheckRayHit_eq, Mat4.identity, boxNode_Intersects_unit,
    boxNode_model_unit, boxNode_m_children, boxNode_addr,
    SceneNode.CheckRayHitChildren, unitBox_test_on_axis, SceneNode.recordHit, Fl.gt, Fl.lt, Fl.num]

/-- C8, counterexample. The trees `twins` and `twinsSwapped` differ only in
    the order of two children that occupy the same box: `CheckRayHit` selects
    node 2 on the first and node 3 on the second. -/
theorem C8_counterexample :
    SceneNode.Reorder twins twinsSwapped ∧
    (SceneNode.CheckRayHit kernelQ pickRay (Fl.fin 0) twins Mat4.identity
        ⟨none, Fl.pinf⟩).closestNode = some 2 ∧
    (SceneNode.CheckRayHit kernelQ pickRay (Fl.fin 0) twinsSwapped Mat4.identity
        ⟨none, Fl.pinf⟩).closestNode = some 3 := by
  refine ⟨twins_reorder, ?_, ?_⟩
  · rw [twins_eval]
  · rw [twinsSwapped_eval]

/-- C8 (amended), witness: the trees `twins` and `twinsSwapped`. -/
theorem C8_sibling_order_distance_witness :
    (SceneNode.CheckRayHit kernelQ pickRay (Fl.fin 0) twins Mat4.identity
        ⟨none, Fl.pinf⟩).closestDistance =
      (SceneNode.CheckRayHit kernelQ pickRay (Fl.fin 0) twinsSwapped Mat4.identity
        ⟨none, Fl.pinf⟩).closestDistance :=
  (C8_sibling_order_distance kernelQ pickRay (Fl.fin 0) twins twinsSwapped
    (SceneNode.Reorder.node 1 ⟨0, 0, -9⟩ ⟨0, 0, 0⟩ ⟨1, 1, 1⟩ "" "" 0 none _ _
      ⟨-(1/2), -(1/2), -(1/2)⟩ ⟨1/2, 1/2, 1/2⟩ MeshType.Custom false
      (SceneNode.ReorderList.swap _ _ []))
    Mat4.identity ⟨none, Fl.pinf⟩).1

/-- C7, witness: the parent of `offAxisParent` is missed by `pickRay`. -/
theorem C7_no_pruning_by_parent_witness :
    SceneNode.CheckRayHit kernelQ pickRay (Fl.fin 0) offAxisParent Mat4.identity ⟨none, Fl.pinf⟩ =
      SceneNode.CheckRayHitChildren kernelQ pickRay (Fl.fin 0) offAxisParent.m_children
        (offAxisParent.model kernelQ Mat4.identity) ⟨none, Fl.pinf⟩ :=
  (C7_no_pruning_by_parent kernelQ pickRay (Fl.fin 0) offAxisParent Mat4.identity ⟨none, Fl.pinf⟩
    (by
      unfold offAxisParent
      norm_num [Mat4.identity, boxNode_Intersects_unit, Ray.intersectsAABB, Fl.fin_div_fin,
        Fl.fin_div_zero, Fl.gt, Fl.lt, Fl.ge, Fl.le, Fl.num])).1

/-- C5, witness: the second child of `farStretched`. -/
theorem C5_world_matrix_along_path_witness :
    (boxNode 3 ⟨0, 0, -17⟩ ⟨1, 1, 16⟩ []).model kernelQ
        (chainMatrix kernelQ Mat4.identity (farStretched.chain [1]).dropLast) =
      chainMatrix kernelQ Mat4.identity (farStretched.chain [1]) :=
  (C5_world_matrix_along_path kernelQ pickRay (Fl.fin 0) true true true farStretched
    (boxNode 3 ⟨0, 0, -17⟩ ⟨1, 1, 16⟩ []) Mat4.identity ⟨none, Fl.pinf⟩ [1] rfl).2.2.2

/-! ### The inverse matrix -/

/-- The matrix of `glm::inverse` for a given value of `OneOverDeterminant`. -/
theorem glm.inverse_eq_scale (m : Mat4 K) :
    glm.inverse m =
      ⟨(glm.adjugate m).c0.scale (1 / glm.inverseDet m), (glm.adjugate m).c1.scale (1 / glm.inverseDet m),
       (glm.adjugate m).c2.scale (1 / glm.inverseDet m), (glm.adjugate m).c3.scale (1 / glm.inverseDet m)⟩ :=
  rfl

theorem glm.mulVec_adjugate (m : Mat4 K) (r : K) (v : Vec4 K) :
    m.mulVec ((⟨(glm.adjugate m).c0.scale r, (glm.adjugate m).c1.scale r,
       (glm.adjugate m).c2.scale r, (glm.adjugate m).c3.scale r⟩ : Mat4 K).mulVec v) =
      v.scale (glm.inverseDet m * r) := by
  obtain ⟨⟨a00, a01, a02, a03⟩, ⟨a10, a11, a12, a13⟩, ⟨a20, a21, a22, a23⟩, ⟨a30, a31, a32, a33⟩⟩ := m
  obtain ⟨x, y, z, w⟩ := v
  simp only [glm.inverseDet, glm.adjugate, Mat4.mulVec, Vec4.mul, Vec4.sub,
    Vec4.add, Vec4.scale, Vec4.mk.injEq]
  refine ⟨?_, ?_, ?_, ?_⟩ <;> ring

theorem glm.adjugate_mulVec (m : Mat4 K) (r : K) (v : Vec4 K) :
    (⟨(glm.adjugate m).c0.scale r, (glm.adjugate m).c1.scale r,
       (glm.adjugate m).c2.scale r, (glm.adjugate m).c3.scale r⟩ : Mat4 K).mulVec (m.mulVec v) =
      v.scale (glm.inverseDet m * r) := by
  obtain ⟨⟨a00, a01, a02, a03⟩, ⟨a10, a11, a12, a13⟩, ⟨a20, a21, a22, a23⟩, ⟨a30, a31, a32, a33⟩⟩ := m
  obtain ⟨x, y, z, w⟩ := v
  simp only [glm.inverseDet, glm.adjugate, Mat4.mulVec, Vec4.mul, Vec4.sub,
    Vec4.add, Vec4.scale, Vec4.mk.injEq]
  refine ⟨?_, ?_, ?_, ?_⟩ <;> ring

theorem Vec4.scale_one (v : Vec4 K) : v.scale 1 = v := by
  obtain ⟨x, y, z, w⟩ := v
  simp [Vec4.scale]

/-- `glm::inverse` is a right inverse on vectors when the determinant is not zero. -/
theorem glm.mulVec_inverse (m : Mat4 K) (h : glm.inverseDet m ≠ 0) (v : Vec4 K) :
    m.mulVec ((glm.inverse m).mulVec v) = v := by
  rw [glm.inverse_eq_scale, glm.mulVec_adjugate, mul_one_div_cancel h, Vec4.scale_one]

/-- `glm::inverse` is a left inverse on vectors when the determinant is not zero. -/
theorem glm.inverse_mulVec (m : Mat4 K) (h : glm.inverseDet m ≠ 0) (v : Vec4 K) :
    (glm.inverse m).mulVec (m.mulVec v) = v := by
  rw [glm.inverse_eq_scale, glm.adjugate_mulVec, mul_one_div_cancel h, Vec4.scale_one]

/-! ### Rays along the axes of the unit box -/

/-- The clip-space point for screen sizes that are not zero. -/
theorem Ray.clipCoords_eq (mouseX mouseY : K) (W H : Int) (hW : W ≠ 0) (hH : H ≠ 0) :
    Ray.clipCoords mouseX mouseY W H =
      ⟨Fl.fin (2 * mouseX / (W : K) - 1), Fl.fin (1 - 2 * mouseY / (H : K)), Fl.fin (-1),
        Fl.fin 1⟩ := by
  have hW' : (W : K) ≠ 0 := Int.cast_ne_zero.2 hW
  have hH' : (H : K) ≠ 0 := Int.cast_ne_zero.2 hH
  simp only [Ray.clipCoords, Fl.fin_div_fin _ _ hW', Fl.fin_div_fin _ _ hH', Fl.one_def,
    Fl.fin_sub_fin, Fl.neg_fin]

/-- C14. For positive `screenWidth` and `screenHeight` and every pixel,
    `fromMouse` builds the clip-space point `(2*mouseX/screenWidth - 1,
    1 - 2*mouseY/screenHeight, -1, 1)`, the point its ray is unprojected from:
    the pixel (0,0) gives (-1, 1), the pixel (screenWidth, screenHeight) gives
    (1, -1), the screen centre gives (0, 0), and every pixel inside the screen
    gives a point of `[-1,1] x [-1,1]`. -/
theorem C14_clip_space_point (g : GlmKernel K) (mouseX mouseY : K) (W H : Int)
    (viewMatrix projectionMatrix : Mat4 K) (hW : 0 < W) (hH : 0 < H) :
    Ray.fromMouse g mouseX mouseY W H viewMatrix projectionMatrix =
      Ray.ctor g (glm.inverse (viewMatrix.map Fl.fin)).c3.xyz
        (glm.normalize (Fl.inversesqrt g)
          ((glm.inverse (viewMatrix.map Fl.fin)).mulVec
            ⟨((glm.inverse (projectionMatrix.map Fl.fin)).mulVec
                (Ray.clipCoords mouseX mouseY W H)).x,
              ((glm.inverse (projectionMatrix.map Fl.fin)).mulVec
                (Ray.clipCoords mouseX mouseY W H)).y, -1, 0⟩).xyz) ∧
    Ray.clipCoords mouseX mouseY W H =
      ⟨Fl.fin (2 * mouseX / (W : K) - 1), Fl.fin (1 - 2 * mouseY / (H : K)), Fl.fin (-1),
        Fl.fin 1⟩ ∧
    Ray.clipCoords (0 : K) 0 W H = ⟨Fl.fin (-1), Fl.fin 1, Fl.fin (-1), Fl.fin 1⟩ ∧
    Ray.clipCoords (W : K) (H : K) W H = ⟨Fl.fin 1, Fl.fin (-1), Fl.fin (-1), Fl.fin 1⟩ ∧
    Ray.clipCoords ((W : K) / 2) ((H : K) / 2) W H =
      ⟨Fl.fin 0, Fl.fin 0, Fl.fin (-1), Fl.fin 1⟩ ∧
    (0 ≤ mouseX → mouseX ≤ (W : K) → 0 ≤ mouseY → mouseY ≤ (H : K) →
      (-1 ≤ 2 * mouseX / (W : K) - 1 ∧ 2 * mouseX / (W : K) - 1 ≤ 1) ∧
      (-1 ≤ 1 - 2 * mouseY / (H : K) ∧ 1 - 2 * mouseY / (H : K) ≤ 1)) := by
  have hW' : (0 : K) < (W : K) := Int.cast_pos.2 hW
  have hH' : (0 : K) < (H : K) := Int.cast_pos.2 hH
  have e := fun (x y : K) => Ray.clipCoords_eq x y W H (ne_of_gt hW) (ne_of_gt hH)
  refine ⟨rfl, e _ _, ?_, ?_, ?_, ?_⟩
  · rw [e]
    simp
  · rw [e]
    have h1 : 2 * (W : K) / (W : K) - 1 = 1 := by field_simp; ring
    have h2 : 1 - 2 * (H : K) / (H : K) = -1 := by field_simp; ring
    rw [h1, h2]
  · rw [e]
    have h1 : 2 * ((W : K) / 2) / (W : K) - 1 = 0 := by field_simp
    have h2 : 1 - 2 * ((H : K) / 2) / (H : K) = 0 := by field_simp
    rw [h1, h2]
  · intro a b c d
    have x0 : 0 ≤ 2 * mouseX / (W : K) := div_nonneg (by linarith) (le_of_lt hW')
    have x1 : 2 * mouseX / (W : K) ≤ 2 := by
      rw [div_le_iff₀ hW']
      linarith
    have y0 : 0 ≤ 2 * mouseY / (H : K) := div_nonneg (by linarith) (le_of_lt hH')
    have y1 : 2 * mouseY / (H : K) ≤ 2 := by
      rw [div_le_iff₀ hH']
      linarith
    exact ⟨⟨by linarith, by linarith⟩, ⟨by linarith, by linarith⟩⟩

/-- C14, witness: an 800 by 600 screen. -/
theorem C14_clip_space_point_witness :
    Ray.clipCoords (200 : ℚ) 150 800 600 =
      ⟨Fl.fin (2 * 200 / ((800 : Int) : ℚ) - 1), Fl.fin (1 - 2 * 150 / ((600 : Int) : ℚ)),
        Fl.fin (-1), Fl.fin 1⟩ :=
  (C14_clip_space_point kernelQ (200 : ℚ) 150 800 600 Mat4.identity Mat4.identity
    (by decide) (by decide)).2.1

/-! ### The highlight flag -/

theorem SceneNode.nodes_eq (n : SceneNode K) :
    n.nodes = n :: SceneNode.nodesChildren n.m_children := by
  cases n
  rw [SceneNode.nodes]
  rfl

theorem clearHighlights_fields (n : SceneNode K) :
    (clearHighlights n).fields = n.fields.withHighlight false ∧
    (clearHighlights n).m_children = clearHighlightsChildren n.m_children := by
  cases n
  rw [clearHighlights]
  exact ⟨rfl, rfl⟩

theorem SceneNode.SetHighlightedAt_fields (a : Nat) (v : Bool) (n : SceneNode K) :
    (SceneNode.SetHighlightedAt a v n).fields =
      (if n.addr = a then n.fields.withHighlight v else n.fields) ∧
    (SceneNode.SetHighlightedAt a v n).m_children =
      SceneNode.SetHighlightedAtChildren a v n.m_children := by
  cases n with
  | mk a0 p r s mt tt ts d children lo hi ty h =>
    rw [SceneNode.SetHighlightedAt]
    refine ⟨?_, rfl⟩
    by_cases hc : a0 = a
    · simp [SceneNode.fields, SceneNode.addr, NodeFields.withHighlight, hc, SceneNode.m_position,
        SceneNode.m_rotation, SceneNode.m_scale, SceneNode.m_materialTag, SceneNode.m_textureTag,
        SceneNode.m_textureSlot, SceneNode.m_drawFunction, SceneNode.m_localMin,
        SceneNode.m_localMax, SceneNode.m_meshType, SceneNode.m_isHighlighted]
    · simp [SceneNode.fields, SceneNode.addr, NodeFields.withHighlight, hc, SceneNode.m_position,
        SceneNode.m_rotation, SceneNode.m_scale, SceneNode.m_materialTag, SceneNode.m_textureTag,
        SceneNode.m_textureSlot, SceneNode.m_drawFunction, SceneNode.m_localMin,
        SceneNode.m_localMax, SceneNode.m_meshType, SceneNode.m_isHighlighted]

mutual
theorem clearHighlights_nodes_fields :
    ∀ t : SceneNode K, (clearHighlights t).nodes.map SceneNode.fields =
      t.nodes.map (fun n => n.fields.withHighlight false)
  | SceneNode.mk a p r s mt tt ts d children lo hi ty h => by
    rw [clearHighlights, SceneNode.nodes, SceneNode.nodes, List.map_cons, List.map_cons,
      clearHighlightsChildren_nodes_fields children]
    rfl
theorem clearHighlightsChildren_nodes_fields :
    ∀ l : List (SceneNode K),
      (SceneNode.nodesChildren (clearHighlightsChildren l)).map SceneNode.fields =
        (SceneNode.nodesChildren l).map (fun n => n.fields.withHighlight false)
  | [] => by
    rw [clearHighlightsChildren, SceneNode.nodesChildren]
    rfl
  | c :: rest => by
    rw [clearHighlightsChildren, SceneNode.nodesChildren, SceneNode.nodesChildren, List.map_append,
      List.map_append, clearHighlights_nodes_fields c, clearHighlightsChildren_nodes_fields rest]
end

mutual
theorem SceneNode.SetHighlightedAt_nodes_fields (a : Nat) (v : Bool) :
    ∀ t : SceneNode K, (SceneNode.SetHighlightedAt a v t).nodes.map SceneNode.fields =
      t.nodes.map (fun n => if n.addr = a then n.fields.withHighlight v else n.fields)
  | SceneNode.mk a0 p r s mt tt ts d children lo hi ty h => by
    have h1 := (SceneNode.SetHighlightedAt_fields a v
      (SceneNode.mk a0 p r s mt tt ts d children lo hi ty h)).1
    rw [SceneNode.SetHighlightedAt] at h1
    rw [SceneNode.SetHighlightedAt, SceneNode.nodes, SceneNode.nodes, List.map_cons,
      List.map_cons, SceneNode.SetHighlightedAtChildren_nodes_fields a v children, h1]
theorem SceneNode.SetHighlightedAtChildren_nodes_fields (a : Nat) (v : Bool) :
    ∀ l : List (SceneNode K),
      (SceneNode.nodesChildren (SceneNode.SetHighlightedAtChildren a v l)).map SceneNode.fields =
        (SceneNode.nodesChildren l).map
          (fun n => if n.addr = a then n.fields.withHighlight v else n.fields)
  | [] => by
    rw [SceneNode.SetHighlightedAtChildren, SceneNode.nodesChildren]
    rfl
  | c :: rest => by
    rw [SceneNode.SetHighlightedAtChildren, SceneNode.nodesChildren, SceneNode.nodesChildren,
      List.map_append, List.map_append, SceneNode.SetHighlightedAt_nodes_fields a v c,
      SceneNode.SetHighlightedAtChildren_nodes_fields a v rest]
end

theorem SceneNode.nodesChildren_cons (c : SceneNode K) (rest : List (SceneNode K)) :
    SceneNode.nodesChildren (c :: rest) = c.nodes ++ SceneNode.nodesChildren rest := by
  rw [SceneNode.nodesChildren]

theorem SceneNode.mem_nodes_self (n : SceneNode K) : n ∈ n.nodes := by
  rw [SceneNode.nodes_eq]
  exact List.mem_cons_self _ _

mutual
theorem clearHighlights_idem :
    ∀ t : SceneNode K, clearHighlights (clearHighlights t) = clearHighlights t
  | SceneNode.mk a p r s mt tt ts d children lo hi ty h => by
    rw [clearHighlights, clearHighlights, clearHighlightsChildren_idem children]
theorem clearHighlightsChildren_idem :
    ∀ l : List (SceneNode K),
      clearHighlightsChildren (clearHighlightsChildren l) = clearHighlightsChildren l
  | [] => by
    rw [clearHighlightsChildren, clearHighlightsChildren]
  | c :: rest => by
    rw [clearHighlightsChildren, clearHighlightsChildren, clearHighlights_idem c,
      clearHighlightsChildren_idem rest]
end

mutual
theorem clearHighlights_SetHighlightedAt (a : Nat) (v : Bool) :
    ∀ t : SceneNode K, clearHighlights (SceneNode.SetHighlightedAt a v t) = clearHighlights t
  | SceneNode.mk a0 p r s mt tt ts d children lo hi ty h => by
    rw [SceneNode.SetHighlightedAt, clearHighlights, clearHighlights,
      clearHighlightsChildren_SetHighlightedAt a v children]
theorem clearHighlightsChildren_SetHighlightedAt (a : Nat) (v : Bool) :
    ∀ l : List (SceneNode K),
      clearHighlightsChildren (SceneNode.SetHighlightedAtChildren a v l) =
        clearHighlightsChildren l
  | [] => by
    rw [SceneNode.SetHighlightedAtChildren]
  | c :: rest => by
    rw [SceneNode.SetHighlightedAtChildren, clearHighlightsChildren, clearHighlightsChildren,
      clearHighlights_SetHighlightedAt a v c, clearHighlightsChildren_SetHighlightedAt a v rest]
end

mutual
theorem clearHighlights_of_all_false :
    ∀ t : SceneNode K, (∀ n ∈ t.nodes, n.m_isHighlighted = false) → clearHighlights t = t
  | SceneNode.mk a p r s mt tt ts d children lo hi ty h, hall => by
    have h0 : h = false := hall _ (SceneNode.mem_nodes_self _)
    have hc : ∀ n ∈ SceneNode.nodesChildren children, n.m_isHighlighted = false := by
      intro n hn
      apply hall
      rw [SceneNode.nodes]
      exact List.mem_cons_of_mem _ hn
    rw [clearHighlights, clearHighlightsChildren_of_all_false children hc, h0]
theorem clearHighlightsChildren_of_all_false :
    ∀ l : List (SceneNode K), (∀ n ∈ SceneNode.nodesChildren l, n.m_isHighlighted = false) →
      clearHighlightsChildren l = l
  | [], _ => by
    rw [clearHighlightsChildren]
  | c :: rest, hall => by
    rw [SceneNode.nodesChildren] at hall
    rw [clearHighlightsChildren,
      clearHighlights_of_all_false c (fun n hn => hall n (List.mem_append_left _ hn)),
      clearHighlightsChildren_of_all_false rest (fun n hn => hall n (List.mem_append_right _ hn))]
end

theorem clearHighlights_all_false (t : SceneNode K) :
    ∀ n ∈ (clearHighlights t).nodes, n.m_isHighlighted = false := by
  intro n hn
  have h1 : n.fields ∈ (clearHighlights t).nodes.map SceneNode.fields := List.mem_map_of_mem _ hn
  rw [clearHighlights_nodes_fields] at h1
  obtain ⟨m, _, hm⟩ := List.mem_map.1 h1
  have h2 := congrArg NodeFields.m_isHighlighted hm
  exact h2.symm

/-- C19. The highlight flag is a plain stored flag: a newly constructed node
    is not highlighted; after `SetHighlighted(v)` the flag read by
    `IsHighlighted()` is `v`; `SetHighlighted` leaves every other field of the
    node (identity, position, rotation, scale, tags, slot, draw function, local
    box, mesh type) and its children as they were; and in a tree, the call on
    the node at address `a` leaves the fields of every node at another address
    as they were. -/
theorem C19_highlight_flag_stored (a : Nat) (n : SceneNode K) (v : Bool) (t : SceneNode K) :
    (SceneNode.new a : SceneNode K).m_isHighlighted = false ∧
    (n.SetHighlighted v).m_isHighlighted = v ∧
    (n.SetHighlighted v).fields = n.fields.withHighlight v ∧
    (n.SetHighlighted v).m_children = n.m_children ∧
    (SceneNode.SetHighlightedAt a v t).nodes.map SceneNode.fields =
      t.nodes.map (fun m => if m.addr = a then (m.SetHighlighted v).fields else m.fields) := by
  have hs : ∀ m : SceneNode K, (m.SetHighlighted v).fields = m.fields.withHighlight v := by
    intro m
    cases m
    rfl
  refine ⟨rfl, ?_, hs n, ?_, ?_⟩
  · cases n
    rfl
  · cases n
    rfl
  · rw [SceneNode.SetHighlightedAt_nodes_fields]
    apply List.map_congr_left
    intro m _
    rw [hs m]

/-- C18. For every tree and every assignment of highlight flags: after
    `clearHighlights` the flag of every node of the tree is false and every
    other field is as before; clearing twice gives the same tree as clearing
    once; setting the flag of any node and then clearing gives the cleared
    tree, and this is the original tree exactly when no node of the original
    tree was highlighted. -/
theorem C18_clear_highlights (t : SceneNode K) (a : Nat) (v : Bool) :
    (∀ n ∈ (clearHighlights t).nodes, n.m_isHighlighted = false) ∧
    (clearHighlights t).nodes.map SceneNode.fields =
      t.nodes.map (fun n => n.fields.withHighlight false) ∧
    clearHighlights (clearHighlights t) = clearHighlights t ∧
    clearHighlights (SceneNode.SetHighlightedAt a v t) = clearHighlights t ∧
    (clearHighlights (SceneNode.SetHighlightedAt a v t) = t ↔
      ∀ n ∈ t.nodes, n.m_isHighlighted = false) := by
  refine ⟨clearHighlights_all_false t, clearHighlights_nodes_fields t, clearHighlights_idem t,
    clearHighlights_SetHighlightedAt a v t, ?_⟩
  rw [clearHighlights_SetHighlightedAt]
  constructor
  · intro h n hn
    rw [← h] at hn
    exact clearHighlights_all_false t n hn
  · exact clearHighlights_of_all_false t

/-- C18, counterexample to the last part as stated: a single node that is
    highlighted (as after an earlier pick); setting its flag and clearing the
    tree leaves it not highlighted, which is not the original state. -/
theorem C18_counterexample :
    clearHighlights (SceneNode.SetHighlightedAt 1 true
        ((SceneNode.new 1 : SceneNode ℚ).SetHighlighted true)) ≠
      (SceneNode.new 1 : SceneNode ℚ).SetHighlighted true := by
  intro h
  have h2 := congrArg SceneNode.m_isHighlighted h
  rw [(clearHighlights_all_false _ _ (SceneNode.mem_nodes_self _))] at h2
  exact absurd h2 (by simp [SceneNode.new, SceneNode.SetHighlighted, SceneNode.m_isHighlighted])

/-! ### The calls of `Render` -/

mutual
theorem SceneNode.visits_map_fst (g : GlmKernel K) :
    ∀ (n : SceneNode K) (M : Mat4 K), (SceneNode.visits g n M).map Prod.fst = n.nodes
  | SceneNode.mk a p r s mt tt ts d children lo hi ty h, M => by
    rw [SceneNode.visits, SceneNode.nodes, List.map_cons,
      SceneNode.visitsChildren_map_fst g children _]
theorem SceneNode.visitsChildren_map_fst (g : GlmKernel K) :
    ∀ (l : List (SceneNode K)) (M : Mat4 K),
      (SceneNode.visitsChildren g l M).map Prod.fst = SceneNode.nodesChildren l
  | [], M => by
    rw [SceneNode.visitsChildren, SceneNode.nodesChildren]
    rfl
  | c :: rest, M => by
    rw [SceneNode.visitsChildren, SceneNode.nodesChildren, List.map_append,
      SceneNode.visits_map_fst g c M, SceneNode.visitsChildren_map_fst g rest M]
end

theorem SceneNode.model_eq_computeWorldTransform (g : GlmKernel K) (n : SceneNode K)
    (M : Mat4 K) : n.model g M = n.computeWorldTransform g M :=
  SceneNode.model_eq_mul g n M

theorem SceneNode.countP_isSetModel_renderCalls (sm ms : Bool) (n : SceneNode K) (W : Mat4 K) :
    (SceneNode.renderCalls sm true ms n W).countP RenderCall.isSetModel = 1 := by
  unfold SceneNode.renderCalls
  cases sm <;> cases ms <;> cases n.m_drawFunction <;>
    simp [List.countP_cons, RenderCall.isSetModel]

theorem List.countP_flatMap_eq_length {α β : Type} (p : β → Bool) (f : α → List β)
    (l : List α) (h : ∀ x ∈ l, (f x).countP p = 1) : (l.flatMap f).countP p = l.length := by
  induction l with
  | nil => rfl
  | cons x l ih =>
    rw [List.flatMap_cons, List.countP_append, h x (List.mem_cons_self _ _),
      ih (fun y hy => h y (List.mem_cons_of_mem _ hy)), List.length_cons, Nat.add_comm]

theorem SceneNode.draw_mem_renderCalls (sm sh ms : Bool) (n : SceneNode K) (W : Mat4 K)
    (f : DrawFunction) :
    RenderCall.draw f ∈ SceneNode.renderCalls sm sh ms n W ↔
      n.m_drawFunction = some f ∧ ms = true := by
  unfold SceneNode.renderCalls
  cases sm <;> cases sh <;> cases ms <;> cases n.m_drawFunction <;> simp [eq_comm]

/-- C17. For every tree and parent matrix, `Render` (with non-null scene and
    shader managers) makes, for the nodes of the tree in pre-order (a node, then
    the subtrees of its children in child-list order) and for nothing else, the
    calls of that node: the push of the model matrix, which is the node's world
    transform `computeWorldTransform` of the matrix it is called with, of the
    texture tag and slot, of the highlight flag and of the material tag, then
    the draw operation exactly when one is set and the mesh provider is
    non-null; the calls of the children follow whether or not the node has a
    draw operation, each child being called with this node's model matrix; and
    the number of model matrices pushed is the number of nodes. -/
theorem C17_render_preorder (g : GlmKernel K) (meshes : Bool) (root : SceneNode K)
    (M : Mat4 K) :
    (SceneNode.Render g true true meshes root M =
        (SceneNode.visits g root M).flatMap
          (fun v => SceneNode.renderCalls true true meshes v.1 (v.1.computeWorldTransform g v.2)) ∧
      (SceneNode.visits g root M).map Prod.fst = root.nodes ∧
      root.nodes = root :: SceneNode.nodesChildren root.m_children ∧
      (∀ (c : SceneNode K) (rest : List (SceneNode K)),
        SceneNode.nodesChildren (c :: rest) = c.nodes ++ SceneNode.nodesChildren rest)) ∧
    (∀ (n : SceneNode K) (W : Mat4 K),
      SceneNode.renderCalls true true meshes n W =
        [RenderCall.setMat4Value "model" W,
         RenderCall.setIntValue "bUseTexture" 1,
         RenderCall.setSampler2DValue n.m_textureTag n.m_textureSlot,
         RenderCall.setBoolValue "uHighlight" n.m_isHighlighted,
         RenderCall.SetShaderMaterial n.m_materialTag,
         RenderCall.SetShaderTexture n.m_textureTag n.m_textureSlot] ++
        (match n.m_drawFunction with
         | some f => if meshes then [RenderCall.draw f] else []
         | none => []) ∧
      ∀ f : DrawFunction, RenderCall.draw f ∈ SceneNode.renderCalls true true meshes n W ↔
        n.m_drawFunction = some f ∧ meshes = true) ∧
    (SceneNode.Render g true true meshes root M =
        SceneNode.renderCalls true true meshes root (root.computeWorldTransform g M) ++
          SceneNode.RenderChildren g true true meshes root.m_children
            (root.computeWorldTransform g M) ∧
      ∀ (c : SceneNode K) (rest : List (SceneNode K)) (W : Mat4 K),
        SceneNode.RenderChildren g true true meshes (c :: rest) W =
          SceneNode.Render g true true meshes c W ++
            SceneNode.RenderChildren g true true meshes rest W) ∧
    (SceneNode.Render g true true meshes root M).countP RenderCall.isSetModel =
      root.nodes.length := by
  refine ⟨⟨?_, SceneNode.visits_map_fst g root M, SceneNode.nodes_eq root,
    SceneNode.nodesChildren_cons⟩, ?_, ⟨?_, ?_⟩, ?_⟩
  · rw [SceneNode.Render_eq_flatMap]
    simp only [SceneNode.model_eq_computeWorldTransform]
  · intro n W
    refine ⟨?_, SceneNode.draw_mem_renderCalls true true meshes n W⟩
    unfold SceneNode.renderCalls
    cases n.m_drawFunction <;> simp
  · rw [SceneNode.Render_eq, SceneNode.model_eq_computeWorldTransform]
  · intro c rest W
    rw [SceneNode.RenderChildren]
  · rw [SceneNode.Render_eq_flatMap, List.countP_flatMap_eq_length, ← SceneNode.visits_map_fst g root M,
      List.length_map]
    intro v _
    exact SceneNode.countP_isSetModel_renderCalls _ _ _ _

/-! ### Picking does not depend on the rendering fields -/

mutual
theorem SceneNode.CheckRayHit_stripRendering (g : GlmKernel K) (ray : Ray K) (t0 : Fl K) :
    ∀ (n : SceneNode K) (M : Mat4 K) (st : PickState K),
      SceneNode.CheckRayHit g ray t0 n.stripRendering M st = SceneNode.CheckRayHit g ray t0 n M st
  | SceneNode.mk a p r s mt tt ts d children lo hi ty h, M, st => by
    rw [SceneNode.stripRendering, SceneNode.CheckRayHit, SceneNode.CheckRayHit]
    exact SceneNode.CheckRayHitChildren_stripRendering g ray t0 children _ _
theorem SceneNode.CheckRayHitChildren_stripRendering (g : GlmKernel K) (ray : Ray K) (t0 : Fl K) :
    ∀ (l : List (SceneNode K)) (M : Mat4 K) (st : PickState K),
      SceneNode.CheckRayHitChildren g ray t0 (SceneNode.stripRenderingChildren l) M st =
        SceneNode.CheckRayHitChildren g ray t0 l M st
  | [], M, st => by
    rw [SceneNode.stripRenderingChildren]
  | c :: rest, M, st => by
    rw [SceneNode.stripRenderingChildren, SceneNode.CheckRayHitChildren,
      SceneNode.CheckRayHitChildren, SceneNode.CheckRayHit_stripRendering g ray t0 c M st,
      SceneNode.CheckRayHitChildren_stripRendering g ray t0 rest M _]
end

theorem SceneNode.CheckRayHit_congr_strip (g : GlmKernel K) (ray : Ray K) (t0 : Fl K)
    (n1 n2 : SceneNode K) (h : n1.stripRendering = n2.stripRendering) (M : Mat4 K)
    (st : PickState K) :
    SceneNode.CheckRayHit g ray t0 n1 M st = SceneNode.CheckRayHit g ray t0 n2 M st := by
  rw [← SceneNode.CheckRayHit_stripRendering g ray t0 n1, h,
    SceneNode.CheckRayHit_stripRendering g ray t0 n2]

/-- A recordable test below the seed and strictly below every other recordable
    test of the tree is the one `CheckRayHit` returns. -/
theorem SceneNode.CheckRayHit_strict_min (g : GlmKernel K) (ray : Ray K) (t0 : Fl K)
    (n : SceneNode K) (M : Mat4 K) (st : PickState K) (x : Nat × (Bool × Fl K))
    (hx : x ∈ SceneNode.tests g ray t0 n M) (hq : qualifies x)
    (hs : Fl.lt x.2.2 st.closestDistance = true)
    (hmin : ∀ y ∈ SceneNode.tests g ray t0 n M, qualifies y → y ≠ x →
      Fl.lt x.2.2 y.2.2 = true) :
    SceneNode.CheckRayHit g ray t0 n M st = ⟨some x.1, x.2.2⟩ := by
  rw [SceneNode.CheckRayHit_eq_foldl_tests]
  rcases foldl_recordHit_spec (SceneNode.tests g ray t0 n M) st with
    ⟨_, hno⟩ | ⟨y, hy, hqy, _, e, hm⟩
  · rw [hno x hx hq] at hs
    exact absurd hs (by simp)
  · by_cases hyx : y = x
    · rw [e, hyx]
    · have h1 := hmin y hy hqy hyx
      rw [hm x hx hq] at h1
      exact absurd h1 (by simp)

/-- C16. For every ray, parent matrix and seed, `CheckRayHit` returns the same
    result on two trees that are equal once the draw function, material tag,
    texture tag, texture slot, mesh type and highlight flag of every node are
    erased (same shape, same nodes, same position, rotation, scale and local
    box at every node); and on both, a node whose box test succeeds with a
    `tHit` that is positive, below the seed and strictly below the `tHit` of
    every other node with a successful test and positive `tHit` is the node
    selected, whatever its draw function is, null included. -/
theorem C16_picking_ignores_rendering_fields (g : GlmKernel K) (ray : Ray K) (tHit0 : Fl K)
    (n1 n2 : SceneNode K) (M : Mat4 K) (st : PickState K)
    (h : n1.stripRendering = n2.stripRendering) :
    SceneNode.CheckRayHit g ray tHit0 n1 M st = SceneNode.CheckRayHit g ray tHit0 n2 M st ∧
    ∀ x ∈ SceneNode.tests g ray tHit0 n1 M, qualifies x →
      Fl.lt x.2.2 st.closestDistance = true →
      (∀ y ∈ SceneNode.tests g ray tHit0 n1 M, qualifies y → y ≠ x → Fl.lt x.2.2 y.2.2 = true) →
      SceneNode.CheckRayHit g ray tHit0 n1 M st = ⟨some x.1, x.2.2⟩ ∧
      SceneNode.CheckRayHit g ray tHit0 n2 M st = ⟨some x.1, x.2.2⟩ := by
  have e := SceneNode.CheckRayHit_congr_strip g ray tHit0 n1 n2 h M st
  refine ⟨e, ?_⟩
  intro x hx hq hs hmin
  have h1 := SceneNode.CheckRayHit_strict_min g ray tHit0 n1 M st x hx hq hs hmin
  exact ⟨h1, e ▸ h1⟩

/-- C16 at the tree `farStretched`, whose nodes have no draw function, against
    the same tree with a draw function, a material and the highlight flag set
    on the root. -/
theorem C16_picking_ignores_rendering_fields_witness :
    farStretched.stripRendering =
      (((farStretched.SetMeshDrawFunction (some 7)).SetMaterial "wood").SetHighlighted
        true).stripRendering ∧
    SceneNode.CheckRayHit kernelQ pickRay (Fl.fin 0) farStretched Mat4.identity ⟨none, Fl.pinf⟩ =
      SceneNode.CheckRayHit kernelQ pickRay (Fl.fin 0)
        (((farStretched.SetMeshDrawFunction (some 7)).SetMaterial "wood").SetHighlighted true)
        Mat4.identity ⟨none, Fl.pinf⟩ :=
  ⟨by simp [farStretched, boxNode, SceneNode.stripRendering, SceneNode.SetMeshDrawFunction,
      SceneNode.SetMaterial, SceneNode.SetHighlighted],
   (C16_picking_ignores_rendering_fields kernelQ pickRay (Fl.fin 0) farStretched
      (((farStretched.SetMeshDrawFunction (some 7)).SetMaterial "wood").SetHighlighted true)
      Mat4.identity ⟨none, Fl.pinf⟩
      (by simp [farStretched, boxNode, SceneNode.stripRendering, SceneNode.SetMeshDrawFunction,
        SceneNode.SetMaterial, SceneNode.SetHighlighted])).1⟩

/-! ### The pick step -/

mutual
theorem SceneNode.stripRendering_clearHighlights :
    ∀ t : SceneNode K, (clearHighlights t).stripRendering = t.stripRendering
  | SceneNode.mk a p r s mt tt ts d children lo hi ty h => by
    rw [clearHighlights, SceneNode.stripRendering, SceneNode.stripRendering,
      SceneNode.stripRenderingChildren_clearHighlights children]
theorem SceneNode.stripRenderingChildren_clearHighlights :
    ∀ l : List (SceneNode K),
      SceneNode.stripRenderingChildren (clearHighlightsChildren l) =
        SceneNode.stripRenderingChildren l
  | [] => by
    rw [clearHighlightsChildren]
  | c :: rest => by
    rw [clearHighlightsChildren, SceneNode.stripRenderingChildren,
      SceneNode.stripRenderingChildren, SceneNode.stripRendering_clearHighlights c,
      SceneNode.stripRenderingChildren_clearHighlights rest]
end

theorem SceneNode.CheckRayHit_clearHighlights (g : GlmKernel K) (ray : Ray K) (t0 : Fl K)
    (root : SceneNode K) (M : Mat4 K) (st : PickState K) :
    SceneNode.CheckRayHit g ray t0 (clearHighlights root) M st =
      SceneNode.CheckRayHit g ray t0 root M st :=
  SceneNode.CheckRayHit_congr_strip g ray t0 _ _ (SceneNode.stripRendering_clearHighlights root) M st

theorem pickStep_eq_pickStepClearFirst (g : GlmKernel K) (ray : Ray K) (t0 : Fl K)
    (root : SceneNode K) : pickStep g ray t0 root = pickStepClearFirst g ray t0 root := by
  unfold pickStep pickStepClearFirst
  simp only [SceneNode.CheckRayHit_clearHighlights]

/-- Clearing the tree and then setting the flag at the address `o`, if any. -/
theorem highlightFound_nodes_fields (o : Option Nat) (root : SceneNode K) :
    (match o with
      | some a => SceneNode.SetHighlightedAt a true (clearHighlights root)
      | none => clearHighlights root).nodes.map SceneNode.fields =
      root.nodes.map (fun n => n.fields.withHighlight (decide (o = some n.addr))) := by
  cases o with
  | none =>
    simp only [clearHighlights_nodes_fields]
    apply List.map_congr_left
    intro n _
    simp
  | some a =>
    simp only
    have e : (fun n : SceneNode K => if n.addr = a then n.fields.withHighlight true else n.fields) =
        (fun f : NodeFields K => if f.addr = a then f.withHighlight true else f) ∘
          SceneNode.fields := rfl
    rw [SceneNode.SetHighlightedAt_nodes_fields, e, ← List.map_map, clearHighlights_nodes_fields,
      List.map_map]
    apply List.map_congr_left
    intro n _
    have ha : (n.fields.withHighlight false).addr = n.addr := rfl
    show (if (n.fields.withHighlight false).addr = a then
        (n.fields.withHighlight false).withHighlight true else n.fields.withHighlight false) = _
    rw [ha]
    by_cases h : n.addr = a
    · rw [if_pos h, h, decide_eq_true rfl]
      rfl
    · have h2 : ¬ some a = some n.addr := fun e => h (Option.some.inj e).symm
      rw [if_neg h, decide_eq_false h2]

/-- The fields of the nodes after the pick step: those of the tree before it,
    with the flag set exactly at the address found. -/
theorem pickStep_nodes_fields (g : GlmKernel K) (ray : Ray K) (t0 : Fl K) (root : SceneNode K) :
    (pickStep g ray t0 root).nodes.map SceneNode.fields =
      root.nodes.map (fun n => n.fields.withHighlight
        (decide ((SceneNode.CheckRayHit g ray t0 root Mat4.identity
          ⟨none, Fl.fin FLT_MAX⟩).closestNode = some n.addr))) :=
  highlightFound_nodes_fields _ root

theorem SceneNode.closestNode_mem_nodes (g : GlmKernel K) (ray : Ray K) (t0 : Fl K)
    (root : SceneNode K) (M : Mat4 K) (D : Fl K) (a : Nat)
    (h : (SceneNode.CheckRayHit g ray t0 root M ⟨none, D⟩).closestNode = some a) :
    a ∈ root.nodes.map SceneNode.addr := by
  rw [SceneNode.CheckRayHit_eq_foldl_tests] at h
  rcases foldl_recordHit_spec (SceneNode.tests g ray t0 root M) ⟨none, D⟩ with
    ⟨e, _⟩ | ⟨x, hx, _, _, e, _⟩
  · rw [e] at h
    exact absurd h (by simp)
  · rw [e] at h
    simp only [Option.some.injEq] at h
    rw [SceneNode.tests] at hx
    obtain ⟨v, hv, rfl⟩ := List.mem_map.1 hx
    rw [← h, ← SceneNode.visits_map_fst g root M, List.map_map]
    exact List.mem_map_of_mem _ hv

theorem countP_withHighlight (o : Option Nat) (l : List (SceneNode K)) :
    (l.map (fun n => n.fields.withHighlight (decide (o = some n.addr)))).countP
        NodeFields.m_isHighlighted =
      match o with
      | some a => (l.map SceneNode.addr).count a
      | none => 0 := by
  rw [List.countP_map]
  cases o with
  | none =>
    simp only
    rw [List.countP_eq_zero]
    intro n _
    show ¬ decide ((none : Option Nat) = some n.addr) = true
    simp
  | some a =>
    simp only
    rw [List.count, List.countP_map]
    apply List.countP_congr
    intro n _
    show decide (some a = some n.addr) = true ↔ (n.addr == a) = true
    rw [decide_eq_true_iff, beq_iff_eq, Option.some.injEq]
    exact eq_comm

theorem pickStep_countP (g : GlmKernel K) (ray : Ray K) (t0 : Fl K) (root : SceneNode K) :
    (pickStep g ray t0 root).nodes.countP SceneNode.m_isHighlighted =
      match (SceneNode.CheckRayHit g ray t0 root Mat4.identity
          ⟨none, Fl.fin FLT_MAX⟩).closestNode with
      | some a => (root.nodes.map SceneNode.addr).count a
      | none => 0 := by
  have e : (SceneNode.m_isHighlighted : SceneNode K → Bool) =
      NodeFields.m_isHighlighted ∘ SceneNode.fields := rfl
  rw [e, ← List.countP_map, pickStep_nodes_fields]
  exact countP_withHighlight _ _

/-- C15. For every tree and every prior assignment of highlight flags, after
    the pick step of the main loop (`CheckRayHit` from the root with the seed
    `(nullptr, FLT_MAX)`, then `clearHighlights`, then `SetHighlighted(true)` on
    the node found): a node of the tree is highlighted if and only if
    `closestNode` is that node; when `closestNode` is null no node is
    highlighted; when the nodes of the tree are distinct objects at most one
    node is highlighted, and exactly one when `closestNode` is not null; and
    the resulting tree is the one obtained by clearing first and searching
    second. -/
theorem C15_pick_step_highlights_winner (g : GlmKernel K) (ray : Ray K) (tHit0 : Fl K)
    (root : SceneNode K) :
    (∀ n ∈ (pickStep g ray tHit0 root).nodes, n.m_isHighlighted = true ↔
      (SceneNode.CheckRayHit g ray tHit0 root Mat4.identity
        ⟨none, Fl.fin FLT_MAX⟩).closestNode = some n.addr) ∧
    ((SceneNode.CheckRayHit g ray tHit0 root Mat4.identity
        ⟨none, Fl.fin FLT_MAX⟩).closestNode = none →
      ∀ n ∈ (pickStep g ray tHit0 root).nodes, n.m_isHighlighted = false) ∧
    ((root.nodes.map SceneNode.addr).Nodup →
      (pickStep g ray tHit0 root).nodes.countP SceneNode.m_isHighlighted ≤ 1 ∧
      ∀ a, (SceneNode.CheckRayHit g ray tHit0 root Mat4.identity
          ⟨none, Fl.fin FLT_MAX⟩).closestNode = some a →
        (pickStep g ray tHit0 root).nodes.countP SceneNode.m_isHighlighted = 1) ∧
    (pickStep g ray tHit0 root).nodes.map SceneNode.addr = root.nodes.map SceneNode.addr ∧
    pickStep g ray tHit0 root = pickStepClearFirst g ray tHit0 root := by
  have hiff : ∀ n ∈ (pickStep g ray tHit0 root).nodes, n.m_isHighlighted = true ↔
      (SceneNode.CheckRayHit g ray tHit0 root Mat4.identity
        ⟨none, Fl.fin FLT_MAX⟩).closestNode = some n.addr := by
    intro n hn
    have h1 : n.fields ∈ (pickStep g ray tHit0 root).nodes.map SceneNode.fields :=
      List.mem_map_of_mem _ hn
    rw [pickStep_nodes_fields] at h1
    obtain ⟨m, _, hm⟩ := List.mem_map.1 h1
    have h2 : n.m_isHighlighted = decide ((SceneNode.CheckRayHit g ray tHit0 root Mat4.identity
        ⟨none, Fl.fin FLT_MAX⟩).closestNode = some m.addr) :=
      (congrArg NodeFields.m_isHighlighted hm).symm
    have h3 : n.addr = m.addr := (congrArg NodeFields.addr hm).symm
    rw [h2, h3]
    simp
  refine ⟨hiff, ?_, ?_, ?_, pickStep_eq_pickStepClearFirst g ray tHit0 root⟩
  · intro hnone n hn
    cases hf : n.m_isHighlighted
    · rfl
    · have := (hiff n hn).1 hf
      rw [hnone] at this
      exact absurd this (by simp)
  · intro hnd
    rw [pickStep_countP]
    constructor
    · cases (SceneNode.CheckRayHit g ray tHit0 root Mat4.identity
          ⟨none, Fl.fin FLT_MAX⟩).closestNode with
      | none => exact Nat.zero_le 1
      | some a => exact List.nodup_iff_count_le_one.1 hnd a
    · intro a ha
      rw [ha]
      exact List.count_eq_one_of_mem hnd
        (SceneNode.closestNode_mem_nodes g ray tHit0 root Mat4.identity _ a ha)
  · calc (pickStep g ray tHit0 root).nodes.map SceneNode.addr
        = ((pickStep g ray tHit0 root).nodes.map SceneNode.fields).map NodeFields.addr := by
          rw [List.map_map]
          rfl
      _ = root.nodes.map SceneNode.addr := by
          rw [pickStep_nodes_fields, List.map_map]
          rfl

/-! ### Finite data through `glm` -/

theorem Mat4.mulVec_map_fin (A : Mat4 K) (v : Vec4 K) :
    (A.map Fl.fin).mulVec (v.map Fl.fin) = (A.mulVec v).map Fl.fin := by
  simp only [Mat4.map, Vec4.map, Mat4.mulVec, Vec4.scale, Vec4.add, Fl.fin_mul_fin, Fl.fin_add_fin]

theorem Vec4.ofVec3_map_fin_one (v : Vec3 K) :
    Vec4.ofVec3 (v.map Fl.fin) (1 : Fl K) = (Vec4.ofVec3 v 1).map Fl.fin := rfl

theorem Vec4.ofVec3_map_fin_zero (v : Vec3 K) :
    Vec4.ofVec3 (v.map Fl.fin) (0 : Fl K) = (Vec4.ofVec3 v 0).map Fl.fin := rfl

theorem Vec4.xyz_map_fin (v : Vec4 K) : (v.map Fl.fin).xyz = (v.xyz).map Fl.fin := rfl

theorem glm.dot_self_nonneg (v : Vec3 K) : 0 ≤ glm.dot v v := by
  unfold glm.dot
  nlinarith [mul_self_nonneg v.x, mul_self_nonneg v.y, mul_self_nonneg v.z]

theorem Mat4.mulVec_w_of_isAffine (m : Mat4 K) (h : m.isAffine) (v : Vec4 K) :
    (m.mulVec v).w = v.w := by
  obtain ⟨h0, h1, h2, h3⟩ := h
  simp only [Mat4.mulVec, Vec4.add, Vec4.scale, h0, h1, h2, h3]
  ring

theorem Mat4.mulVec_unit_w (m : Mat4 K) : m.mulVec ⟨0, 0, 0, 1⟩ = m.c3 := by
  obtain ⟨c0, c1, c2, ⟨x, y, z, w⟩⟩ := m
  simp [Mat4.mulVec, Vec4.add, Vec4.scale]

/-- The inverse of an invertible affine matrix keeps the last coordinate. -/
theorem glm.inverse_mulVec_w (m : Mat4 K) (hd : glm.inverseDet m ≠ 0) (h : m.isAffine)
    (v : Vec4 K) : ((glm.inverse m).mulVec v).w = v.w := by
  have h1 := Mat4.mulVec_w_of_isAffine m h ((glm.inverse m).mulVec v)
  rw [glm.mulVec_inverse m hd] at h1
  exact h1.symm

theorem Ray.fromMouse_origin (g : GlmKernel K) (mouseX mouseY : K) (W H : Int)
    (V P : Mat4 K) (hV : glm.inverseDet V ≠ 0) :
    (Ray.fromMouse g mouseX mouseY W H V P).origin = ((glm.inverse V).c3.xyz).map Fl.fin := by
  unfold Ray.fromMouse Ray.ctor
  simp only [glm.inverse_map_fin V hV]
  rfl

/-- C13. For every invertible view matrix V (non-zero determinant), whatever
    the mouse coordinates, the screen size and the projection matrix are, the
    origin of the ray returned by `Ray::fromMouse` is the first three entries
    of the fourth column of the matrix `glm::inverse(V)`, which is the inverse
    of V for the product with vectors; when V is affine (last row 0,0,0,1),
    V applied to the point (origin, 1) gives (0,0,0,1). -/
theorem C13_origin_is_camera_position (g : GlmKernel K) (mouseX mouseY : K)
    (screenWidth screenHeight : Int) (viewMatrix projectionMatrix : Mat4 K)
    (hV : glm.inverseDet viewMatrix ≠ 0) :
    (Ray.fromMouse g mouseX mouseY screenWidth screenHeight viewMatrix projectionMatrix).origin =
      ((glm.inverse viewMatrix).c3.xyz).map Fl.fin ∧
    (∀ v : Vec4 K, viewMatrix.mulVec ((glm.inverse viewMatrix).mulVec v) = v ∧
      (glm.inverse viewMatrix).mulVec (viewMatrix.mulVec v) = v) ∧
    (viewMatrix.isAffine →
      viewMatrix.mulVec (Vec4.ofVec3 (glm.inverse viewMatrix).c3.xyz 1) = ⟨0, 0, 0, 1⟩) := by
  refine ⟨Ray.fromMouse_origin g mouseX mouseY screenWidth screenHeight viewMatrix
    projectionMatrix hV, fun v => ⟨glm.mulVec_inverse viewMatrix hV v,
    glm.inverse_mulVec viewMatrix hV v⟩, ?_⟩
  intro hA
  have hw : (glm.inverse viewMatrix).c3.w = 1 := by
    have := glm.inverse_mulVec_w viewMatrix hV hA ⟨0, 0, 0, 1⟩
    rw [Mat4.mulVec_unit_w] at this
    exact this
  have e : Vec4.ofVec3 (glm.inverse viewMatrix).c3.xyz 1 = (glm.inverse viewMatrix).c3 := by
    rw [← hw]
    rfl
  rw [e, ← Mat4.mulVec_unit_w (glm.inverse viewMatrix), glm.mulVec_inverse viewMatrix hV]

/-- C13 for the view matrix of a camera at `(1, 2, 3)` looking along `-z`. -/
theorem C13_origin_is_camera_position_witness :
    (Ray.fromMouse kernelQ 400 300 800 600 (Translate ⟨-1, -2, -3⟩) Mat4.identity).origin =
      ((glm.inverse (Translate (⟨-1, -2, -3⟩ : Vec3 ℚ))).c3.xyz).map Fl.fin :=
  (C13_origin_is_camera_position kernelQ 400 300 800 600 (Translate ⟨-1, -2, -3⟩) Mat4.identity
    (by norm_num [glm.inverseDet, glm.adjugate, Translate, Vec4.mul, Vec4.sub, Vec4.add])).1

/-! ### The direction of a ray -/

/-- On finite data with invertible matrices and non-zero screen sizes
    `fromMouse` normalizes the image of the exact vector `unprojected`. -/
theorem Ray.fromMouse_eq (g : GlmKernel K) (mouseX mouseY : K) (W H : Int) (V P : Mat4 K)
    (hW : W ≠ 0) (hH : H ≠ 0) (hP : glm.inverseDet P ≠ 0) (hV : glm.inverseDet V ≠ 0) :
    Ray.fromMouse g mouseX mouseY W H V P =
      Ray.ctor g (((glm.inverse V).c3.xyz).map Fl.fin)
        (glm.normalize (Fl.inversesqrt g)
          ((Ray.unprojected mouseX mouseY W H V P).map Fl.fin)) := by
  have hc : Ray.clipCoords mouseX mouseY W H =
      (⟨2 * mouseX / (W : K) - 1, 1 - 2 * mouseY / (H : K), -1, 1⟩ : Vec4 K).map Fl.fin :=
    Ray.clipCoords_eq mouseX mouseY W H hW hH
  have he : ∀ a b : K, (⟨Fl.fin a, Fl.fin b, -1, 0⟩ : Vec4 (Fl K)) =
      (⟨a, b, -1, 0⟩ : Vec4 K).map Fl.fin := by
    intro a b
    simp only [Vec4.map, Fl.one_def, Fl.neg_fin, Fl.zero_def]
  unfold Ray.fromMouse Ray.unprojected
  simp only [hc, glm.inverse_map_fin P hP, glm.inverse_map_fin V hV, Mat4.mulVec_map_fin]
  have e1 : ∀ v : Vec4 K, (v.map Fl.fin).x = Fl.fin v.x := fun _ => rfl
  have e2 : ∀ v : Vec4 K, (v.map Fl.fin).y = Fl.fin v.y := fun _ => rfl
  simp only [e1, e2, he, Mat4.mulVec_map_fin, Vec4.xyz_map_fin]
  rfl

theorem Fl.nan_mul (x : Fl K) : (Fl.nan * x : Fl K) = Fl.nan := by
  show Fl.mul _ _ = _
  simp [Fl.mul, Fl.isNaN]

theorem Fl.mul_nan (x : Fl K) : (x * Fl.nan : Fl K) = Fl.nan := by
  show Fl.mul _ _ = _
  simp [Fl.mul, Fl.isNaN]

theorem Fl.nan_add (x : Fl K) : (Fl.nan + x : Fl K) = Fl.nan := by
  show Fl.add _ _ = _
  simp [Fl.add]

theorem Fl.add_nan (x : Fl K) : (x + Fl.nan : Fl K) = Fl.nan := by
  show Fl.add _ _ = _
  cases x <;> simp [Fl.add]

theorem Fl.nan_sub (x : Fl K) : (Fl.nan - x : Fl K) = Fl.nan := by
  show Fl.sub _ _ = _
  simp [Fl.sub]

theorem Fl.sub_nan (x : Fl K) : (x - Fl.nan : Fl K) = Fl.nan := by
  show Fl.sub _ _ = _
  cases x <;> simp [Fl.sub]

theorem Fl.zero_mul_pinf : (Fl.fin 0 * Fl.pinf : Fl K) = Fl.nan := by
  show Fl.mul _ _ = _
  simp [Fl.mul, Fl.isNaN, Fl.isFinite, Fl.num]

theorem Fl.inversesqrt_nan (g : GlmKernel K) : Fl.inversesqrt g Fl.nan = Fl.nan := rfl

/-- In the exact idealisation: with the identity as projection matrix and the
    invertible view matrix that exchanges `z` and `w`, the pixel at the centre
    of an 800 by 600 screen gives a ray whose direction is (NaN, NaN, NaN), the
    vector normalized being zero; and so does a screen of size 0 by 0 with
    identity matrices. -/
theorem Ray.fromMouse_direction_nan :
    glm.inverseDet swapZW ≠ 0 ∧ glm.inverseDet (Mat4.identity : Mat4 ℚ) ≠ 0 ∧
    (Ray.fromMouse kernelQ 400 300 800 600 swapZW Mat4.identity).direction =
      ⟨Fl.nan, Fl.nan, Fl.nan⟩ ∧
    (Ray.fromMouse kernelQ 0 0 0 0 Mat4.identity Mat4.identity).direction =
      ⟨Fl.nan, Fl.nan, Fl.nan⟩ := by
  have hI : glm.inverseDet (Mat4.identity : Mat4 ℚ) ≠ 0 := by
    norm_num [glm.inverseDet, glm.adjugate, Mat4.identity, Vec4.mul, Vec4.sub, Vec4.add]
  have hS : glm.inverseDet swapZW ≠ 0 := by
    norm_num [glm.inverseDet, glm.adjugate, swapZW, Vec4.mul, Vec4.sub, Vec4.add]
  have hiI : glm.inverse (Mat4.identity : Mat4 ℚ) = Mat4.identity := by
    norm_num [glm.inverse, glm.inverseDet, glm.adjugate, Mat4.identity, Vec4.mul, Vec4.sub,
      Vec4.add, Vec4.scale]
  have hiS : glm.inverse swapZW = swapZW := by
    norm_num [glm.inverse, glm.inverseDet, glm.adjugate, swapZW, Vec4.mul, Vec4.sub,
      Vec4.add, Vec4.scale]
  refine ⟨hS, hI, ?_, ?_⟩
  · rw [Ray.fromMouse_eq kernelQ 400 300 800 600 swapZW Mat4.identity (by decide) (by decide)
      hI hS]
    have hu : Ray.unprojected (400 : ℚ) 300 800 600 swapZW Mat4.identity = ⟨0, 0, 0⟩ := by
      unfold Ray.unprojected
      rw [hiI, hiS]
      norm_num [swapZW, Mat4.identity, Mat4.mulVec, Vec4.add, Vec4.scale, Vec4.xyz]
    rw [hu]
    simp [Ray.ctor, glm.normalize, glm.dot, Vec3.map, Vec3.scale, Fl.inversesqrt, Fl.fin_mul_fin,
      Fl.fin_add_fin, Fl.zero_mul_pinf, Fl.nan_mul, Fl.nan_add]
  · have hc : Ray.clipCoords (0 : ℚ) 0 0 0 = ⟨Fl.nan, Fl.nan, Fl.fin (-1), Fl.fin 1⟩ := by
      simp [Ray.clipCoords, Fl.fin_div_zero, Fl.nan_sub, Fl.sub_nan, Fl.neg_fin, Fl.one_def]
    unfold Ray.fromMouse
    rw [hc, glm.inverse_map_fin _ hI, hiI]
    simp [Ray.ctor, glm.normalize, glm.dot, Vec3.scale, Mat4.identity, Mat4.map, Vec4.map,
      Mat4.mulVec, Vec4.add, Vec4.scale, Vec4.xyz, Fl.inversesqrt_nan, Fl.nan_mul, Fl.mul_nan,
      Fl.nan_add, Fl.add_nan]

/-! ### The box test in world space -/

theorem SceneNode.tests_fst_mem_nodes (g : GlmKernel K) (ray : Ray K) (t0 : Fl K)
    (root : SceneNode K) (M : Mat4 K) (x : Nat × (Bool × Fl K))
    (hx : x ∈ SceneNode.tests g ray t0 root M) : x.1 ∈ root.nodes.map SceneNode.addr := by
  rw [SceneNode.tests] at hx
  obtain ⟨v, hv, rfl⟩ := List.mem_map.1 hx
  rw [← SceneNode.visits_map_fst g root M, List.map_map]
  exact List.mem_map_of_mem _ hv

theorem Fl.le_of_lt_true (x y : Fl K) (h : Fl.lt x y = true) : Fl.le x y = true := by
  obtain ⟨hx, hy, hlt⟩ := (Fl.lt_true_iff x y).1 h
  rw [Fl.le_eq_toE x y hx hy]
  exact decide_eq_true (le_of_lt hlt)

theorem Fl.le_self_of_not_nan (x : Fl K) (hx : x.isNaN = false) : Fl.le x x = true := by
  rw [Fl.le_eq_toE x x hx hx]
  exact decide_eq_true (le_refl _)

/-- The result of `CheckRayHit` is the incoming state or a recordable test
    strictly below the incoming distance. -/
theorem SceneNode.CheckRayHit_cases (g : GlmKernel K) (ray : Ray K) (t0 : Fl K)
    (root : SceneNode K) (M : Mat4 K) (st : PickState K) :
    SceneNode.CheckRayHit g ray t0 root M st = st ∨
    ∃ x ∈ SceneNode.tests g ray t0 root M, qualifies x ∧
      Fl.lt x.2.2 st.closestDistance = true ∧
      SceneNode.CheckRayHit g ray t0 root M st = ⟨some x.1, x.2.2⟩ := by
  rw [SceneNode.CheckRayHit_eq_foldl_tests]
  rcases foldl_recordHit_spec (SceneNode.tests g ray t0 root M) st with
    ⟨e, _⟩ | ⟨x, hx, hq, hlt, e, _⟩
  · exact Or.inl e
  · exact Or.inr ⟨x, hx, hq, hlt, e⟩

/-- C25. For every tree, ray, parent matrix and incoming state, after
    `CheckRayHit`: the state is the incoming one, or `closestDistance` has
    strictly decreased, is strictly positive and `closestNode` is a node of the
    traversed tree; so `closestDistance` is the incoming one or smaller (it is
    `<=` the incoming one whenever that is not `NaN`), and `closestNode` differs
    from the incoming one only if `closestDistance` has strictly decreased, in
    which case `closestDistance` is strictly positive and `closestNode` is a
    node of the tree. -/
theorem C25_closest_distance_never_increases (g : GlmKernel K) (ray : Ray K) (tHit0 : Fl K)
    (root : SceneNode K) (parentTransform : Mat4 K) (st : PickState K) :
    (SceneNode.CheckRayHit g ray tHit0 root parentTransform st = st ∨
      (Fl.lt (SceneNode.CheckRayHit g ray tHit0 root parentTransform st).closestDistance
          st.closestDistance = true ∧
        Fl.gt (SceneNode.CheckRayHit g ray tHit0 root parentTransform st).closestDistance 0
          = true ∧
        ∃ a ∈ root.nodes.map SceneNode.addr,
          (SceneNode.CheckRayHit g ray tHit0 root parentTransform st).closestNode = some a)) ∧
    ((SceneNode.CheckRayHit g ray tHit0 root parentTransform st).closestDistance =
        st.closestDistance ∨
      Fl.lt (SceneNode.CheckRayHit g ray tHit0 root parentTransform st).closestDistance
        st.closestDistance = true) ∧
    (st.closestDistance.isNaN = false →
      Fl.le (SceneNode.CheckRayHit g ray tHit0 root parentTransform st).closestDistance
        st.closestDistance = true) ∧
    ((SceneNode.CheckRayHit g ray tHit0 root parentTransform st).closestNode ≠ st.closestNode →
      Fl.lt (SceneNode.CheckRayHit g ray tHit0 root parentTransform st).closestDistance
          st.closestDistance = true ∧
        Fl.gt (SceneNode.CheckRayHit g ray tHit0 root parentTransform st).closestDistance 0
          = true ∧
        ∃ a ∈ root.nodes.map SceneNode.addr,
          (SceneNode.CheckRayHit g ray tHit0 root parentTransform st).closestNode = some a) := by
  have key : SceneNode.CheckRayHit g ray tHit0 root parentTransform st = st ∨
      (Fl.lt (SceneNode.CheckRayHit g ray tHit0 root parentTransform st).closestDistance
          st.closestDistance = true ∧
        Fl.gt (SceneNode.CheckRayHit g ray tHit0 root parentTransform st).closestDistance 0
          = true ∧
        ∃ a ∈ root.nodes.map SceneNode.addr,
          (SceneNode.CheckRayHit g ray tHit0 root parentTransform st).closestNode = some a) := by
    rcases SceneNode.CheckRayHit_cases g ray tHit0 root parentTransform st with
      e | ⟨x, hx, hq, hlt, e⟩
    · exact Or.inl e
    · right
      rw [e]
      exact ⟨hlt, hq.2, x.1, SceneNode.tests_fst_mem_nodes g ray tHit0 root parentTransform x hx,
        rfl⟩
  refine ⟨key, ?_, ?_, ?_⟩
  · rcases key with e | h
    · exact Or.inl (congrArg PickState.closestDistance e)
    · exact Or.inr h.1
  · intro hn
    rcases key with e | h
    · rw [e]
      exact Fl.le_self_of_not_nan _ hn
    · exact Fl.le_of_lt_true _ _ h.1
  · intro hne
    rcases key with e | h
    · exact absurd (congrArg PickState.closestNode e) hne
    · exact h

/-! ### Ties -/

/-- A test whose `tHit` equals the current `closestDistance` is not recorded. -/
theorem SceneNode.recordHit_tie (a : Nat) (hit : Bool) (t : Fl K) (c : Option Nat) :
    SceneNode.recordHit a (hit, t) ⟨c, t⟩ = ⟨c, t⟩ := by
  rw [SceneNode.recordHit_eq]
  simp [Fl.lt_self_false]

/-- A positive float that no smaller float undercuts is below every bound
    that the other is below. -/
theorem Fl.lt_of_not_lt_of_lt (x y D : Fl K) (hx : Fl.gt x 0 = true)
    (h1 : Fl.lt y x = false) (h2 : Fl.lt y D = true) : Fl.lt x D = true := by
  obtain ⟨ny, nD, hyD⟩ := (Fl.lt_true_iff y D).1 h2
  have nx : x.isNaN = false := ((Fl.lt_true_iff 0 x).1 hx).2.1
  rw [Fl.lt_eq_toE y x ny nx] at h1
  have hxy : x.toE ≤ y.toE := not_lt.1 (of_decide_eq_false h1)
  exact (Fl.lt_true_iff x D).2 ⟨nx, nD, lt_of_le_of_lt hxy hyD⟩

/-- C24. When the box test of a node succeeds with a positive `tHit` that no
    node of the tree undercuts, and no node before it in the pre-order
    traversal has a successful test with that same `tHit`, `CheckRayHit`
    started with `closestNode = null` selects that node, provided its `tHit`
    is below the seed distance (otherwise it selects no node at all): among
    the nodes with the same smallest positive `tHit` the first in pre-order is
    selected; a test with a `tHit` equal to the current `closestDistance` never
    replaces the current node. -/
theorem C24_first_in_preorder_wins (g : GlmKernel K) (ray : Ray K) (tHit0 : Fl K)
    (root : SceneNode K) (M : Mat4 K) (D : Fl K)
    (before after : List (Nat × (Bool × Fl K))) (x : Nat × (Bool × Fl K))
    (hT : SceneNode.tests g ray tHit0 root M = before ++ x :: after)
    (hq : qualifies x)
    (hmin : ∀ y ∈ SceneNode.tests g ray tHit0 root M, qualifies y → Fl.lt y.2.2 x.2.2 = false)
    (hfirst : ∀ y ∈ before, qualifies y → y.2.2 ≠ x.2.2) :
    SceneNode.CheckRayHit g ray tHit0 root M ⟨none, D⟩ =
      (if Fl.lt x.2.2 D = true then ⟨some x.1, x.2.2⟩ else ⟨none, D⟩) ∧
    (SceneNode.visits g root M).map (fun v => v.1.addr) =
      (SceneNode.tests g ray tHit0 root M).map Prod.fst ∧
    (SceneNode.visits g root M).map Prod.fst = root.nodes ∧
    ∀ (a : Nat) (hit : Bool) (t : Fl K) (c : Option Nat),
      SceneNode.recordHit a (hit, t) ⟨c, t⟩ = ⟨c, t⟩ := by
  refine ⟨?_, ?_, SceneNode.visits_map_fst g root M, SceneNode.recordHit_tie⟩
  · by_cases hD : Fl.lt x.2.2 D = true
    · rw [if_pos hD]
      have hpre : ∀ y ∈ before, qualifies y → Fl.lt x.2.2 y.2.2 = true := by
        intro y hy hqy
        cases h : Fl.lt x.2.2 y.2.2
        · have hyx := hmin y (by rw [hT]; exact List.mem_append_left _ hy) hqy
          exact absurd (Fl.eq_of_pos_of_not_lt y.2.2 x.2.2 hqy.2 hq.2 hyx h) (hfirst y hy hqy)
        · rfl
      rw [SceneNode.CheckRayHit_eq_foldl_tests, hT, List.foldl_append, List.foldl_cons]
      have h1 : Fl.lt x.2.2
          (List.foldl (fun st x => SceneNode.recordHit x.1 x.2 st) ⟨none, D⟩
            before).closestDistance = true := by
        rcases foldl_recordHit_spec before ⟨none, D⟩ with ⟨e, _⟩ | ⟨y, hy, hqy, _, e, _⟩
        · rw [e]
          exact hD
        · rw [e]
          exact hpre y hy hqy
      have h2 : SceneNode.recordHit x.1 x.2
          (List.foldl (fun st x => SceneNode.recordHit x.1 x.2 st) ⟨none, D⟩ before) =
          ⟨some x.1, x.2.2⟩ := by
        rw [SceneNode.recordHit_eq, if_pos ⟨hq.1, hq.2, h1⟩]
      rw [h2]
      rcases foldl_recordHit_spec after ⟨some x.1, x.2.2⟩ with ⟨e, _⟩ | ⟨y, hy, hqy, hlt, _, _⟩
      · exact e
      · have := hmin y (by rw [hT]; exact List.mem_append_right _ (List.mem_cons_of_mem _ hy)) hqy
        rw [this] at hlt
        exact absurd hlt (by simp)
    · rw [if_neg hD]
      rcases SceneNode.CheckRayHit_cases g ray tHit0 root M ⟨none, D⟩ with
        e | ⟨y, hy, hqy, hlt, _⟩
      · exact e
      · exact absurd (Fl.lt_of_not_lt_of_lt x.2.2 y.2.2 D hq.2 (hmin y hy hqy) hlt) hD
  · rw [SceneNode.tests, List.map_map]
    rfl

theorem twins_tests :
    SceneNode.tests kernelQ pickRay (Fl.fin 0) twins Mat4.identity =
      [(1, (true, Fl.fin (17/2)))] ++ (2, (true, Fl.fin (5/2))) :: [(3, (true, Fl.fin (5/2)))] := by
  unfold twins
  norm_num [SceneNode.tests, SceneNode.visits_eq, SceneNode.visitsChildren, Mat4.identity,
    boxNode_Intersects_unit, boxNode_model_unit, boxNode_m_children, boxNode_addr,
    unitBox_test_on_axis]

/-- C24, witness: in `twins` the two children have the same `tHit` 5/2 and the
    first of them, node 2, is selected. -/
theorem C24_first_in_preorder_wins_witness :
    SceneNode.CheckRayHit kernelQ pickRay (Fl.fin 0) twins Mat4.identity ⟨none, Fl.pinf⟩ =
      ⟨some 2, Fl.fin (5/2)⟩ :=
  (C24_first_in_preorder_wins kernelQ pickRay (Fl.fin 0) twins Mat4.identity Fl.pinf
    [(1, (true, Fl.fin (17/2)))] [(3, (true, Fl.fin (5/2)))] (2, (true, Fl.fin (5/2)))
    twins_tests
    (by norm_num [qualifies, Fl.gt, Fl.lt, Fl.num])
    (by
      intro y hy _
      rw [twins_tests] at hy
      simp only [List.cons_append, List.nil_append, List.mem_cons, List.not_mem_nil,
        or_false] at hy
      rcases hy with rfl | rfl | rfl <;> norm_num [Fl.lt, Fl.num])
    (by
      intro y hy _
      simp only [List.mem_singleton] at hy
      subst hy
      norm_num)).1.trans (by simp [Fl.lt])

/-! ### The default node -/

theorem SceneNode.foldl_AddChild (a : Nat) (p r s : Vec3 K) (mt tt : String) (ts : Int)
    (d : Option DrawFunction) (lo hi : Vec3 K) (ty : MeshType) (h : Bool) :
    ∀ (cs c0 : List (SceneNode K)),
      cs.foldl SceneNode.AddChild (SceneNode.mk a p r s mt tt ts d c0 lo hi ty h) =
        SceneNode.mk a p r s mt tt ts d (c0 ++ cs) lo hi ty h
  | [], c0 => by rw [List.foldl_nil, List.append_nil]
  | c :: cs, c0 => by
    rw [List.foldl_cons, SceneNode.AddChild, SceneNode.foldl_AddChild a p r s mt tt ts d lo hi ty h
      cs (c0 ++ [c]), List.append_assoc]
    rfl

/-- The node built by the constructor followed by `AddChild` for each child. -/
theorem SceneNode.new_with_children (a : Nat) (cs : List (SceneNode K)) :
    cs.foldl SceneNode.AddChild (SceneNode.new a : SceneNode K) =
      SceneNode.mk a ⟨0, 0, 0⟩ ⟨0, 0, 0⟩ ⟨1, 1, 1⟩ "" "" 0 none cs
        ⟨-(1/2), -(1/2), -(1/2)⟩ ⟨1/2, 1/2, 1/2⟩ MeshType.Custom false := by
  rw [SceneNode.new, SceneNode.foldl_AddChild, List.nil_append]

/-- A node with position 0, rotation 0 and scale 1 has the parent matrix as
    model matrix. -/
theorem SceneNode.model_of_default (g : GlmKernel K) (n : SceneNode K) (M : Mat4 K)
    (hp : n.m_position = ⟨0, 0, 0⟩) (hr : n.m_rotation = ⟨0, 0, 0⟩)
    (hs : n.m_scale = ⟨1, 1, 1⟩) : n.model g M = M := by
  rw [SceneNode.model_eq_mul, hp, hr, hs]
  have e : glm.radians g 0 = 0 := by simp [glm.radians]
  have rx : RotateX g 0 = Mat4.identity := by
    simp [RotateX, Mat4.identity, g.cos_zero, g.sin_zero]
  have ry : RotateY g 0 = Mat4.identity := by
    simp [RotateY, Mat4.identity, g.cos_zero, g.sin_zero]
  have rz : RotateZ g 0 = Mat4.identity := by
    simp [RotateZ, Mat4.identity, g.cos_zero, g.sin_zero]
  have t : Translate (⟨0, 0, 0⟩ : Vec3 K) = Mat4.identity := rfl
  have sc : Scale (⟨1, 1, 1⟩ : Vec3 K) = Mat4.identity := rfl
  simp only [e, rx, ry, rz, t, sc, Mat4.mul_identity]

theorem inverseDet_identity : glm.inverseDet (Mat4.identity : Mat4 K) ≠ 0 := by
  simp [glm.inverseDet, glm.adjugate, Mat4.identity, Vec4.mul, Vec4.sub, Vec4.add]

theorem inverse_identity : glm.inverse (Mat4.identity : Mat4 K) = Mat4.identity := by
  simp [glm.inverse, glm.inverseDet, glm.adjugate, Mat4.identity, Vec4.mul, Vec4.sub,
    Vec4.add, Vec4.scale]

theorem Mat4.identity_mulVec (v : Vec4 K) : (Mat4.identity : Mat4 K).mulVec v = v := by
  obtain ⟨x, y, z, w⟩ := v
  simp [Mat4.identity, Mat4.mulVec, Vec4.add, Vec4.scale]

theorem inWorldBox_identity (lo hi p : Vec3 K) :
    inWorldBox Mat4.identity lo hi p ↔ inBox lo hi p := by
  unfold inWorldBox
  simp only [Mat4.identity_mulVec]
  constructor
  · rintro ⟨q, hq, e⟩
    have : q = p := e
    rw [← this]
    exact hq
  · intro h
    exact ⟨p, h, rfl⟩

/-- The local ray of a finite ray under the identity. -/
theorem SceneNode.localRay_identity (g : GlmKernel K) (o d : Vec3 K) :
    SceneNode.localRay g ⟨o.map Fl.fin, d.map Fl.fin⟩ Mat4.identity =
      Ray.ctor g (o.map Fl.fin) (glm.normalize (Fl.inversesqrt g) (d.map Fl.fin)) := by
  unfold SceneNode.localRay
  simp only [glm.inverse_map_fin _ inverseDet_identity, inverse_identity,
    Vec4.ofVec3_map_fin_one, Vec4.ofVec3_map_fin_zero, Mat4.mulVec_map_fin,
    Mat4.identity_mulVec, Vec4.xyz_map_fin]
  rfl

/-- C27. The node built by `SceneNode()` followed by `AddChild` calls
    (position 0, rotation 0, scale 1): for every parent matrix M its model
    matrix, the world transform, is M; `CheckRayHit` and `Render` call every
    child with M; its local box is `[-0.5, 0.5]^3`, and with M the identity the
    image of that box is the box itself and the box test of a finite ray is
    the test of the ray, its direction normalized, against that box. -/
theorem C27_default_node_is_transparent (g : GlmKernel K) (a : Nat)
    (children : List (SceneNode K)) (M : Mat4 K) (ray : Ray K) (tHit0 : Fl K)
    (st : PickState K) (sceneManager shaderManager meshes : Bool) (o d : Vec3 K) :
    ((children.foldl SceneNode.AddChild (SceneNode.new a)).model g M = M ∧
      (children.foldl SceneNode.AddChild (SceneNode.new a)).computeWorldTransform g M = M ∧
      (children.foldl SceneNode.AddChild (SceneNode.new a : SceneNode K)).m_children =
        children) ∧
    (SceneNode.CheckRayHit g ray tHit0 (children.foldl SceneNode.AddChild (SceneNode.new a)) M st =
        SceneNode.CheckRayHitChildren g ray tHit0 children M
          (SceneNode.recordHit a
            ((children.foldl SceneNode.AddChild (SceneNode.new a)).Intersects g ray M tHit0) st) ∧
      SceneNode.Render g sceneManager shaderManager meshes
          (children.foldl SceneNode.AddChild (SceneNode.new a)) M =
        SceneNode.renderCalls sceneManager shaderManager meshes
            (children.foldl SceneNode.AddChild (SceneNode.new a)) M ++
          SceneNode.RenderChildren g sceneManager shaderManager meshes children M ∧
      ∀ c ∈ children,
        (c, M) ∈ SceneNode.visits g (children.foldl SceneNode.AddChild (SceneNode.new a)) M) ∧
    ((children.foldl SceneNode.AddChild (SceneNode.new a : SceneNode K)).m_localMin =
        ⟨-(1/2), -(1/2), -(1/2)⟩ ∧
      (children.foldl SceneNode.AddChild (SceneNode.new a : SceneNode K)).m_localMax =
        ⟨1/2, 1/2, 1/2⟩ ∧
      (∀ p : Vec3 K,
        inWorldBox ((children.foldl SceneNode.AddChild (SceneNode.new a)).model g Mat4.identity)
          ⟨-(1/2), -(1/2), -(1/2)⟩ ⟨1/2, 1/2, 1/2⟩ p ↔
        inBox ⟨-(1/2), -(1/2), -(1/2)⟩ ⟨1/2, 1/2, 1/2⟩ p) ∧
      (children.foldl SceneNode.AddChild (SceneNode.new a)).Intersects g
          ⟨o.map Fl.fin, d.map Fl.fin⟩ Mat4.identity tHit0 =
        (Ray.ctor g (o.map Fl.fin)
          (glm.normalize (Fl.inversesqrt g) (d.map Fl.fin))).intersectsAABB
          ⟨Fl.fin (-(1/2)), Fl.fin (-(1/2)), Fl.fin (-(1/2))⟩
          ⟨Fl.fin (1/2), Fl.fin (1/2), Fl.fin (1/2)⟩ tHit0) := by
  have hm : ∀ M' : Mat4 K,
      (children.foldl SceneNode.AddChild (SceneNode.new a)).model g M' = M' := by
    intro M'
    apply SceneNode.model_of_default <;> rw [SceneNode.new_with_children] <;> rfl
  have hc : (children.foldl SceneNode.AddChild (SceneNode.new a : SceneNode K)).m_children =
      children := by
    rw [SceneNode.new_with_children]
    rfl
  have ha : (children.foldl SceneNode.AddChild (SceneNode.new a : SceneNode K)).addr = a := by
    rw [SceneNode.new_with_children]
    rfl
  refine ⟨⟨hm M, ?_, hc⟩, ⟨?_, ?_, ?_⟩, ?_, ?_, ?_, ?_⟩
  · rw [← SceneNode.model_eq_computeWorldTransform, hm M]
  · rw [SceneNode.CheckRayHit_eq, hm M, hc, ha]
  · rw [SceneNode.Render_eq, hm M, hc]
  · intro c hcm
    rw [SceneNode.visits_eq, hm M, hc]
    apply List.mem_cons_of_mem
    apply SceneNode.visits_subset_visitsChildren g c children hcm M
    rw [SceneNode.visits_eq]
    exact List.mem_cons_self _ _
  · rw [SceneNode.new_with_children]
    rfl
  · rw [SceneNode.new_with_children]
    rfl
  · intro p
    rw [hm Mat4.identity]
    exact inWorldBox_identity _ _ p
  · unfold SceneNode.Intersects
    simp only [hm Mat4.identity, SceneNode.localRay_identity]
    rw [SceneNode.new_with_children]
    rfl

/-! ### `FindMaterial` -/

theorem List.get_append_cons_length {α : Type} (e : α) (rest : List α) :
    ∀ (before : List α) (h : before.length < (before ++ e :: rest).length),
      (before ++ e :: rest).get ⟨before.length, h⟩ = e
  | [], _ => rfl
  | _ :: before, h => by
    simp only [List.cons_append, List.length_cons, List.get_cons_succ]
    exact List.get_append_cons_length e rest before _

/-- The loop of `FindMaterial` stops at once when `bFound` is set. -/
theorem SceneManager.FindMaterial.loop_found (ms : List (OBJECT_MATERIAL K)) (tag : String)
    (i : Nat) (m : OBJECT_MATERIAL K) :
    SceneManager.FindMaterial.loop ms tag i true m = (i, true, m) := by
  rw [SceneManager.FindMaterial.loop]
  simp

/-- The loop of `FindMaterial` from the index `before.length`, when no entry
    from there on has the tag. -/
theorem SceneManager.FindMaterial.loop_none (tag : String) (m : OBJECT_MATERIAL K) :
    ∀ (rest before : List (OBJECT_MATERIAL K)), (∀ x ∈ rest, x.tag ≠ tag) →
      SceneManager.FindMaterial.loop (before ++ rest) tag before.length false m =
        ((before ++ rest).length, false, m)
  | [], before, _ => by
    rw [SceneManager.FindMaterial.loop]
    simp
  | e :: rest, before, h => by
    have hlt : before.length < (before ++ e :: rest).length := by simp
    have hget : (before ++ e :: rest).get ⟨before.length, hlt⟩ = e :=
      List.get_append_cons_length e rest before hlt
    have hne : e.tag ≠ tag := h e (List.mem_cons_self _ _)
    rw [SceneManager.FindMaterial.loop, dif_pos ⟨hlt, rfl⟩, hget, if_neg hne]
    have e1 : before ++ e :: rest = (before ++ [e]) ++ rest := by simp
    have e2 : before.length + 1 = (before ++ [e]).length := by simp
    rw [e1, e2]
    exact SceneManager.FindMaterial.loop_none tag m rest (before ++ [e])
      (fun x hx => h x (List.mem_cons_of_mem _ hx))

/-- The loop of `FindMaterial` from the index `skipped.length`, when the first
    entry from there on with the tag is `e`. -/
theorem SceneManager.FindMaterial.loop_first (tag : String) (m e : OBJECT_MATERIAL K)
    (rest : List (OBJECT_MATERIAL K)) (he : e.tag = tag) :
    ∀ (skipped before : List (OBJECT_MATERIAL K)), (∀ x ∈ skipped, x.tag ≠ tag) →
      SceneManager.FindMaterial.loop (before ++ skipped ++ e :: rest) tag before.length false m =
        ((before ++ skipped).length, true,
          ⟨e.ambientColor, e.ambientStrength, e.diffuseColor, e.specularColor, e.shininess,
            m.tag⟩)
  | [], before, _ => by
    simp only [List.append_nil]
    have hlt : before.length < (before ++ e :: rest).length := by simp
    have hget : (before ++ e :: rest).get ⟨before.length, hlt⟩ = e :=
      List.get_append_cons_length e rest before hlt
    rw [SceneManager.FindMaterial.loop, dif_pos ⟨hlt, rfl⟩, hget, if_pos he,
      SceneManager.FindMaterial.loop_found]
  | y :: skipped, before, h => by
    have e0 : before ++ (y :: skipped) ++ e :: rest = before ++ y :: (skipped ++ e :: rest) := by
      simp
    rw [e0]
    have hlt : before.length < (before ++ y :: (skipped ++ e :: rest)).length := by simp
    have hget : (before ++ y :: (skipped ++ e :: rest)).get ⟨before.length, hlt⟩ = y :=
      List.get_append_cons_length y _ before hlt
    have hne : y.tag ≠ tag := h y (List.mem_cons_self _ _)
    rw [SceneManager.FindMaterial.loop, dif_pos ⟨hlt, rfl⟩, hget, if_neg hne]
    have e1 : before ++ y :: (skipped ++ e :: rest) = (before ++ [y]) ++ skipped ++ e :: rest := by
      simp
    have e2 : before.length + 1 = (before ++ [y]).length := by simp
    have e3 : before ++ (y :: skipped) = (before ++ [y]) ++ skipped := by simp
    rw [e1, e2, e3]
    exact SceneManager.FindMaterial.loop_first tag m e rest he skipped (before ++ [y])
      (fun x hx => h x (List.mem_cons_of_mem _ hx))

/-- C26. `FindMaterial` returns false exactly when the materials list is
    empty, and then leaves `material` as it was; for a non-empty list it
    returns true; when the first entry with the requested tag is `e`,
    `material` receives the five fields `ambientColor`, `ambientStrength`,
    `diffuseColor`, `specularColor`, `shininess` of `e` (its `tag` is not
    assigned); when no entry has the tag, `material` is left as it was, and
    `SetShaderMaterial` then passes the fields of its local, never assigned,
    `material` to the shader. -/
theorem C26_FindMaterial_result (m_objectMaterials : List (OBJECT_MATERIAL K)) (tag : String)
    (material : OBJECT_MATERIAL K) :
    ((SceneManager.FindMaterial m_objectMaterials tag material).1 = false ↔
      m_objectMaterials = []) ∧
    (m_objectMaterials = [] →
      SceneManager.FindMaterial m_objectMaterials tag material = (false, material)) ∧
    (∀ (skipped rest : List (OBJECT_MATERIAL K)) (e : OBJECT_MATERIAL K),
      m_objectMaterials = skipped ++ e :: rest → (∀ x ∈ skipped, x.tag ≠ tag) → e.tag = tag →
      SceneManager.FindMaterial m_objectMaterials tag material =
        (true, ⟨e.ambientColor, e.ambientStrength, e.diffuseColor, e.specularColor,
          e.shininess, material.tag⟩)) ∧
    (m_objectMaterials ≠ [] → (∀ x ∈ m_objectMaterials, x.tag ≠ tag) →
      SceneManager.FindMaterial m_objectMaterials tag material = (true, material) ∧
      SceneManager.SetShaderMaterial m_objectMaterials tag material =
        [MaterialCall.setVec3Value "material.ambientColor" material.ambientColor,
         MaterialCall.setFloatValue "material.ambientStrength" material.ambientStrength,
         MaterialCall.setVec3Value "material.diffuseColor" material.diffuseColor,
         MaterialCall.setVec3Value "material.specularColor" material.specularColor,
         MaterialCall.setFloatValue "material.shininess" material.shininess]) := by
  refine ⟨?_, ?_, ?_, ?_⟩
  · unfold SceneManager.FindMaterial
    by_cases h : m_objectMaterials.length = 0
    · simp [h, List.length_eq_zero.1 h]
    · have : m_objectMaterials ≠ [] := fun e => h (by rw [e]; rfl)
      simp [h, this]
  · intro h
    subst h
    rfl
  · intro skipped rest e hm hs he
    have hl : ¬ (m_objectMaterials.length = 0) := by
      rw [hm]
      simp
    have key := SceneManager.FindMaterial.loop_first tag material e rest he skipped [] hs
    simp only [List.nil_append, List.length_nil] at key
    unfold SceneManager.FindMaterial
    rw [if_neg hl, hm, key]
  · intro hne hall
    have hl : ¬ (m_objectMaterials.length = 0) := fun h => hne (List.length_eq_zero.1 h)
    have key := SceneManager.FindMaterial.loop_none tag material m_objectMaterials [] hall
    simp only [List.nil_append, List.length_nil] at key
    have hf : SceneManager.FindMaterial m_objectMaterials tag material = (true, material) := by
      unfold SceneManager.FindMaterial
      rw [if_neg hl, key]
    refine ⟨hf, ?_⟩
    unfold SceneManager.SetShaderMaterial
    have hpos : m_objectMaterials.length > 0 := Nat.pos_of_ne_zero hl
    simp only [hf, if_pos hpos, if_true]

/-! ### The pick ray through a perspective projection -/

/-- The linear part of a similarity multiplies scalar products by `s * s`. -/
theorem Mat4.isSimilarity.dot_mulVec (A : Mat4 K) (a : K) (hA : A.isSimilarity a)
    (u v : Vec4 K) (hu : u.w = 0) (hv : v.w = 0) :
    glm.dot (A.mulVec u).xyz (A.mulVec v).xyz = a * a * glm.dot u.xyz v.xyz := by
  obtain ⟨_, h00, h11, h22, h01, h02, h12⟩ := hA
  obtain ⟨ux, uy, uz, uw⟩ := u
  obtain ⟨vx, vy, vz, vw⟩ := v
  simp only at hu hv
  subst hu
  subst hv
  simp only [glm.dot, Vec4.xyz, Mat4.mulVec, Vec4.add, Vec4.scale] at h00 h11 h22 h01 h02 h12 ⊢
  linear_combination (ux * vx) * h00 + (uy * vy) * h11 + (uz * vz) * h22 +
    (ux * vy + uy * vx) * h01 + (ux * vz + uz * vx) * h02 + (uy * vz + uz * vy) * h12

theorem Mat4.mulCol_eq_mulVec (A : Mat4 K) (b : Vec4 K) : A.mulCol b = A.mulVec b := by
  simp only [Mat4.mulCol, Mat4.mulVec, Vec4.add, Vec4.scale, Vec4.mk.injEq]
  refine ⟨?_, ?_, ?_, ?_⟩ <;> ring

theorem Mat4.mul_cols (A B : Mat4 K) :
    A * B = ⟨A.mulVec B.c0, A.mulVec B.c1, A.mulVec B.c2, A.mulVec B.c3⟩ := by
  show Mat4.mul A B = _
  simp only [Mat4.mul, Mat4.mulCol_eq_mulVec]

/-- The product of two similarities is a similarity. -/
theorem Mat4.isSimilarity.mul (A B : Mat4 K) (a b : K) (hA : A.isSimilarity a)
    (hB : B.isSimilarity b) : (A * B).isSimilarity (a * b) := by
  have hAa := hA.1
  obtain ⟨⟨w0, w1, w2, w3⟩, h00, h11, h22, h01, h02, h12⟩ := hB
  rw [Mat4.mul_cols]
  refine ⟨⟨?_, ?_, ?_, ?_⟩, ?_, ?_, ?_, ?_, ?_, ?_⟩
  · rw [Mat4.mulVec_w_of_isAffine A hAa, w0]
  · rw [Mat4.mulVec_w_of_isAffine A hAa, w1]
  · rw [Mat4.mulVec_w_of_isAffine A hAa, w2]
  · rw [Mat4.mulVec_w_of_isAffine A hAa, w3]
  · rw [Mat4.isSimilarity.dot_mulVec A a hA _ _ w0 w0, h00]
    ring
  · rw [Mat4.isSimilarity.dot_mulVec A a hA _ _ w1 w1, h11]
    ring
  · rw [Mat4.isSimilarity.dot_mulVec A a hA _ _ w2 w2, h22]
    ring
  · rw [Mat4.isSimilarity.dot_mulVec A a hA _ _ w0 w1, h01]
    ring
  · rw [Mat4.isSimilarity.dot_mulVec A a hA _ _ w0 w2, h02]
    ring
  · rw [Mat4.isSimilarity.dot_mulVec A a hA _ _ w1 w2, h12]
    ring

namespace Binary32

theorem abs_roundEven_sub_le (t : ℚ) : |(roundEven t : ℚ) - t| ≤ 1 / 2 := by
  have h1 := Int.floor_le t
  have h2 := Int.lt_floor_add_one t
  unfold roundEven
  split_ifs with a b c
  · rw [abs_le]; constructor <;> linarith
  · push_cast; rw [abs_le]; constructor <;> linarith
  · rw [abs_le]; constructor <;> linarith
  · push_cast; rw [abs_le]; constructor <;> linarith

theorem roundEven_nonneg {t : ℚ} (h : 0 ≤ t) : 0 ≤ roundEven t := by
  have h1 : 0 ≤ ⌊t⌋ := Int.floor_nonneg.2 h
  unfold roundEven
  split_ifs <;> omega

theorem roundEven_nonpos {t : ℚ} (h : t ≤ 0) : roundEven t ≤ 0 := by
  have h1 : ⌊t⌋ ≤ 0 := Int.floor_nonpos h
  have h2 : ¬ t - ⌊t⌋ < 1 / 2 → ⌊t⌋ + 1 ≤ 0 := by
    intro hn
    have : ⌊t⌋ < 0 := by
      rw [Int.floor_lt]
      rcases h.lt_or_eq with h3 | h3
      · exact_mod_cast h3
      · exfalso
        apply hn
        rw [h3]
        norm_num
    omega
  unfold roundEven
  split_ifs with a b c
  · exact h1
  · exact h2 a
  · exact h1
  · exact h2 a

theorem ulp_pos (x : ℚ) : 0 < ulp x := by
  unfold ulp
  positivity

theorem halvings_eq (fuel n : Nat) (h : n ≤ fuel) : halvings fuel n = Nat.log2 n := by
  induction fuel generalizing n with
  | zero =>
    have : n = 0 := Nat.le_zero.1 h
    subst this
    rw [halvings, Nat.log2]
    simp
  | succ k ih =>
    rw [halvings, Nat.log2]
    by_cases h2 : 2 ≤ n
    · rw [if_pos h2, if_pos h2, ih (n / 2) (by omega)]
    · rw [if_neg h2, if_neg h2]

theorem log2_eq (n : Nat) : log2 n = Nat.log2 n := halvings_eq n n (le_refl n)

theorem ilog2_spec {x : ℚ} (hx : x ≠ 0) :
    (2 : ℚ) ^ ilog2 x ≤ |x| ∧ |x| < (2 : ℚ) ^ (ilog2 x + 1) := by
  have hp : x.num.natAbs ≠ 0 := by
    rw [Ne, Int.natAbs_eq_zero, Rat.num_eq_zero]
    exact hx
  have hq : x.den ≠ 0 := x.den_nz
  have p1 : ((2 : ℚ) ^ (Nat.log2 x.num.natAbs : ℤ)) ≤ (x.num.natAbs : ℚ) := by
    rw [zpow_natCast]
    exact_mod_cast Nat.log2_self_le hp
  have p2 : (x.num.natAbs : ℚ) < (2 : ℚ) ^ ((Nat.log2 x.num.natAbs : ℤ) + 1) := by
    have : (x.num.natAbs : ℚ) < (2 : ℚ) ^ (Nat.log2 x.num.natAbs + 1) := by
      exact_mod_cast (Nat.lt_log2_self (n := x.num.natAbs))
    rw [← zpow_natCast] at this
    exact_mod_cast this
  have q1 : ((2 : ℚ) ^ (Nat.log2 x.den : ℤ)) ≤ (x.den : ℚ) := by
    rw [zpow_natCast]
    exact_mod_cast Nat.log2_self_le hq
  have q2 : (x.den : ℚ) < (2 : ℚ) ^ ((Nat.log2 x.den : ℤ) + 1) := by
    have : (x.den : ℚ) < (2 : ℚ) ^ (Nat.log2 x.den + 1) := by
      exact_mod_cast (Nat.lt_log2_self (n := x.den))
    rw [← zpow_natCast] at this
    exact_mod_cast this
  have q0 : (0 : ℚ) < x.den := by exact_mod_cast Nat.pos_of_ne_zero hq
  have hab : |x| = (x.num.natAbs : ℚ) / (x.den : ℚ) := by
    have h1 : |x| = |(x.num : ℚ)| / (x.den : ℚ) := by
      conv_lhs => rw [← Rat.num_div_den x]
      rw [abs_div, abs_of_pos q0]
    rw [h1, Nat.cast_natAbs, Int.cast_abs]
  unfold ilog2
  rw [log2_eq, log2_eq]
  generalize (Nat.log2 x.num.natAbs : ℤ) = a at p1 p2 ⊢
  generalize (Nat.log2 x.den : ℤ) = b at q1 q2 ⊢
  have two : (2 : ℚ) ≠ 0 := two_ne_zero
  have lo : (2 : ℚ) ^ (a - b - 1) < |x| := by
    rw [hab, lt_div_iff₀ q0]
    have e1 : (2 : ℚ) ^ (a - b - 1) * (2 : ℚ) ^ (b + 1) = (2 : ℚ) ^ a := by
      rw [← zpow_add₀ two]
      congr 1
      ring
    have h3 : (2 : ℚ) ^ (a - b - 1) * (x.den : ℚ) < (2 : ℚ) ^ (a - b - 1) * (2 : ℚ) ^ (b + 1) :=
      mul_lt_mul_of_pos_left q2 (by positivity)
    linarith
  have hi : |x| < (2 : ℚ) ^ (a - b + 1) := by
    rw [hab, div_lt_iff₀ q0]
    have e1 : (2 : ℚ) ^ (a - b + 1) * (2 : ℚ) ^ b = (2 : ℚ) ^ (a + 1) := by
      rw [← zpow_add₀ two]
      congr 1
      ring
    have h3 : (2 : ℚ) ^ (a - b + 1) * (2 : ℚ) ^ b ≤ (2 : ℚ) ^ (a - b + 1) * (x.den : ℚ) :=
      mul_le_mul_of_nonneg_left q1 (by positivity)
    linarith
  split_ifs with h
  · exact ⟨h, hi⟩
  · refine ⟨lo.le, ?_⟩
    have : a - b - 1 + 1 = a - b := by ring
    rw [this]
    exact not_le.1 h

theorem ilog2_eq_log {x : ℚ} (hx : x ≠ 0) : ilog2 x = Int.log 2 |x| := by
  have hpos : 0 < |x| := abs_pos.2 hx
  obtain ⟨h1, h2⟩ := ilog2_spec hx
  apply le_antisymm
  · exact (Int.zpow_le_iff_le_log (R := ℚ) (b := 2) (by norm_num) hpos).1
      (by exact_mod_cast h1)
  · have := (Int.lt_zpow_iff_log_lt (R := ℚ) (b := 2) (by norm_num) hpos).1
      (by exact_mod_cast h2)
    omega

theorem binade_of_normal {x : ℚ} (h : (1 : ℚ) / 2 ^ 126 ≤ |x|) :
    binade x = Int.log 2 |x| := by
  have hpos : 0 < |x| := lt_of_lt_of_le (by positivity) h
  unfold binade
  rw [ilog2_eq_log (abs_pos.1 hpos)]
  have h1 : (-126 : ℤ) ≤ Int.log 2 |x| := by
    rw [← Int.zpow_le_iff_le_log (by norm_num) hpos]
    refine le_trans (le_of_eq ?_) h
    norm_num
  exact max_eq_left h1

theorem binade_of_subnormal {x : ℚ} (hx : x ≠ 0) (h : |x| < (1 : ℚ) / 2 ^ 126) :
    binade x = -126 := by
  have hpos : 0 < |x| := abs_pos.2 hx
  have h1 : Int.log 2 |x| < (-126 : ℤ) := by
    rw [← Int.lt_zpow_iff_log_lt (by norm_num) hpos]
    refine lt_of_lt_of_le h (le_of_eq ?_)
    norm_num
  unfold binade
  rw [ilog2_eq_log hx]
  exact max_eq_right h1.le

/-- In the normal range the spacing is at most `2^-23` times the number. -/
theorem ulp_le_of_normal {x : ℚ} (h : (1 : ℚ) / 2 ^ 126 ≤ |x|) : ulp x ≤ |x| / 2 ^ 23 := by
  have hpos : 0 < |x| := lt_of_lt_of_le (by positivity) h
  have h1 : ((2 : ℕ) : ℚ) ^ Int.log 2 |x| ≤ |x| := Int.zpow_log_le_self (by norm_num) hpos
  unfold ulp
  rw [binade_of_normal h, zpow_sub₀ (by norm_num)]
  have h2 : ((2 : ℚ) ^ (23 : ℤ)) = 2 ^ 23 := by norm_num
  rw [h2]
  have h3 : ((2 : ℕ) : ℚ) = 2 := by norm_num
  rw [h3] at h1
  exact div_le_div_of_nonneg_right h1 (by positivity)

theorem ulp_of_subnormal {x : ℚ} (hx : x ≠ 0) (h : |x| < (1 : ℚ) / 2 ^ 126) :
    ulp x = 1 / 2 ^ 149 := by
  unfold ulp
  rw [binade_of_subnormal hx h]
  norm_num

theorem half_ulp_le (x : ℚ) (hx : x ≠ 0) : ulp x / 2 ≤ |x| / 2 ^ 24 + 1 / 2 ^ 150 := by
  by_cases h : (1 : ℚ) / 2 ^ 126 ≤ |x|
  · have := ulp_le_of_normal h
    have h0 : (0 : ℚ) ≤ 1 / 2 ^ 150 := by positivity
    linarith
  · rw [ulp_of_subnormal hx (not_le.1 h)]
    have := abs_nonneg x
    have h0 : (0 : ℚ) ≤ |x| / 2 ^ 24 := by positivity
    linarith

theorem half_ulp_le_of_normal {x : ℚ} (h : (1 : ℚ) / 2 ^ 126 ≤ |x|) :
    ulp x / 2 ≤ |x| / 2 ^ 24 := by
  have := ulp_le_of_normal h
  linarith

theorem abs_nearest_sub_le (x : ℚ) : |nearest x - x| ≤ ulp x / 2 := by
  have hu := ulp_pos x
  have h := abs_roundEven_sub_le (x / ulp x)
  have e : nearest x - x = ((roundEven (x / ulp x) : ℚ) - x / ulp x) * ulp x := by
    unfold nearest
    field_simp
  rw [e, abs_mul, abs_of_pos hu]
  calc |(roundEven (x / ulp x) : ℚ) - x / ulp x| * ulp x ≤ 1 / 2 * ulp x :=
        mul_le_mul_of_nonneg_right h hu.le
    _ = ulp x / 2 := by ring

theorem nearest_nonneg {x : ℚ} (h : 0 ≤ x) : 0 ≤ nearest x := by
  have hu := ulp_pos x
  have : (0 : ℚ) ≤ roundEven (x / ulp x) := by
    exact_mod_cast roundEven_nonneg (div_nonneg h hu.le)
  unfold nearest
  positivity

theorem nearest_nonpos {x : ℚ} (h : x ≤ 0) : nearest x ≤ 0 := by
  have hu := ulp_pos x
  have : (roundEven (x / ulp x) : ℚ) ≤ 0 := by
    exact_mod_cast roundEven_nonpos (div_nonpos_of_nonpos_of_nonneg h hu.le)
  exact mul_nonpos_of_nonpos_of_nonneg this hu.le

theorem zero_val_isFinite (s : Bool) : (zero s).val.isFinite = true := by
  cases s <;> rfl

theorem zero_toRat (s : Bool) : (zero s).toRat = 0 := by
  cases s <;> rfl

theorem zero_signBit (s : Bool) : (zero s).val.signBit = s := by
  cases s <;> simp [zero, Fl.signBit]

theorem round_zero (s : Bool) : round 0 s = zero s := by
  simp [round]

theorem round_of_overflow (x : ℚ) (s : Bool) (hx : x ≠ 0) (h : (2 : ℚ) ^ 128 ≤ |nearest x|) :
    round x s = ⟨Fl.inf (decide (x < 0))⟩ := by
  unfold round
  rw [if_neg hx, if_pos h]

/-- A rounding that does not overflow gives the nearest binary32 number: a
    finite value within half a spacing of `x`, with the sign bit of `x`. -/
theorem round_of_lt (x : ℚ) (s : Bool) (hx : x ≠ 0) (h : |nearest x| < 2 ^ 128) :
    (round x s).val.isFinite = true ∧ (round x s).toRat = nearest x ∧
      (round x s).val.signBit = decide (x < 0) := by
  unfold round
  rw [if_neg hx, if_neg (not_le.2 h)]
  by_cases h2 : nearest x = 0
  · rw [if_pos h2, zero_toRat, h2]
    exact ⟨zero_val_isFinite _, rfl, zero_signBit _⟩
  · rw [if_neg h2]
    refine ⟨rfl, rfl, ?_⟩
    show decide (nearest x < 0) = decide (x < 0)
    rcases lt_or_gt_of_ne hx with hn | hp
    · have h3 : nearest x < 0 := lt_of_le_of_ne (nearest_nonpos hn.le) h2
      simp [h3, hn]
    · have h3 : ¬ nearest x < 0 := not_lt.2 (nearest_nonneg hp.le)
      have h4 : ¬ x < 0 := not_lt.2 hp.le
      simp [h3, h4]

theorem inf_not_isFinite (s : Bool) : (Fl.inf s : Fl ℚ).isFinite = false := by
  cases s <;> rfl

/-- A finite result of a rounding is the nearest binary32 number. -/
theorem round_of_isFinite (x : ℚ) (s : Bool) (hx : x ≠ 0)
    (h : (round x s).val.isFinite = true) :
    |nearest x| < 2 ^ 128 ∧ (round x s).toRat = nearest x ∧
      (round x s).val.signBit = decide (x < 0) := by
  by_cases h1 : (2 : ℚ) ^ 128 ≤ |nearest x|
  · rw [round_of_overflow x s hx h1, inf_not_isFinite] at h
    exact absurd h Bool.false_ne_true
  · have := round_of_lt x s hx (not_le.1 h1)
    exact ⟨not_le.1 h1, this.2.1, this.2.2⟩

/-- No overflow up to `2^127`. -/
theorem abs_nearest_lt (x : ℚ) (hx : x ≠ 0) (hle : |x| ≤ 2 ^ 127) : |nearest x| < 2 ^ 128 := by
  have he := abs_nearest_sub_le x
  have hh := half_ulp_le x hx
  have h1 : |nearest x| ≤ |nearest x - x| + |x| := by
    have := abs_add (nearest x - x) x
    simpa using this
  have h2 : |x| / 2 ^ 24 ≤ (2 : ℚ) ^ 127 / 2 ^ 24 :=
    div_le_div_of_nonneg_right hle (by positivity)
  have h3 : (2 : ℚ) ^ 127 / 2 ^ 24 + 1 / 2 ^ 150 + 2 ^ 127 < 2 ^ 128 := by norm_num
  linarith

theorem round_toRat_nonneg {x : ℚ} (s : Bool) (h : 0 ≤ x) : 0 ≤ (round x s).toRat := by
  unfold round
  split_ifs with h1 h2 h3
  · rw [zero_toRat]
  · cases decide (x < 0) <;> exact le_refl (0 : ℚ)
  · rw [zero_toRat]
  · exact nearest_nonneg h

end Binary32

/-! ### The rounded operations on finite numbers -/

namespace Binary32

theorem round_isFinite (x : ℚ) (s : Bool) (hle : |x| ≤ 2 ^ 127) :
    (round x s).val.isFinite = true := by
  by_cases hx : x = 0
  · rw [hx, round_zero]
    exact zero_val_isFinite s
  · exact (round_of_lt x s hx (abs_nearest_lt x hx hle)).1

/-- Error of a rounding that does not overflow: relative error `2^-24`, or
    absolute error `2^-150` in the subnormal range. -/
theorem round_err (x : ℚ) (s : Bool) (h : (round x s).val.isFinite = true) :
    |(round x s).toRat - x| ≤ |x| / 2 ^ 24 + 1 / 2 ^ 150 := by
  by_cases hx : x = 0
  · rw [hx, round_zero, zero_toRat]
    norm_num
  · rw [(round_of_isFinite x s hx h).2.1]
    exact le_trans (abs_nearest_sub_le x) (half_ulp_le x hx)

/-- Error of a rounding in the normal range: relative error `2^-24`. -/
theorem round_err_of_normal (x : ℚ) (s : Bool) (h : (round x s).val.isFinite = true)
    (hn : (1 : ℚ) / 2 ^ 126 ≤ |x|) : |(round x s).toRat - x| ≤ |x| / 2 ^ 24 := by
  have hx : x ≠ 0 := by
    intro h0
    rw [h0, abs_zero] at hn
    exact absurd hn (not_le.2 (by positivity))
  rw [(round_of_isFinite x s hx h).2.1]
  exact le_trans (abs_nearest_sub_le x) (half_ulp_le_of_normal hn)

theorem round_abs_lt (x : ℚ) (s : Bool) (h : (round x s).val.isFinite = true) :
    |(round x s).toRat| < 2 ^ 128 := by
  by_cases hx : x = 0
  · rw [hx, round_zero, zero_toRat, abs_zero]
    positivity
  · rw [(round_of_isFinite x s hx h).2.1]
    exact (round_of_isFinite x s hx h).1

theorem round_signBit (x : ℚ) (s : Bool) (h : (round x s).val.isFinite = true) :
    (round x s).val.signBit = if x = 0 then s else decide (x < 0) := by
  by_cases hx : x = 0
  · rw [if_pos hx, hx, round_zero, zero_signBit]
  · rw [if_neg hx]
    exact (round_of_isFinite x s hx h).2.2

theorem not_isFinite_add_left (a b : Fl ℚ) (h : a.isFinite = false) :
    (a + b : Fl ℚ).isFinite = false := by
  show (Fl.add a b).isFinite = false
  cases a <;> cases b <;> simp_all [Fl.add, Fl.isFinite]

theorem not_isFinite_add_right (a b : Fl ℚ) (h : b.isFinite = false) :
    (a + b : Fl ℚ).isFinite = false := by
  show (Fl.add a b).isFinite = false
  cases a <;> cases b <;> simp_all [Fl.add, Fl.isFinite]

theorem add_of_isFinite (a b : Binary32) (ha : a.val.isFinite = true)
    (hb : b.val.isFinite = true) :
    a + b = round (a.toRat + b.toRat) (a.val.signBit && b.val.signBit) := by
  show add a b = _
  unfold add
  rw [ha, hb]
  rfl

/-- A finite sum has finite terms. -/
theorem isFinite_of_add (a b : Binary32) (h : (a + b).val.isFinite = true) :
    a.val.isFinite = true ∧ b.val.isFinite = true := by
  by_contra hc
  have h1 : (a + b).val.isFinite = false := by
    show (add a b).val.isFinite = false
    unfold add
    by_cases ha : a.val.isFinite = true
    · have hb : b.val.isFinite = false := by
        cases hb : b.val.isFinite
        · rfl
        · exact absurd ⟨ha, hb⟩ hc
      rw [ha, hb]
      exact not_isFinite_add_right _ _ hb
    · have ha : a.val.isFinite = false := by simpa using ha
      rw [ha]
      exact not_isFinite_add_left _ _ ha
  rw [h1] at h
  exact absurd h Bool.false_ne_true

theorem isNaN_of_isFinite (a : Fl ℚ) (h : a.isFinite = true) : a.isNaN = false := by
  cases a <;> simp_all [Fl.isFinite, Fl.isNaN]

theorem mul_of_isFinite (a b : Binary32) (ha : a.val.isFinite = true)
    (hb : b.val.isFinite = true) :
    a * b = round (a.toRat * b.toRat) (xor a.val.signBit b.val.signBit) := by
  show mul a b = _
  unfold mul
  rw [isNaN_of_isFinite _ ha, isNaN_of_isFinite _ hb, ha, hb]
  rfl

/-- A finite product has finite factors. -/
theorem isFinite_of_mul (a b : Binary32) (h : (a * b).val.isFinite = true) :
    a.val.isFinite = true ∧ b.val.isFinite = true := by
  by_contra hc
  have h1 : (a * b).val.isFinite = false := by
    show (mul a b).val.isFinite = false
    unfold mul
    split_ifs with h1 h2 h3
    · rfl
    · exfalso
      apply hc
      simpa using h2
    · rfl
    · exact inf_not_isFinite _
  rw [h1] at h
  exact absurd h Bool.false_ne_true

theorem div_of_isFinite (a b : Binary32) (ha : a.val.isFinite = true)
    (hb : b.val.isFinite = true) (h0 : b.toRat ≠ 0) :
    a / b = round (a.toRat / b.toRat) (xor a.val.signBit b.val.signBit) := by
  show div a b = _
  unfold div
  rw [isNaN_of_isFinite _ ha, isNaN_of_isFinite _ hb, ha, hb]
  have : ¬ b.val.num = 0 := h0
  simp [this, toRat]

theorem signBit_of_pos (a : Binary32) (ha : a.val.isFinite = true) (h : 0 < a.toRat) :
    a.val.signBit = false := by
  obtain ⟨v⟩ := a
  cases v with
  | fin v =>
    have : ¬ v < 0 := not_lt.2 (le_of_lt h)
    simp [Fl.signBit, this]
  | nzero => exact absurd h (lt_irrefl _)
  | pinf => rfl
  | ninf => simp [Fl.isFinite] at ha
  | nan => rfl

theorem signBit_of_ne_zero (a : Binary32) (ha : a.val.isFinite = true) (h : a.toRat ≠ 0) :
    a.val.signBit = decide (a.toRat < 0) := by
  obtain ⟨v⟩ := a
  cases v with
  | fin v => rfl
  | nzero => exact absurd rfl h
  | pinf => simp [Fl.isFinite] at ha
  | ninf => simp [Fl.isFinite] at ha
  | nan => simp [Fl.isFinite] at ha

end Binary32

/-! ### The rounded scalar square `dot(v, v)` -/

namespace Binary32

theorem toRat_of_not_isFinite (a : Binary32) (h : ¬ a.val.isFinite = true) : a.toRat = 0 := by
  obtain ⟨v⟩ := a
  cases v <;> simp_all [toRat, Fl.num, Fl.isFinite]

theorem mul_self_spec (a : Binary32) (h : (a * a).val.isFinite = true) :
    a.val.isFinite = true ∧ 0 ≤ (a * a).toRat ∧
      |(a * a).toRat - a.toRat * a.toRat| ≤ a.toRat * a.toRat / 2 ^ 24 + 1 / 2 ^ 150 := by
  have ha := (isFinite_of_mul a a h).1
  rw [mul_of_isFinite a a ha ha] at h ⊢
  have h1 := round_err _ _ h
  rw [abs_of_nonneg (mul_self_nonneg a.toRat)] at h1
  exact ⟨ha, round_toRat_nonneg _ (mul_self_nonneg _), h1⟩

theorem add_spec (a b : Binary32) (h : (a + b).val.isFinite = true) (ha0 : 0 ≤ a.toRat)
    (hb0 : 0 ≤ b.toRat) :
    a.val.isFinite = true ∧ b.val.isFinite = true ∧ 0 ≤ (a + b).toRat ∧
      |(a + b).toRat - (a.toRat + b.toRat)| ≤ (a.toRat + b.toRat) / 2 ^ 24 + 1 / 2 ^ 150 := by
  obtain ⟨ha, hb⟩ := isFinite_of_add a b h
  rw [add_of_isFinite a b ha hb] at h ⊢
  have h1 := round_err _ _ h
  rw [abs_of_nonneg (add_nonneg ha0 hb0)] at h1
  exact ⟨ha, hb, round_toRat_nonneg _ (add_nonneg ha0 hb0), h1⟩

/-- A finite `dot(d, d)`: the components of `d` are finite and the result is
    the exact scalar square up to three roundings. -/
theorem dot_spec (d : Vec3 Binary32) (h : (glm.dot d d).val.isFinite = true) :
    d.x.val.isFinite = true ∧ d.y.val.isFinite = true ∧ d.z.val.isFinite = true ∧
      |(glm.dot d d).toRat - normSq d| ≤ normSq d / 2 ^ 22 + 6 / 2 ^ 150 := by
  have hz0 : 0 ≤ (d.z * d.z).toRat := by
    by_cases hz : (d.z * d.z).val.isFinite = true
    · exact (mul_self_spec d.z hz).2.1
    · exact le_of_eq (toRat_of_not_isFinite _ hz).symm
  have hx0 : 0 ≤ (d.x * d.x).toRat := by
    by_cases hz : (d.x * d.x).val.isFinite = true
    · exact (mul_self_spec d.x hz).2.1
    · exact le_of_eq (toRat_of_not_isFinite _ hz).symm
  have hy0 : 0 ≤ (d.y * d.y).toRat := by
    by_cases hz : (d.y * d.y).val.isFinite = true
    · exact (mul_self_spec d.y hz).2.1
    · exact le_of_eq (toRat_of_not_isFinite _ hz).symm
  have hxy0 : 0 ≤ (d.x * d.x + d.y * d.y).toRat := by
    by_cases hz : (d.x * d.x + d.y * d.y).val.isFinite = true
    · exact (add_spec _ _ hz hx0 hy0).2.2.1
    · exact le_of_eq (toRat_of_not_isFinite _ hz).symm
  have h' : (d.x * d.x + d.y * d.y + d.z * d.z).val.isFinite = true := h
  obtain ⟨f1, f2, -, e1⟩ := add_spec _ _ h' hxy0 hz0
  obtain ⟨f3, f4, -, e2⟩ := add_spec _ _ f1 hx0 hy0
  obtain ⟨fx, -, ex⟩ := mul_self_spec d.x f3
  obtain ⟨fy, -, ey⟩ := mul_self_spec d.y f4
  obtain ⟨fz, -, ez⟩ := mul_self_spec d.z f2
  refine ⟨fx, fy, fz, ?_⟩
  show |(d.x * d.x + d.y * d.y + d.z * d.z).toRat - normSq d| ≤ _
  unfold normSq
  have sx := mul_self_nonneg d.x.toRat
  have sy := mul_self_nonneg d.y.toRat
  have sz := mul_self_nonneg d.z.toRat
  rw [abs_le] at e1 e2 ex ey ez ⊢
  norm_num at e1 e2 ex ey ez ⊢
  constructor <;> linarith [e1.1, e1.2, e2.1, e2.2, ex.1, ex.2, ey.1, ey.2, ez.1, ez.2]

/-- The `dot(d, d)` of finite components of scalar square at most `2^126` is
    finite. -/
theorem dot_isFinite (d : Vec3 Binary32) (fx : d.x.val.isFinite = true)
    (fy : d.y.val.isFinite = true) (fz : d.z.val.isFinite = true) (hS : normSq d ≤ 2 ^ 126) :
    (glm.dot d d).val.isFinite = true := by
  unfold normSq at hS
  have sx := mul_self_nonneg d.x.toRat
  have sy := mul_self_nonneg d.y.toRat
  have sz := mul_self_nonneg d.z.toRat
  have big : (2 : ℚ) ^ 126 ≤ 2 ^ 127 := by norm_num
  have px : (d.x * d.x).val.isFinite = true := by
    rw [mul_of_isFinite _ _ fx fx]
    apply round_isFinite
    rw [abs_of_nonneg sx]
    linarith
  have py : (d.y * d.y).val.isFinite = true := by
    rw [mul_of_isFinite _ _ fy fy]
    apply round_isFinite
    rw [abs_of_nonneg sy]
    linarith
  have pz : (d.z * d.z).val.isFinite = true := by
    rw [mul_of_isFinite _ _ fz fz]
    apply round_isFinite
    rw [abs_of_nonneg sz]
    linarith
  obtain ⟨-, hx0, ex⟩ := mul_self_spec d.x px
  obtain ⟨-, hy0, ey⟩ := mul_self_spec d.y py
  obtain ⟨-, hz0, ez⟩ := mul_self_spec d.z pz
  rw [abs_le] at ex ey ez
  have pxy : (d.x * d.x + d.y * d.y).val.isFinite = true := by
    rw [add_of_isFinite _ _ px py]
    apply round_isFinite
    rw [abs_of_nonneg (add_nonneg hx0 hy0)]
    norm_num at ex ey hS ⊢
    linarith [ex.2, ey.2]
  obtain ⟨-, -, hxy0, exy⟩ := add_spec _ _ pxy hx0 hy0
  rw [abs_le] at exy
  show (d.x * d.x + d.y * d.y + d.z * d.z).val.isFinite = true
  rw [add_of_isFinite _ _ pxy pz]
  apply round_isFinite
  rw [abs_of_nonneg (add_nonneg hxy0 hz0)]
  norm_num at ex ey ez exy hS ⊢
  linarith [ex.2, ey.2, ez.2, exy.2]

theorem val_eq_fin_of_pos (a : Binary32) (fa : a.val.isFinite = true) (h : 0 < a.toRat) :
    a.val = Fl.fin a.toRat := by
  obtain ⟨v⟩ := a
  cases v with
  | fin v => rfl
  | nzero => exact absurd h (lt_irrefl _)
  | pinf => simp [Fl.isFinite] at fa
  | ninf => simp [Fl.isFinite] at fa
  | nan => simp [Fl.isFinite] at fa

theorem isNormal_iff (a : Binary32) :
    a.isNormal = true ↔ ∃ v : ℚ, a.val = Fl.fin v ∧ (1 : ℚ) / 2 ^ 126 ≤ v := by
  obtain ⟨v⟩ := a
  cases v with
  | fin v =>
    simp only [isNormal, decide_eq_true_eq]
    constructor
    · intro h
      exact ⟨v, rfl, h⟩
    · rintro ⟨w, hw, h⟩
      rw [Fl.fin.injEq] at hw
      rw [hw]
      exact h
  | nzero => simp [isNormal]
  | pinf => simp [isNormal]
  | ninf => simp [isNormal]
  | nan => simp [isNormal]

/-- A sufficient condition on the vector itself: finite components of scalar
    square between `2^-124` and `2^126` give a normal `dot(d, d)`. -/
theorem dot_isNormal_of_range (d : Vec3 Binary32) (fx : d.x.val.isFinite = true)
    (fy : d.y.val.isFinite = true) (fz : d.z.val.isFinite = true)
    (lo : (1 : ℚ) / 2 ^ 124 ≤ normSq d) (hi : normSq d ≤ 2 ^ 126) :
    (glm.dot d d).isNormal = true := by
  have hf := dot_isFinite d fx fy fz hi
  obtain ⟨-, -, -, e⟩ := dot_spec d hf
  rw [abs_le] at e
  have hpos : (1 : ℚ) / 2 ^ 126 ≤ (glm.dot d d).toRat := by
    norm_num at e lo ⊢
    linarith [e.1]
  rw [isNormal_iff]
  exact ⟨_, val_eq_fin_of_pos _ hf (lt_of_lt_of_le (by positivity) hpos), hpos⟩

end Binary32

/-! ### The rounded square root and `inversesqrt` -/

namespace Binary32

theorem isqrtFuel_spec (fuel n : Nat) (h : n ≤ fuel) :
    isqrtFuel fuel n * isqrtFuel fuel n ≤ n ∧
      n < (isqrtFuel fuel n + 1) * (isqrtFuel fuel n + 1) := by
  induction fuel generalizing n with
  | zero =>
    have : n = 0 := Nat.le_zero.1 h
    subst this
    simp [isqrtFuel]
  | succ k ih =>
    rw [isqrtFuel]
    by_cases h2 : n < 2
    · rw [if_pos h2]
      have : n = 0 ∨ n = 1 := by omega
      rcases this with h0 | h1
      · subst h0; simp
      · subst h1; simp
    · rw [if_neg h2]
      obtain ⟨a, b⟩ := ih (n / 4) (by omega)
      generalize isqrtFuel k (n / 4) = s at a b ⊢
      have h4 : n / 4 * 4 ≤ n := Nat.div_mul_le_self n 4
      have h5 : n < (n / 4 + 1) * 4 := Nat.lt_mul_of_div_lt (Nat.lt_succ_self _) (by norm_num)
      split_ifs with c
      · refine ⟨c, ?_⟩
        have : (2 * s + 1 + 1) * (2 * s + 1 + 1) = ((s + 1) * (s + 1)) * 4 := by ring
        rw [this]
        have : (n / 4 + 1) * 4 ≤ (s + 1) * (s + 1) * 4 := Nat.mul_le_mul_right 4 b
        omega
      · refine ⟨?_, not_le.1 c⟩
        have : 2 * s * (2 * s) = s * s * 4 := by ring
        rw [this]
        have : s * s * 4 ≤ n / 4 * 4 := Nat.mul_le_mul_right 4 a
        omega

theorem isqrt_eq (n : Nat) : isqrt n = Nat.sqrt n :=
  Nat.eq_sqrt.2 (isqrtFuel_spec n n (le_refl n))

/-- The number that `sqrt` rounds, scaled by `2^100`: at least `2^37`, and
    within `1/2` of the exact root. -/
theorem sqrt_locate (v : ℚ) (hv : (1 : ℚ) / 2 ^ 126 ≤ v) (t : ℚ)
    (ht : t = if ((isqrt ⌊v * 2 ^ 200⌋₊ : ℕ) : ℚ) * (isqrt ⌊v * 2 ^ 200⌋₊ : ℕ) = v * 2 ^ 200
      then ((isqrt ⌊v * 2 ^ 200⌋₊ : ℕ) : ℚ) else (isqrt ⌊v * 2 ^ 200⌋₊ : ℕ) + 1 / 2) :
    (2 : ℚ) ^ 37 ≤ t ∧ (t - 1 / 2) ^ 2 ≤ v * 2 ^ 200 ∧ v * 2 ^ 200 ≤ (t + 1 / 2) ^ 2 := by
  generalize hV : v * 2 ^ 200 = V at ht
  have hV74 : (2 : ℚ) ^ 74 ≤ V := by
    rw [← hV]
    have : (2 : ℚ) ^ 74 = 1 / 2 ^ 126 * 2 ^ 200 := by norm_num
    rw [this]
    exact mul_le_mul_of_nonneg_right hv (by positivity)
  have hV0 : 0 ≤ V := le_trans (by positivity) hV74
  generalize hm : ⌊V⌋₊ = m at ht
  rw [isqrt_eq] at ht
  generalize hr : Nat.sqrt m = r at ht
  have m1 : (m : ℚ) ≤ V := by
    rw [← hm]
    exact Nat.floor_le hV0
  have m2 : V < m + 1 := by
    rw [← hm]
    exact Nat.lt_floor_add_one V
  have r1 : ((r * r : ℕ) : ℚ) ≤ m := by
    rw [← hr]
    exact_mod_cast Nat.sqrt_le m
  have r2 : ((m + 1 : ℕ) : ℚ) ≤ ((r + 1) * (r + 1) : ℕ) := by
    rw [← hr]
    exact_mod_cast Nat.lt_succ_sqrt m
  push_cast at r1 r2
  have lo : (r : ℚ) * r ≤ V := le_trans r1 m1
  have hi : V < ((r : ℚ) + 1) * (r + 1) := lt_of_lt_of_le m2 r2
  have r0 : (0 : ℚ) ≤ r := Nat.cast_nonneg r
  have big : (2 : ℚ) ^ 37 ≤ r := by
    have h1 : (2 : ℚ) ^ 37 < r + 1 := by
      by_contra hc
      have hc := not_lt.1 hc
      have : ((r : ℚ) + 1) * (r + 1) ≤ 2 ^ 37 * 2 ^ 37 :=
        mul_le_mul hc hc (by positivity) (by positivity)
      have e : (2 : ℚ) ^ 37 * 2 ^ 37 = 2 ^ 74 := by norm_num
      linarith
    have h2 : (2 : ℕ) ^ 37 < r + 1 := by exact_mod_cast h1
    have h3 : (2 : ℕ) ^ 37 ≤ r := Nat.lt_succ_iff.1 h2
    exact_mod_cast h3
  split_ifs at ht with hc
  · rw [ht]
    refine ⟨big, ?_, ?_⟩
    · rw [← hc]
      have e : (2 : ℚ) ^ 37 = 137438953472 := by norm_num
      rw [e] at big
      nlinarith
    · rw [← hc]
      nlinarith
  · rw [ht]
    refine ⟨by linarith, ?_, ?_⟩
    · have : ((r : ℚ) + 1 / 2 - 1 / 2) ^ 2 = r * r := by ring
      rw [this]
      exact lo
    · have : ((r : ℚ) + 1 / 2 + 1 / 2) ^ 2 = (r + 1) * (r + 1) := by ring
      rw [this]
      exact hi.le

/-- The square root of a normal number: finite, positive, and of square within
    `3 * 2^-24` of the argument, relatively. -/
theorem sqrt_spec (a : Binary32) (v : ℚ) (h : a.val = Fl.fin v) (hv : (1 : ℚ) / 2 ^ 126 ≤ v)
    (hv2 : v < 2 ^ 128) :
    (sqrt a).val.isFinite = true ∧ 0 < (sqrt a).toRat ∧
      (1 - 3 / 2 ^ 24) * v ≤ (sqrt a).toRat ^ 2 ∧
      (sqrt a).toRat ^ 2 ≤ (1 + 3 / 2 ^ 24) * v := by
  have hv0 : 0 < v := lt_of_lt_of_le (by positivity) hv
  obtain ⟨t, ht⟩ : ∃ t : ℚ, t =
      if ((isqrt ⌊v * 2 ^ 200⌋₊ : ℕ) : ℚ) * (isqrt ⌊v * 2 ^ 200⌋₊ : ℕ) = v * 2 ^ 200
      then ((isqrt ⌊v * 2 ^ 200⌋₊ : ℕ) : ℚ) else (isqrt ⌊v * 2 ^ 200⌋₊ : ℕ) + 1 / 2 :=
    ⟨_, rfl⟩
  have e : sqrt a = round (t / 2 ^ 100) false := by
    unfold sqrt
    rw [h]
    simp only
    rw [if_neg (not_lt.2 hv0.le), if_neg (ne_of_gt hv0), ht]
  obtain ⟨t37, tlo, thi⟩ := sqrt_locate v hv t ht
  rw [e]
  have t0 : 0 < t := lt_of_lt_of_le (by positivity) t37
  -- the number rounded, `x = t / 2^100`
  obtain ⟨x, hx⟩ : ∃ x : ℚ, x = t / 2 ^ 100 := ⟨_, rfl⟩
  rw [← hx]
  have tx : t = x * 2 ^ 100 := by rw [hx]; field_simp
  have x0 : 0 < x := by rw [hx]; exact div_pos t0 (pow_pos two_pos 100)
  have xlo : (1 : ℚ) / 2 ^ 63 ≤ x := by
    rw [hx]
    have : (1 : ℚ) / 2 ^ 63 = 2 ^ 37 / 2 ^ 100 := by norm_num
    rw [this]
    exact div_le_div_of_nonneg_right t37 (by positivity)
  -- `v` against `x`
  have half : (1 : ℚ) / 2 ≤ t / 2 ^ 38 := by
    have : (1 : ℚ) / 2 = 2 ^ 37 / 2 ^ 38 := by norm_num
    rw [this]
    exact div_le_div_of_nonneg_right t37 (by positivity)
  have A1 : (t * (1 - 1 / 2 ^ 38)) ^ 2 ≤ v * 2 ^ 200 := by
    refine le_trans (pow_le_pow_left₀ ?_ ?_ 2) tlo
    · have : (0 : ℚ) ≤ 1 - 1 / 2 ^ 38 := by norm_num
      exact mul_nonneg t0.le this
    · have : t * (1 - 1 / 2 ^ 38) = t - t / 2 ^ 38 := by ring
      linarith
  have A2 : v * 2 ^ 200 ≤ (t * (1 + 1 / 2 ^ 38)) ^ 2 := by
    refine le_trans thi (pow_le_pow_left₀ (by linarith) ?_ 2)
    have : t * (1 + 1 / 2 ^ 38) = t + t / 2 ^ 38 := by ring
    linarith
  rw [tx] at A1 A2
  have A1' : x ^ 2 * (1 - 1 / 2 ^ 38) ^ 2 ≤ v := by
    have : (x * 2 ^ 100 * (1 - 1 / 2 ^ 38)) ^ 2 = x ^ 2 * (1 - 1 / 2 ^ 38) ^ 2 * 2 ^ 200 := by ring
    rw [this] at A1
    exact le_of_mul_le_mul_right A1 (by positivity)
  have A2' : v ≤ x ^ 2 * (1 + 1 / 2 ^ 38) ^ 2 := by
    have : (x * 2 ^ 100 * (1 + 1 / 2 ^ 38)) ^ 2 = x ^ 2 * (1 + 1 / 2 ^ 38) ^ 2 * 2 ^ 200 := by ring
    rw [this] at A2
    exact le_of_mul_le_mul_right A2 (by positivity)
  -- no overflow
  have xhi : x ≤ 2 ^ 127 := by
    by_contra hc
    have hc := (not_le.1 hc).le
    have h1 : ((2 : ℚ) ^ 127) ^ 2 ≤ x ^ 2 := pow_le_pow_left₀ (by positivity) hc 2
    have h2 : x ^ 2 * (1 - 1 / 2 ^ 38) ^ 2 < 2 ^ 128 := lt_of_le_of_lt A1' hv2
    norm_num at h1 h2
    linarith
  have fin : (round x false).val.isFinite = true :=
    round_isFinite x false (by rw [abs_of_pos x0]; exact xhi)
  have er := round_err_of_normal x false fin
    (by rw [abs_of_pos x0]; exact le_trans (by norm_num) xlo)
  rw [abs_of_pos x0, abs_le] at er
  have B1 : x * (1 - 1 / 2 ^ 24) ≤ (round x false).toRat := by linarith [er.1]
  have B2 : (round x false).toRat ≤ x * (1 + 1 / 2 ^ 24) := by linarith [er.2]
  have c1 : (0 : ℚ) < 1 - 1 / 2 ^ 24 := by norm_num
  have p0 : 0 < (round x false).toRat := lt_of_lt_of_le (mul_pos x0 c1) B1
  have C1 : (x * (1 - 1 / 2 ^ 24)) ^ 2 ≤ (round x false).toRat ^ 2 :=
    pow_le_pow_left₀ (mul_pos x0 c1).le B1 2
  have C2 : (round x false).toRat ^ 2 ≤ (x * (1 + 1 / 2 ^ 24)) ^ 2 :=
    pow_le_pow_left₀ p0.le B2 2
  have x2 : 0 ≤ x ^ 2 := sq_nonneg x
  refine ⟨fin, p0, ?_, ?_⟩
  · have e1 : (x * (1 - 1 / 2 ^ 24)) ^ 2 = x ^ 2 * (1 - 1 / 2 ^ 24) ^ 2 := by ring
    rw [e1] at C1
    norm_num at C1 A2' ⊢
    linarith
  · have e1 : (x * (1 + 1 / 2 ^ 24)) ^ 2 = x ^ 2 * (1 + 1 / 2 ^ 24) ^ 2 := by ring
    rw [e1] at C2
    norm_num at C2 A1' ⊢
    linarith

end Binary32

/-! ### `inversesqrt` and the components of `normalize` -/

namespace Binary32

theorem one_val_isFinite : (1 : Binary32).val.isFinite = true := rfl

theorem one_toRat : (1 : Binary32).toRat = 1 := rfl

/-- The value `s = inversesqrt(D)` for a normal `D = v`: finite, positive, and
    `v * s^2` is within `6 * 2^-24` of 1. -/
theorem inversesqrt_spec (a : Binary32) (v : ℚ) (h : a.val = Fl.fin v)
    (hv : (1 : ℚ) / 2 ^ 126 ≤ v) (hv2 : v < 2 ^ 128) :
    (inversesqrt a).val.isFinite = true ∧ 0 < (inversesqrt a).toRat ∧
      1 - 6 / 2 ^ 24 ≤ v * (inversesqrt a).toRat ^ 2 ∧
      v * (inversesqrt a).toRat ^ 2 ≤ 1 + 6 / 2 ^ 24 := by
  obtain ⟨fr, r0, rlo, rhi⟩ := sqrt_spec a v h hv hv2
  have e : inversesqrt a = round (1 / (sqrt a).toRat) (xor (1 : Binary32).val.signBit
      (sqrt a).val.signBit) := by
    unfold inversesqrt
    rw [div_of_isFinite 1 (sqrt a) one_val_isFinite fr (ne_of_gt r0), one_toRat]
  rw [e]
  generalize (sqrt a).toRat = r at r0 rlo rhi
  generalize xor (1 : Binary32).val.signBit (sqrt a).val.signBit = sb
  -- the range of the root
  have rl : (1 : ℚ) / 2 ^ 64 < r := by
    by_contra hc
    have hc := not_lt.1 hc
    have h1 : r ^ 2 ≤ ((1 : ℚ) / 2 ^ 64) ^ 2 := pow_le_pow_left₀ r0.le hc 2
    norm_num at h1 rlo hv
    linarith
  have rh : r < 2 ^ 65 := by
    by_contra hc
    have hc := not_lt.1 hc
    have h1 : ((2 : ℚ) ^ 65) ^ 2 ≤ r ^ 2 := pow_le_pow_left₀ (by positivity) hc 2
    norm_num at h1 rhi hv2
    linarith
  have x0 : 0 < 1 / r := one_div_pos.2 r0
  have xh : 1 / r ≤ 2 ^ 127 := by
    rw [div_le_iff₀ r0]
    have : (1 : ℚ) ≤ 2 ^ 127 * (1 / 2 ^ 64) := by norm_num
    have h2 : (2 : ℚ) ^ 127 * (1 / 2 ^ 64) ≤ 2 ^ 127 * r :=
      mul_le_mul_of_nonneg_left rl.le (by positivity)
    linarith
  have xl : (1 : ℚ) / 2 ^ 126 ≤ 1 / r := by
    rw [le_div_iff₀ r0]
    have h2 : (1 : ℚ) / 2 ^ 126 * r ≤ 1 / 2 ^ 126 * 2 ^ 65 :=
      mul_le_mul_of_nonneg_left rh.le (by positivity)
    have : (1 : ℚ) / 2 ^ 126 * 2 ^ 65 ≤ 1 := by norm_num
    linarith
  have fin : (round (1 / r) sb).val.isFinite = true :=
    round_isFinite _ _ (by rw [abs_of_pos x0]; exact xh)
  have er := round_err_of_normal _ sb fin (by rw [abs_of_pos x0]; exact xl)
  rw [abs_of_pos x0, abs_le] at er
  generalize (round (1 / r) sb).toRat = s at er
  -- `s * r` is within `2^-24` of 1
  have xr : 1 / r * r = 1 := by field_simp
  have P1 : 1 - 1 / 2 ^ 24 ≤ s * r := by
    have := mul_le_mul_of_nonneg_right er.1 r0.le
    have e1 : -(1 / r / 2 ^ 24) * r = -(1 / r * r) / 2 ^ 24 := by ring
    have e2 : (s - 1 / r) * r = s * r - 1 / r * r := by ring
    rw [e1, e2, xr] at this
    linarith
  have P2 : s * r ≤ 1 + 1 / 2 ^ 24 := by
    have := mul_le_mul_of_nonneg_right er.2 r0.le
    have e1 : 1 / r / 2 ^ 24 * r = 1 / r * r / 2 ^ 24 := by ring
    have e2 : (s - 1 / r) * r = s * r - 1 / r * r := by ring
    rw [e1, e2, xr] at this
    linarith
  have c1 : (0 : ℚ) < 1 - 1 / 2 ^ 24 := by norm_num
  have sr0 : 0 < s * r := lt_of_lt_of_le c1 P1
  have s0 : 0 < s := by
    by_contra hc
    have := mul_nonpos_of_nonpos_of_nonneg (not_lt.1 hc) r0.le
    linarith
  have Q1 : (1 - 1 / 2 ^ 24) ^ 2 ≤ (s * r) ^ 2 := pow_le_pow_left₀ c1.le P1 2
  have Q2 : (s * r) ^ 2 ≤ (1 + 1 / 2 ^ 24) ^ 2 := pow_le_pow_left₀ sr0.le P2 2
  have s2 : 0 ≤ s ^ 2 := sq_nonneg s
  have R1 := mul_le_mul_of_nonneg_right rlo s2
  have R2 := mul_le_mul_of_nonneg_right rhi s2
  have e3 : r ^ 2 * s ^ 2 = (s * r) ^ 2 := by ring
  rw [e3] at R1 R2
  have e4 : (1 - 3 / 2 ^ 24) * v * s ^ 2 = (1 - 3 / 2 ^ 24) * (v * s ^ 2) := by ring
  have e5 : (1 + 3 / 2 ^ 24) * v * s ^ 2 = (1 + 3 / 2 ^ 24) * (v * s ^ 2) := by ring
  rw [e4] at R1
  rw [e5] at R2
  generalize v * s ^ 2 = p at R1 R2
  generalize (s * r) ^ 2 = q at Q1 Q2 R1 R2
  refine ⟨fin, s0, ?_, ?_⟩
  · norm_num at Q1 R2 ⊢
    linarith
  · norm_num at Q2 R1 ⊢
    linarith

/-- Error of a square: a number within one rounding of `A`, `|A| ≤ 2`. -/
theorem sq_err (A n : ℚ) (hA : A ^ 2 ≤ 4) (h : |n - A| ≤ |A| / 2 ^ 24 + 1 / 2 ^ 150) :
    |n ^ 2 - A ^ 2| ≤ 3 / 2 ^ 24 * A ^ 2 + 5 / 2 ^ 150 := by
  have w0 : 0 ≤ |A| := abs_nonneg A
  have w2 : |A| ^ 2 = A ^ 2 := sq_abs A
  have wle : |A| ≤ 2 := by
    by_contra hc
    have hlt : 2 < |A| := not_le.1 hc
    have h4 : (2 : ℚ) ^ 2 < |A| ^ 2 := pow_lt_pow_left₀ hlt (by norm_num) (by norm_num)
    rw [w2] at h4
    norm_num at h4
    linarith
  have e : n ^ 2 - A ^ 2 = (n - A) * (2 * A + (n - A)) := by ring
  rw [e, abs_mul]
  have h2 : |2 * A + (n - A)| ≤ 2 * |A| + (|A| / 2 ^ 24 + 1 / 2 ^ 150) := by
    refine le_trans (abs_add _ _) ?_
    rw [abs_mul, abs_two]
    linarith
  have h3 : |n - A| * |2 * A + (n - A)| ≤
      (|A| / 2 ^ 24 + 1 / 2 ^ 150) * (2 * |A| + (|A| / 2 ^ 24 + 1 / 2 ^ 150)) :=
    mul_le_mul h h2 (abs_nonneg _) (by positivity)
  refine le_trans h3 ?_
  rw [← w2]
  generalize |A| = w at w0 wle
  have ww : 0 ≤ w ^ 2 := sq_nonneg w
  have e2 : (w / 2 ^ 24 + 1 / 2 ^ 150) * (2 * w + (w / 2 ^ 24 + 1 / 2 ^ 150)) =
      w ^ 2 * (2 / 2 ^ 24 + 1 / 2 ^ 48) + w * (2 / 2 ^ 150 + 2 / 2 ^ 174) + 1 / 2 ^ 300 := by
    ring
  rw [e2]
  norm_num
  linarith

end Binary32

/-! ### `glm::normalize` over binary32 -/

namespace Binary32

theorem abs_le_two_of_sq_le (A : ℚ) (hA : A ^ 2 ≤ 4) : |A| ≤ 2 := by
  by_contra hc
  have hlt : 2 < |A| := not_le.1 hc
  have h4 : (2 : ℚ) ^ 2 < |A| ^ 2 := pow_lt_pow_left₀ hlt (by norm_num) (by norm_num)
  rw [sq_abs] at h4
  norm_num at h4
  linarith

/-- One component of `v * s` for a finite positive `s`: no overflow when the
    exact product is at most 2 in absolute value, the sign bit is that of the
    component, and the error is that of one rounding. -/
theorem scale_spec (a s : Binary32) (fa : a.val.isFinite = true) (fs : s.val.isFinite = true)
    (s0 : 0 < s.toRat) (hb : (a.toRat * s.toRat) ^ 2 ≤ 4) :
    (a * s).val.isFinite = true ∧ (a * s).val.signBit = a.val.signBit ∧
      |(a * s).toRat - a.toRat * s.toRat| ≤ |a.toRat * s.toRat| / 2 ^ 24 + 1 / 2 ^ 150 := by
  rw [mul_of_isFinite a s fa fs]
  have hle : |a.toRat * s.toRat| ≤ 2 ^ 127 :=
    le_trans (abs_le_two_of_sq_le _ hb) (by norm_num)
  have fin := round_isFinite (a.toRat * s.toRat) (xor a.val.signBit s.val.signBit) hle
  refine ⟨fin, ?_, round_err _ _ fin⟩
  rw [round_signBit _ _ fin, signBit_of_pos s fs s0, Bool.xor_false]
  by_cases hx : a.toRat = 0
  · rw [hx, zero_mul, if_pos rfl]
  · rw [if_neg (mul_ne_zero hx (ne_of_gt s0)), signBit_of_ne_zero a fa hx]
    rcases lt_or_gt_of_ne hx with hn | hp
    · have : a.toRat * s.toRat < 0 := mul_neg_of_neg_of_pos hn s0
      simp [this, hn]
    · have h1 : ¬ a.toRat * s.toRat < 0 := not_lt.2 (mul_pos hp s0).le
      have h2 : ¬ a.toRat < 0 := not_lt.2 hp.le
      simp [h1, h2]

/-- A finite `dot(d, d)` is below `2^128`. -/
theorem dot_lt (d : Vec3 Binary32) (h : (glm.dot d d).val.isFinite = true) :
    (glm.dot d d).toRat < 2 ^ 128 := by
  have h' : (d.x * d.x + d.y * d.y + d.z * d.z).val.isFinite = true := h
  obtain ⟨f1, f2⟩ := isFinite_of_add _ _ h'
  show (d.x * d.x + d.y * d.y + d.z * d.z).toRat < 2 ^ 128
  rw [add_of_isFinite _ _ f1 f2] at h' ⊢
  exact lt_of_le_of_lt (le_abs_self _) (round_abs_lt _ _ h')

/-- The scalar square of `d` times `s^2`, for `s = inversesqrt(dot(d, d))` and
    a normal `dot(d, d)`: within `17 * 2^-24` of 1. -/
theorem normSq_mul_sq (d : Vec3 Binary32) (v : ℚ) (h : (glm.dot d d).val = Fl.fin v)
    (hv : (1 : ℚ) / 2 ^ 126 ≤ v) :
    1 - 17 / 2 ^ 24 ≤ normSq d * (inversesqrt (glm.dot d d)).toRat ^ 2 ∧
      normSq d * (inversesqrt (glm.dot d d)).toRat ^ 2 ≤ 1 + 17 / 2 ^ 24 := by
  have hfin : (glm.dot d d).val.isFinite = true := by rw [h]; rfl
  have hvt : (glm.dot d d).toRat = v := by unfold toRat; rw [h]; rfl
  obtain ⟨-, -, -, eS⟩ := dot_spec d hfin
  have hv2 : v < 2 ^ 128 := by rw [← hvt]; exact dot_lt d hfin
  obtain ⟨-, -, T1, T2⟩ := inversesqrt_spec (glm.dot d d) v h hv hv2
  rw [hvt, abs_le] at eS
  generalize (inversesqrt (glm.dot d d)).toRat = s at T1 T2
  have S0 : 0 ≤ normSq d := by
    unfold normSq
    have sx := mul_self_nonneg d.x.toRat
    have sy := mul_self_nonneg d.y.toRat
    have sz := mul_self_nonneg d.z.toRat
    linarith
  generalize normSq d = S at eS S0
  have s2 : 0 ≤ s ^ 2 := sq_nonneg s
  have eta : (6 : ℚ) / 2 ^ 150 ≤ 6 / 2 ^ 24 * v := by
    have := mul_le_mul_of_nonneg_left hv (by norm_num : (0 : ℚ) ≤ 6 / 2 ^ 24)
    refine le_trans (le_of_eq ?_) this
    norm_num
  have U1 : S * (1 - 1 / 2 ^ 22) ≤ v * (1 + 6 / 2 ^ 24) := by linarith [eS.1]
  have U2 : v * (1 - 6 / 2 ^ 24) ≤ S * (1 + 1 / 2 ^ 22) := by linarith [eS.2]
  have V1 := mul_le_mul_of_nonneg_right U1 s2
  have V2 := mul_le_mul_of_nonneg_right U2 s2
  have e1 : S * (1 - 1 / 2 ^ 22) * s ^ 2 = (S * s ^ 2) * (1 - 1 / 2 ^ 22) := by ring
  have e2 : v * (1 + 6 / 2 ^ 24) * s ^ 2 = (v * s ^ 2) * (1 + 6 / 2 ^ 24) := by ring
  have e3 : v * (1 - 6 / 2 ^ 24) * s ^ 2 = (v * s ^ 2) * (1 - 6 / 2 ^ 24) := by ring
  have e4 : S * (1 + 1 / 2 ^ 22) * s ^ 2 = (S * s ^ 2) * (1 + 1 / 2 ^ 22) := by ring
  rw [e1, e2] at V1
  rw [e3, e4] at V2
  generalize v * s ^ 2 = p at T1 T2 V1 V2
  generalize S * s ^ 2 = T at V1 V2
  constructor
  · norm_num at T1 V2 ⊢
    linarith
  · norm_num at T2 V1 ⊢
    linarith

end Binary32

/-! ### The direction stored by `normalize` -/

namespace Binary32

/-- One component of `normalize(d)` against the exact component divided by the
    length: with `T = |d|^2 * s^2` within `17 * 2^-24` of 1, `q = d_i^2` and
    `N` the square of the stored component. -/
theorem component_close (q S s N : ℚ) (q0 : 0 ≤ q) (qS : q ≤ S)
    (T1 : 1 - 17 / 2 ^ 24 ≤ S * s ^ 2) (T2 : S * s ^ 2 ≤ 1 + 17 / 2 ^ 24)
    (e : |N - q * s ^ 2| ≤ 3 / 2 ^ 24 * (q * s ^ 2) + 5 / 2 ^ 150) :
    |N * S - q| ≤ S / 2 ^ 19 := by
  have S0 : 0 ≤ S := le_trans q0 qS
  rw [abs_le] at e ⊢
  have a1 := mul_le_mul_of_nonneg_right e.1 S0
  have a2 := mul_le_mul_of_nonneg_right e.2 S0
  have b1 := mul_le_mul_of_nonneg_left T1 q0
  have b2 := mul_le_mul_of_nonneg_left T2 q0
  have e1 : -(3 / 2 ^ 24 * (q * s ^ 2) + 5 / 2 ^ 150) * S =
      -(3 / 2 ^ 24 * (q * (S * s ^ 2)) + 5 / 2 ^ 150 * S) := by ring
  have e2 : (N - q * s ^ 2) * S = N * S - q * (S * s ^ 2) := by ring
  have e3 : (3 / 2 ^ 24 * (q * s ^ 2) + 5 / 2 ^ 150) * S =
      3 / 2 ^ 24 * (q * (S * s ^ 2)) + 5 / 2 ^ 150 * S := by ring
  rw [e1, e2] at a1
  rw [e2, e3] at a2
  generalize q * (S * s ^ 2) = B at a1 a2 b1 b2
  generalize N * S = M at a1 a2
  norm_num at a1 a2 b1 b2 ⊢
  constructor <;> linarith

/-- The direction stored by `glm::normalize` for a vector whose `dot(d, d)` is
    a normal binary32 number: finite components with the sign bits of those of
    `d`, a scalar square within `2^-19` of 1, and each component squared within
    `2^-19` of the exact `d_i^2 / |d|^2`, the vector `d` being non-zero. -/
theorem normalize_spec (d : Vec3 Binary32) (v : ℚ) (h : (glm.dot d d).val = Fl.fin v)
    (hv : (1 : ℚ) / 2 ^ 126 ≤ v) :
    ((glm.normalize inversesqrt d).x.val.isFinite = true ∧
      (glm.normalize inversesqrt d).y.val.isFinite = true ∧
      (glm.normalize inversesqrt d).z.val.isFinite = true) ∧
    ((glm.normalize inversesqrt d).x.val.signBit = d.x.val.signBit ∧
      (glm.normalize inversesqrt d).y.val.signBit = d.y.val.signBit ∧
      (glm.normalize inversesqrt d).z.val.signBit = d.z.val.signBit) ∧
    |normSq (glm.normalize inversesqrt d) - 1| ≤ 1 / 2 ^ 19 ∧
    (|(glm.normalize inversesqrt d).x.toRat ^ 2 * normSq d - d.x.toRat ^ 2| ≤ normSq d / 2 ^ 19 ∧
      |(glm.normalize inversesqrt d).y.toRat ^ 2 * normSq d - d.y.toRat ^ 2| ≤
        normSq d / 2 ^ 19 ∧
      |(glm.normalize inversesqrt d).z.toRat ^ 2 * normSq d - d.z.toRat ^ 2| ≤
        normSq d / 2 ^ 19) ∧
    0 < normSq d := by
  have hfin : (glm.dot d d).val.isFinite = true := by rw [h]; rfl
  have hvt : (glm.dot d d).toRat = v := by unfold toRat; rw [h]; rfl
  obtain ⟨fx, fy, fz, -⟩ := dot_spec d hfin
  have hv2 : v < 2 ^ 128 := by rw [← hvt]; exact dot_lt d hfin
  obtain ⟨fs, s0, -, -⟩ := inversesqrt_spec (glm.dot d d) v h hv hv2
  obtain ⟨T1, T2⟩ := normSq_mul_sq d v h hv
  have en : glm.normalize inversesqrt d =
      ⟨d.x * inversesqrt (glm.dot d d), d.y * inversesqrt (glm.dot d d),
        d.z * inversesqrt (glm.dot d d)⟩ := rfl
  rw [en]
  simp only
  generalize inversesqrt (glm.dot d d) = s at fs s0 T1 T2
  have s2 : 0 ≤ s.toRat ^ 2 := sq_nonneg _
  have sx := sq_nonneg d.x.toRat
  have sy := sq_nonneg d.y.toRat
  have sz := sq_nonneg d.z.toRat
  have eS : normSq d = d.x.toRat ^ 2 + d.y.toRat ^ 2 + d.z.toRat ^ 2 := by
    unfold normSq
    ring
  have qx : d.x.toRat ^ 2 ≤ normSq d := by rw [eS]; linarith
  have qy : d.y.toRat ^ 2 ≤ normSq d := by rw [eS]; linarith
  have qz : d.z.toRat ^ 2 ≤ normSq d := by rw [eS]; linarith
  have T4 : normSq d * s.toRat ^ 2 ≤ 4 := le_trans T2 (by norm_num)
  have bx : (d.x.toRat * s.toRat) ^ 2 ≤ 4 := by
    rw [mul_pow]
    exact le_trans (mul_le_mul_of_nonneg_right qx s2) T4
  have byy : (d.y.toRat * s.toRat) ^ 2 ≤ 4 := by
    rw [mul_pow]
    exact le_trans (mul_le_mul_of_nonneg_right qy s2) T4
  have bz : (d.z.toRat * s.toRat) ^ 2 ≤ 4 := by
    rw [mul_pow]
    exact le_trans (mul_le_mul_of_nonneg_right qz s2) T4
  obtain ⟨nfx, nsx, nex⟩ := scale_spec d.x s fx fs s0 bx
  obtain ⟨nfy, nsy, ney⟩ := scale_spec d.y s fy fs s0 byy
  obtain ⟨nfz, nsz, nez⟩ := scale_spec d.z s fz fs s0 bz
  have cx := sq_err _ _ bx nex
  have cy := sq_err _ _ byy ney
  have cz := sq_err _ _ bz nez
  rw [mul_pow] at cx cy cz
  have Spos : 0 < normSq d := by
    by_contra hc
    have h0 : normSq d * s.toRat ^ 2 ≤ 0 :=
      mul_nonpos_of_nonpos_of_nonneg (not_lt.1 hc) s2
    norm_num at T1
    linarith
  refine ⟨⟨nfx, nfy, nfz⟩, ⟨nsx, nsy, nsz⟩, ?_,
    ⟨component_close _ _ _ _ sx qx T1 T2 cx, component_close _ _ _ _ sy qy T1 T2 cy,
      component_close _ _ _ _ sz qz T1 T2 cz⟩, Spos⟩
  have eN : normSq (⟨d.x * s, d.y * s, d.z * s⟩ : Vec3 Binary32) =
      (d.x * s).toRat ^ 2 + (d.y * s).toRat ^ 2 + (d.z * s).toRat ^ 2 := by
    unfold normSq
    ring
  rw [eN]
  have eT : normSq d * s.toRat ^ 2 =
      d.x.toRat ^ 2 * s.toRat ^ 2 + d.y.toRat ^ 2 * s.toRat ^ 2 + d.z.toRat ^ 2 * s.toRat ^ 2 := by
    rw [eS]
    ring
  rw [eT] at T1 T2
  have ax := mul_nonneg sx s2
  have ay := mul_nonneg sy s2
  have az := mul_nonneg sz s2
  generalize d.x.toRat ^ 2 * s.toRat ^ 2 = Ax at cx T1 T2 ax
  generalize d.y.toRat ^ 2 * s.toRat ^ 2 = Ay at cy T1 T2 ay
  generalize d.z.toRat ^ 2 * s.toRat ^ 2 = Az at cz T1 T2 az
  generalize (d.x * s).toRat ^ 2 = Nx at cx
  generalize (d.y * s).toRat ^ 2 = Ny at cy
  generalize (d.z * s).toRat ^ 2 = Nz at cz
  rw [abs_le] at cx cy cz ⊢
  norm_num at cx cy cz T1 T2 ⊢
  constructor <;> linarith

end Binary32

/-! ### The direction of a binary32 ray -/

namespace Binary32

/-- Normalizing twice, as `fromMouse` followed by the constructor does: for a
    vector with a normal `dot(w, w)` the result has finite components with the
    sign bits of those of `w` and a scalar square within `2^-19` of 1. -/
theorem normalize_normalize_spec (w : Vec3 Binary32) (h : (glm.dot w w).isNormal = true) :
    ((glm.normalize inversesqrt (glm.normalize inversesqrt w)).x.val.isFinite = true ∧
      (glm.normalize inversesqrt (glm.normalize inversesqrt w)).y.val.isFinite = true ∧
      (glm.normalize inversesqrt (glm.normalize inversesqrt w)).z.val.isFinite = true) ∧
    ((glm.normalize inversesqrt (glm.normalize inversesqrt w)).x.val.signBit = w.x.val.signBit ∧
      (glm.normalize inversesqrt (glm.normalize inversesqrt w)).y.val.signBit = w.y.val.signBit ∧
      (glm.normalize inversesqrt (glm.normalize inversesqrt w)).z.val.signBit =
        w.z.val.signBit) ∧
    |normSq (glm.normalize inversesqrt (glm.normalize inversesqrt w)) - 1| ≤ 1 / 2 ^ 19 := by
  obtain ⟨v, hv, hn⟩ := (isNormal_iff _).1 h
  obtain ⟨⟨fx, fy, fz⟩, ⟨sx, sy, sz⟩, e, -, -⟩ := normalize_spec w v hv hn
  generalize glm.normalize inversesqrt w = n at fx fy fz sx sy sz e
  rw [abs_le] at e
  have h2 : (glm.dot n n).isNormal = true :=
    dot_isNormal_of_range n fx fy fz (by norm_num at e ⊢; linarith [e.1])
      (by
        have : (2 : ℚ) ≤ 2 ^ 126 := by norm_num
        norm_num at e
        linarith [e.2])
  obtain ⟨v2, hv2, hn2⟩ := (isNormal_iff _).1 h2
  obtain ⟨f2, ⟨tx, ty, tz⟩, e2, -, -⟩ := normalize_spec n v2 hv2 hn2
  exact ⟨f2, ⟨tx.trans sx, ty.trans sy, tz.trans sz⟩, e2⟩

end Binary32

/-! ### Values of the binary32 operations -/

namespace Binary32

/-- Roundings to nearest: `1/3` and `1/10`, ties to even at `2^24 + 1` and
    `2^24 + 3`, overflow from `FLT_MAX + 2^103` on, gradual underflow and the
    sign of an underflow to zero. -/
theorem round_examples :
    round (1 / 3) false = exact (11184811 / 2 ^ 25) ∧
    round (1 / 10) false = exact (13421773 / 2 ^ 27) ∧
    round 16777217 false = exact 16777216 ∧
    round 16777219 false = exact 16777220 ∧
    round (FLT_MAX + 2 ^ 102) false = exact FLT_MAX ∧
    round (FLT_MAX + 2 ^ 103) false = ⟨Fl.pinf⟩ ∧
    round (1 / 2 ^ 150) false = exact 0 ∧
    round (3 / 2 ^ 150) false = exact (1 / 2 ^ 148) ∧
    round (-1 / 2 ^ 151) false = ⟨Fl.nzero⟩ := by
  refine ⟨by decide!, by decide!, by decide!, by decide!, by decide!, by decide!, by decide!,
    by decide!, by decide!⟩

/-- Square roots: `sqrt(2)`, `sqrt(3)`, `sqrt(25)`, and `inversesqrt(3)`,
    `inversesqrt(+0)`, `inversesqrt(-0)`, `inversesqrt(+∞)`. -/
theorem sqrt_examples :
    sqrt (exact 2) = exact (11863283 / 2 ^ 23) ∧
    sqrt (exact 3) = exact (14529495 / 2 ^ 23) ∧
    sqrt (exact 25) = exact 5 ∧
    inversesqrt (exact 3) = exact (4843165 / 2 ^ 23) ∧
    inversesqrt (exact 0) = ⟨Fl.pinf⟩ ∧
    inversesqrt ⟨Fl.nzero⟩ = ⟨Fl.ninf⟩ ∧
    inversesqrt ⟨Fl.pinf⟩ = exact 0 := by
  refine ⟨by decide!, by decide!, by decide!, by decide!, by decide!, by decide!, by decide!⟩

/-- The constructor keeps the sign of a zero component and gives the stored
    direction of (0, 3, 4) as the binary32 numbers nearest to 0.6 and 0.8. -/
theorem ctor_examples :
    (Ray32.ctor ⟨0, 0, 0⟩ ⟨⟨Fl.nzero⟩, exact 0, exact 1⟩).direction =
      ⟨⟨Fl.nzero⟩, exact 0, exact 1⟩ ∧
    (Ray32.ctor ⟨0, 0, 0⟩ ⟨exact 0, exact 3, exact 4⟩).direction =
      ⟨exact 0, exact (10066330 / 2 ^ 24), exact (13421773 / 2 ^ 24)⟩ := by
  refine ⟨by decide!, by decide!⟩

end Binary32

/-- C12. Over IEEE binary32 (rounding to nearest, overflow, underflow and
    signed zeros included): for every origin and every vector d whose
    `dot(d, d)`, as the program computes it, is a normal number (finite and at
    least `FLT_MIN = 2^-126`), the ray built by the constructor keeps the
    origin and stores `direction = glm::normalize(d)`, whose components are
    finite, have the sign bits of the components of d, and are those of
    d / |d| up to rounding: the sum of their squares is within `2^-19` of 1 and
    the square of each, times |d|^2, is within `2^-19 * |d|^2` of the square of
    the component of d, with |d|^2 > 0.  And when the vector w which `fromMouse` normalizes,
    `vec3(inverse(viewMatrix) * eyeCoords)`, has a normal `dot(w, w)`, the
    direction of the ray returned, `normalize(normalize(w))`, has finite
    components with the sign bits of those of w and squares that sum to within
    `2^-19` of 1. -/
theorem C12_direction_unit_length (origin d : Vec3 Binary32) (mouseX mouseY : Binary32)
    (screenWidth screenHeight : Int) (viewMatrix projectionMatrix : Mat4 Binary32)
    (hd : (glm.dot d d).isNormal = true)
    (hw : (glm.dot
        (Ray32.unprojected mouseX mouseY screenWidth screenHeight viewMatrix projectionMatrix)
        (Ray32.unprojected mouseX mouseY screenWidth screenHeight viewMatrix
          projectionMatrix)).isNormal = true) :
    ((Ray32.ctor origin d).origin = origin ∧
      (Ray32.ctor origin d).direction = glm.normalize Binary32.inversesqrt d ∧
      ((Ray32.ctor origin d).direction.x.val.isFinite = true ∧
        (Ray32.ctor origin d).direction.y.val.isFinite = true ∧
        (Ray32.ctor origin d).direction.z.val.isFinite = true) ∧
      ((Ray32.ctor origin d).direction.x.val.signBit = d.x.val.signBit ∧
        (Ray32.ctor origin d).direction.y.val.signBit = d.y.val.signBit ∧
        (Ray32.ctor origin d).direction.z.val.signBit = d.z.val.signBit) ∧
      |Binary32.normSq (Ray32.ctor origin d).direction - 1| ≤ 1 / 2 ^ 19 ∧
      (|(Ray32.ctor origin d).direction.x.toRat ^ 2 * Binary32.normSq d - d.x.toRat ^ 2| ≤
          Binary32.normSq d / 2 ^ 19 ∧
        |(Ray32.ctor origin d).direction.y.toRat ^ 2 * Binary32.normSq d - d.y.toRat ^ 2| ≤
          Binary32.normSq d / 2 ^ 19 ∧
        |(Ray32.ctor origin d).direction.z.toRat ^ 2 * Binary32.normSq d - d.z.toRat ^ 2| ≤
          Binary32.normSq d / 2 ^ 19) ∧
      0 < Binary32.normSq d) ∧
    ((Ray32.fromMouse mouseX mouseY screenWidth screenHeight viewMatrix
          projectionMatrix).direction =
        glm.normalize Binary32.inversesqrt (glm.normalize Binary32.inversesqrt
          (Ray32.unprojected mouseX mouseY screenWidth screenHeight viewMatrix
            projectionMatrix)) ∧
      ((Ray32.fromMouse mouseX mouseY screenWidth screenHeight viewMatrix
            projectionMatrix).direction.x.val.isFinite = true ∧
        (Ray32.fromMouse mouseX mouseY screenWidth screenHeight viewMatrix
            projectionMatrix).direction.y.val.isFinite = true ∧
        (Ray32.fromMouse mouseX mouseY screenWidth screenHeight viewMatrix
            projectionMatrix).direction.z.val.isFinite = true) ∧
      ((Ray32.fromMouse mouseX mouseY screenWidth screenHeight viewMatrix
            projectionMatrix).direction.x.val.signBit =
          (Ray32.unprojected mouseX mouseY screenWidth screenHeight viewMatrix
            projectionMatrix).x.val.signBit ∧
        (Ray32.fromMouse mouseX mouseY screenWidth screenHeight viewMatrix
            projectionMatrix).direction.y.val.signBit =
          (Ray32.unprojected mouseX mouseY screenWidth screenHeight viewMatrix
            projectionMatrix).y.val.signBit ∧
        (Ray32.fromMouse mouseX mouseY screenWidth screenHeight viewMatrix
            projectionMatrix).direction.z.val.signBit =
          (Ray32.unprojected mouseX mouseY screenWidth screenHeight viewMatrix
            projectionMatrix).z.val.signBit) ∧
      |Binary32.normSq (Ray32.fromMouse mouseX mouseY screenWidth screenHeight viewMatrix
          projectionMatrix).direction - 1| ≤ 1 / 2 ^ 19) := by
  obtain ⟨v, hv, hn⟩ := (Binary32.isNormal_iff _).1 hd
  obtain ⟨f, s, e, c, p⟩ := Binary32.normalize_spec d v hv hn
  obtain ⟨f2, s2, e2⟩ := Binary32.normalize_normalize_spec _ hw
  exact ⟨⟨rfl, rfl, f, s, e, c, p⟩, rfl, f2, s2, e2⟩

/-- C12 for the vector (0, 3, 4), and for the pixel (200, 150) of an 800 by
    600 screen seen through the identity projection by a camera at (1, 2, 3). -/
theorem C12_direction_unit_length_witness :
    (glm.dot (⟨Binary32.exact 0, Binary32.exact 3, Binary32.exact 4⟩ : Vec3 Binary32)
      ⟨Binary32.exact 0, Binary32.exact 3, Binary32.exact 4⟩).isNormal = true ∧
    (glm.dot
      (Ray32.unprojected (Binary32.exact 200) (Binary32.exact 150) 800 600
        ((Translate (⟨-1, -2, -3⟩ : Vec3 ℚ)).map Binary32.exact) Mat4.identity)
      (Ray32.unprojected (Binary32.exact 200) (Binary32.exact 150) 800 600
        ((Translate (⟨-1, -2, -3⟩ : Vec3 ℚ)).map Binary32.exact) Mat4.identity)).isNormal = true ∧
    |Binary32.normSq (Ray32.ctor ⟨Binary32.exact 1, Binary32.exact 2, Binary32.exact 3⟩
        ⟨Binary32.exact 0, Binary32.exact 3, Binary32.exact 4⟩).direction - 1| ≤ 1 / 2 ^ 19 ∧
    |Binary32.normSq (Ray32.fromMouse (Binary32.exact 200) (Binary32.exact 150) 800 600
        ((Translate (⟨-1, -2, -3⟩ : Vec3 ℚ)).map Binary32.exact) Mat4.identity).direction - 1| ≤
      1 / 2 ^ 19 :=
  have h := C12_direction_unit_length ⟨Binary32.exact 1, Binary32.exact 2, Binary32.exact 3⟩
    ⟨Binary32.exact 0, Binary32.exact 3, Binary32.exact 4⟩ (Binary32.exact 200)
    (Binary32.exact 150) 800 600 ((Translate (⟨-1, -2, -3⟩ : Vec3 ℚ)).map Binary32.exact)
    Mat4.identity (by decide!) (by decide!)
  ⟨by decide!, by decide!, h.1.2.2.2.2.1, h.2.2.2.2⟩

/-- C12, counterexamples to the claim as stated, over binary32.  For the
    non-zero vector (0, 0, 2^100) the constructor stores the direction
    (0, 0, 0): `dot(d, d)` overflows to `+∞` and `inversesqrt(+∞) = 0`.  For
    (0, 0, 2^-100) it stores (NaN, NaN, +∞): `dot(d, d)` underflows to 0.  For
    (0, 0, 3 * 2^-75) it stores (0, 0, 4448731 / 2^22), of length about 1.06:
    `dot(d, d) = 2^-147` is a subnormal number with two significant bits.  For
    (1, 1, 1) it stores three times the binary32 number `4843165 / 2^23`, a
    vector whose length is not 1.  With the identity as projection matrix and
    the invertible view matrix that exchanges `z` and `w`, the pixel at the
    centre of an 800 by 600 screen gives a ray of direction (NaN, NaN, NaN),
    and so does a screen of size 0 by 0 with identity matrices. -/
theorem C12_counterexample :
    (Ray32.ctor ⟨0, 0, 0⟩
      ⟨Binary32.exact 0, Binary32.exact 0, Binary32.exact (2 ^ 100)⟩).direction =
        ⟨Binary32.exact 0, Binary32.exact 0, Binary32.exact 0⟩ ∧
    (Ray32.ctor ⟨0, 0, 0⟩
      ⟨Binary32.exact 0, Binary32.exact 0, Binary32.exact (1 / 2 ^ 100)⟩).direction =
        ⟨⟨Fl.nan⟩, ⟨Fl.nan⟩, ⟨Fl.pinf⟩⟩ ∧
    (Ray32.ctor ⟨0, 0, 0⟩
      ⟨Binary32.exact 0, Binary32.exact 0, Binary32.exact (3 / 2 ^ 75)⟩).direction =
        ⟨Binary32.exact 0, Binary32.exact 0, Binary32.exact (4448731 / 2 ^ 22)⟩ ∧
    ((Ray32.ctor ⟨0, 0, 0⟩
      ⟨Binary32.exact 1, Binary32.exact 1, Binary32.exact 1⟩).direction =
        ⟨Binary32.exact (4843165 / 2 ^ 23), Binary32.exact (4843165 / 2 ^ 23),
          Binary32.exact (4843165 / 2 ^ 23)⟩ ∧
      Binary32.normSq (Ray32.ctor ⟨0, 0, 0⟩
        ⟨Binary32.exact 1, Binary32.exact 1, Binary32.exact 1⟩).direction ≠ 1) ∧
    (glm.inverseDet swapZW ≠ 0 ∧ glm.inverseDet (Mat4.identity : Mat4 ℚ) ≠ 0 ∧
      (Ray32.fromMouse (Binary32.exact 400) (Binary32.exact 300) 800 600
        (swapZW.map Binary32.exact) Mat4.identity).direction = ⟨⟨Fl.nan⟩, ⟨Fl.nan⟩, ⟨Fl.nan⟩⟩ ∧
      (Ray32.fromMouse (Binary32.exact 0) (Binary32.exact 0) 0 0 Mat4.identity
        Mat4.identity).direction = ⟨⟨Fl.nan⟩, ⟨Fl.nan⟩, ⟨Fl.nan⟩⟩) := by
  refine ⟨by decide!, by decide!, by decide!, ⟨by decide!, by decide!⟩, by decide!, by decide!,
    by decide!, by decide!⟩
